import Mathlib

/-!
Verification of the discrete Morse–Smale complex engine `morse/torusmesh.py`
(class `TorusMesh`) against its natural-language specification.

The mesh stores all cells of the toroidal cubical complex in a single integer
address space of size `4·N` (`N = sizeX · sizeY`):
vertices `[0, N)`, horizontal edges `[N, 2N)`, vertical edges `[2N, 3N)`,
faces `[3N, 4N)`.  Field values are embedded as rationals (the Python code
uses floats; all concrete inputs in this development are integral, so `ℚ`
is an exact model).  Fallible Python code (raised exceptions) is embedded
with `Option`, `none` meaning an uncaught exception; unbounded `while` loops
are embedded with an explicit fuel argument, `none` also standing for
running out of fuel.
-/

/-- The mesh: grid sizes and the scalar field.  `values x y` embeds the NumPy
array access `values[x, y]` of shape `(sizeX, sizeY)`. -/
structure Mesh where
  sizeX : ℕ
  sizeY : ℕ
  values : ℕ → ℕ → ℚ

variable {m : Mesh}

/-- `self.size = lx * ly`, the number of vertices. -/
def Mesh.size (m : Mesh) : ℕ := m.sizeX * m.sizeY

/-- `dim`: dimension of a cell (0 for vertices, 1 for edges, 2 for faces). -/
def Mesh.dim (m : Mesh) (idx : ℕ) : ℕ :=
  if idx < m.size then 0 else if idx < 3 * m.size then 1 else 2

/-- `_to_index`: global vertex index from grid coordinates, `x * sizeY + y`. -/
def Mesh.to_index (m : Mesh) (x y : ℕ) : ℕ := x * m.sizeY + y

/-- `_vleft`: `idx - idx % sizeX + (idx + sizeX - 1) % sizeX`. -/
def Mesh.vleft (m : Mesh) (idx : ℕ) : ℕ :=
  idx - idx % m.sizeX + (idx + m.sizeX - 1) % m.sizeX

/-- `_vright`: `idx - idx % sizeX + (idx + 1) % sizeX`. -/
def Mesh.vright (m : Mesh) (idx : ℕ) : ℕ :=
  idx - idx % m.sizeX + (idx + 1) % m.sizeX

/-- `_vtop`: `(idx + size - sizeX) % size`. -/
def Mesh.vtop (m : Mesh) (idx : ℕ) : ℕ := (idx + m.size - m.sizeX) % m.size

/-- `_vbottom`: `(idx + sizeX) % size`. -/
def Mesh.vbottom (m : Mesh) (idx : ℕ) : ℕ := (idx + m.sizeX) % m.size

/-- `_eleft`: `size + _vleft(idx)`. -/
def Mesh.eleft (m : Mesh) (idx : ℕ) : ℕ := m.size + m.vleft idx

/-- `_eright`: `size + idx`. -/
def Mesh.eright (m : Mesh) (idx : ℕ) : ℕ := m.size + idx

/-- `_etop`: `size * 2 + _vtop(idx)`. -/
def Mesh.etop (m : Mesh) (idx : ℕ) : ℕ := m.size * 2 + m.vtop idx

/-- `_ebottom`: `size * 2 + idx`. -/
def Mesh.ebottom (m : Mesh) (idx : ℕ) : ℕ := m.size * 2 + idx

/-- `_flefttop`: `size * 3 + _vtop(_vleft(idx))`. -/
def Mesh.flefttop (m : Mesh) (idx : ℕ) : ℕ := m.size * 3 + m.vtop (m.vleft idx)

/-- `_fleftbottom`: `size * 3 + _vleft(idx)`. -/
def Mesh.fleftbottom (m : Mesh) (idx : ℕ) : ℕ := m.size * 3 + m.vleft idx

/-- `_frighttop`: `size * 3 + _vtop(idx)`. -/
def Mesh.frighttop (m : Mesh) (idx : ℕ) : ℕ := m.size * 3 + m.vtop idx

/-- `_frightbottom`: `size * 3 + idx`. -/
def Mesh.frightbottom (m : Mesh) (idx : ℕ) : ℕ := m.size * 3 + idx

/-- `_verts`: the vertex list of a cell (Python returns tuples). -/
def Mesh.verts (m : Mesh) (idx : ℕ) : List ℕ :=
  if idx < m.size then [idx]
  else if idx < 2 * m.size then [idx - m.size, m.vright (idx - m.size)]
  else if idx < 3 * m.size then [idx - 2 * m.size, m.vbottom (idx - 2 * m.size)]
  else [idx - 3 * m.size, m.vright (idx - 3 * m.size),
        m.vbottom (m.vright (idx - 3 * m.size)), m.vbottom (idx - 3 * m.size)]

/-- `_facets`: hyperfaces of a cell; for a 2-cell its four bounding edges
(top, left, bottom, right), otherwise `_verts`. -/
def Mesh.facets (m : Mesh) (idx : ℕ) : List ℕ :=
  if m.dim idx = 2 then
    [m.size + (idx - 3 * m.size), 2 * m.size + (idx - 3 * m.size),
     m.size + m.vbottom (idx - 3 * m.size), 2 * m.size + m.vright (idx - 3 * m.size)]
  else m.verts idx

/-- `_cofacets`: the two faces incident to an edge; raises (`none`) unless the
cell has dimension 1. -/
def Mesh.cofacets (m : Mesh) (idx : ℕ) : Option (ℕ × ℕ) :=
  if m.dim idx ≠ 1 then none
  else if idx < 2 * m.size then
    some (3 * m.size + m.vtop (idx - m.size), 3 * m.size + (idx - m.size))
  else
    some (3 * m.size + m.vleft (idx - 2 * m.size), 3 * m.size + (idx - 2 * m.size))

/-- `coordx`: `idx % sizeX`. -/
def Mesh.coordx (m : Mesh) (idx : ℕ) : ℕ := idx % m.sizeX

/-- `coordy`: `idx // sizeX`. -/
def Mesh.coordy (m : Mesh) (idx : ℕ) : ℕ := idx / m.sizeX

/-- `value`: `values[coordx(idx), coordy(idx)]`. -/
def Mesh.value (m : Mesh) (idx : ℕ) : ℚ := m.values (m.coordx idx) (m.coordy idx)

/-- `star`: the eight cells of the star of a vertex, in source order. -/
def Mesh.star (m : Mesh) (idx : ℕ) : List ℕ :=
  [m.eright idx, m.etop idx, m.eleft idx, m.ebottom idx,
   m.frighttop idx, m.flefttop idx, m.fleftbottom idx, m.frightbottom idx]

/-- Insert a rational into a descending-sorted list, before the first element
that is not greater (stable, mirroring Python's stable `sorted(reverse=True)`). -/
def insertDescQ (a : ℚ) : List ℚ → List ℚ
  | [] => [a]
  | b :: l => if a < b then b :: insertDescQ a l else a :: b :: l

/-- Descending stable sort of rationals (`sorted(..., reverse=True)`). -/
def sortDescQ : List ℚ → List ℚ
  | [] => []
  | a :: l => insertDescQ a (sortDescQ l)

/-- `_extvalue`: the values at the cell's vertices, sorted descending. -/
def Mesh.extvalue (m : Mesh) (idx : ℕ) : List ℚ :=
  sortDescQ ((m.verts idx).map m.value)

/-- Strict lexicographic order on rational lists, exactly Python's `<` on
tuples: a strict prefix is smaller. -/
def listLtQ : List ℚ → List ℚ → Bool
  | [], [] => false
  | [], _ :: _ => true
  | _ :: _, [] => false
  | a :: l, b :: r => if a < b then true else if b < a then false else listLtQ l r

/-- Stable ascending insertion by an extended-value key (Python's stable
`list.sort(key=...)`): an element is inserted before the first element whose
key is not smaller. -/
def insertAscBy (key : ℕ → List ℚ) (a : ℕ) : List ℕ → List ℕ
  | [] => [a]
  | b :: l => if listLtQ (key b) (key a) then b :: insertAscBy key a l else a :: b :: l

/-- Stable ascending sort by an extended-value key. -/
def sortAscBy (key : ℕ → List ℚ) : List ℕ → List ℕ
  | [] => []
  | a :: l => insertAscBy key a (sortAscBy key l)

/-- The multigraph `nx.MultiGraph`: a node list and an edge list (parallel
edges are repeated entries; an edge is recorded with the endpoints in the
order they were passed to `add_edge`). -/
structure MGraph where
  nodes : List ℕ
  edges : List (ℕ × ℕ)
  deriving Repr, DecidableEq

/-- `True` when the (multi)edge `e` joins `a` and `b` (in either order). -/
def edgeJoins (e : ℕ × ℕ) (a b : ℕ) : Bool :=
  (e.1 = a && e.2 = b) || (e.1 = b && e.2 = a)

/-- `add_edge`. -/
def MGraph.add_edge (g : MGraph) (a b : ℕ) : MGraph := { g with edges := g.edges ++ [(a, b)] }

/-- `g.edges(nbunch=x)` projected to the opposite endpoints: one entry per
parallel edge incident to `x`. -/
def MGraph.neighbors (g : MGraph) (x : ℕ) : List ℕ :=
  (g.edges.filter (fun e => e.1 = x || e.2 = x)).map (fun e => if e.1 = x then e.2 else e.1)

/-- `remove_edge(a, b)`: removes one copy of an edge joining `a` and `b`
(`none` if there is none, `nx` raises in that case). -/
def MGraph.remove_edge (g : MGraph) (a b : ℕ) : Option MGraph :=
  if (g.edges.filter (fun e => edgeJoins e a b)).isEmpty then none
  else some { g with edges := g.edges.eraseP (fun e => edgeJoins e a b) }

/-- `remove_node`: removes the node and all incident edges. -/
def MGraph.remove_node (g : MGraph) (x : ℕ) : MGraph :=
  { nodes := g.nodes.erase x,
    edges := g.edges.filter (fun e => !(e.1 = x || e.2 = x)) }

/-- The mutable state of a `TorusMesh` object: discrete gradient `V`
(`none` is the unpaired sentinel), the critical bitmap `cr_id`, the critical
cell list `cr_cells`, the Morse–Smale multigraph, the persistence pairs and
the arcs dictionary (insertion-ordered, keyed by saddle). -/
structure TMState where
  V : ℕ → Option ℕ
  crit : ℕ → Bool
  crCells : List ℕ
  msgraph : MGraph
  ppairs : List (ℕ × ℕ × ℚ)
  arcs : List (ℕ × List (List ℕ))

/-- The freshly constructed state (`__init__`). -/
def TMState.init : TMState :=
  ⟨fun _ => none, fun _ => false, [], ⟨[], []⟩, [], []⟩

/-- `cp`: critical cells with the given Morse index, in `cr_cells` order. -/
def Mesh.cp (m : Mesh) (st : TMState) (morse_index : ℕ) : List ℕ :=
  st.crCells.filter (fun p => m.dim p = morse_index)

/-- `is_critical`. -/
def TMState.is_critical (st : TMState) (idx : ℕ) : Bool := st.crit idx

/-- `set_critical`: mark the cell and append it to `cr_cells`. -/
def TMState.set_critical (st : TMState) (idx : ℕ) : TMState :=
  { st with crit := fun c => if c = idx then true else st.crit c,
            crCells := st.crCells ++ [idx] }

/-- `unset_critical`: clear the mark and `list.remove` the first occurrence
(`list.remove` raises `ValueError`, i.e. `none`, when the cell is absent). -/
def TMState.unset_critical (st : TMState) (idx : ℕ) : Option TMState :=
  if idx ∈ st.crCells then
    some { st with crit := fun c => if c = idx then false else st.crit c,
                   crCells := st.crCells.erase idx }
  else none

/-- `set_gradient_arrow`: `V[start] = end; V[end] = start`. -/
def TMState.set_gradient_arrow (st : TMState) (s e : ℕ) : TMState :=
  { st with V := fun c => if c = e then some s else if c = s then some e else st.V c }

/-- `is_unpaired`: no arrow and not marked critical. -/
def TMState.is_unpaired (st : TMState) (idx : ℕ) : Bool :=
  (st.V idx).isNone && !(st.crit idx)

/-- `unpaired_facets`: the facets of `idx` that lie in the list `s` and are
unpaired. -/
def Mesh.unpaired_facets (m : Mesh) (st : TMState) (idx : ℕ) (s : List ℕ) : List ℕ :=
  (m.facets idx).filter (fun f => decide (f ∈ s) && st.is_unpaired f)

/-- `lower_star`: the cells of the star of `idx` all of whose other vertices
have smaller value, sorted ascending by extended value (stably). -/
def Mesh.lower_star (m : Mesh) (idx : ℕ) : List ℕ :=
  let v := m.value idx
  let is_left_lower := m.value (m.vleft idx) < v
  let is_top_lower := m.value (m.vtop idx) < v
  let is_right_lower := m.value (m.vright idx) < v
  let is_bottom_lower := m.value (m.vbottom idx) < v
  let is_left_bottom_lower := m.value (m.vleft (m.vbottom idx)) < v
  let is_right_bottom_lower := m.value (m.vright (m.vbottom idx)) < v
  let is_left_top_lower := m.value (m.vleft (m.vtop idx)) < v
  let is_right_top_lower := m.value (m.vright (m.vtop idx)) < v
  let s0 : List ℕ := []
  let s1 := if is_left_lower then s0 ++ [m.eleft idx] else s0
  let s2 := if is_top_lower then s1 ++ [m.etop idx] else s1
  let s3 := if is_right_lower then s2 ++ [m.eright idx] else s2
  let s4 := if is_bottom_lower then s3 ++ [m.ebottom idx] else s3
  let s5 := if is_left_lower && is_top_lower && is_left_top_lower
            then s4 ++ [m.flefttop idx] else s4
  let s6 := if is_right_lower && is_top_lower && is_right_top_lower
            then s5 ++ [m.frighttop idx] else s5
  let s7 := if is_left_lower && is_bottom_lower && is_left_bottom_lower
            then s6 ++ [m.fleftbottom idx] else s6
  let s8 := if is_right_lower && is_bottom_lower && is_right_bottom_lower
            then s7 ++ [m.frightbottom idx] else s7
  sortAscBy m.extvalue s8

/-- Heap entries `(extvalue, cell)` with Python's lexicographic tuple order. -/
def pqpLt (a b : List ℚ × ℕ) : Bool :=
  if listLtQ a.1 b.1 then true else if listLtQ b.1 a.1 then false else decide (a.2 < b.2)

/-- `heapq.heappush`: the priority queue is modelled as a list kept sorted
ascending, so that `heappop` is exactly the head. -/
def pqPush (x : List ℚ × ℕ) : List (List ℚ × ℕ) → List (List ℚ × ℕ)
  | [] => [x]
  | y :: l => if pqpLt y x then y :: pqPush x l else x :: y :: l

/-- One pass of the nested `while pq_one or pq_zero` loop of `_process_star`
(`cmp_discrete_gradient`).  The control flow `while pq_one: ... ; if pq_zero:
...` is equivalent to: take an `alpha` step when `pq_one` is non-empty, else a
single `gamma` step when `pq_zero` is non-empty, else stop.  `fuel` bounds the
number of iterations (`none` = ran out). -/
def gradLoop (m : Mesh) (lstar : List ℕ) :
    ℕ → List (List ℚ × ℕ) → List (List ℚ × ℕ) → TMState → Option TMState
  | 0, _, _, _ => none
  | fuel + 1, pq0, pq1, st =>
    match pq1 with
    | alpha :: pq1r =>
      match m.unpaired_facets st alpha.2 lstar with
      | [] => gradLoop m lstar fuel (pqPush alpha pq0) pq1r st
      | pair :: _ =>
        let st' := st.set_gradient_arrow pair alpha.2
        let pq0' := pq0.filter (fun x => decide (x.2 ≠ pair))
        -- `alpha in self._facets(beta)` compares the heap tuple `alpha`
        -- against integer cell ids and is therefore always false in Python;
        -- only the `pair in self._facets(beta)` disjunct can fire.
        let betas := lstar.filter (fun beta =>
          decide ((m.unpaired_facets st' beta lstar).length = 1) &&
          decide (pair ∈ m.facets beta))
        gradLoop m lstar fuel pq0'
          (betas.foldl (fun q beta => pqPush (m.extvalue beta, beta) q) pq1r) st'
    | [] =>
      match pq0 with
      | gamma :: pq0r =>
        let st' := st.set_critical gamma.2
        let pushes := lstar.filter (fun a =>
          decide (gamma.2 ∈ m.facets a) &&
          decide ((m.unpaired_facets st' a lstar).length = 1))
        gradLoop m lstar fuel pq0r
          (pushes.foldl (fun q a => pqPush (m.extvalue a, a) q) []) st'
      | [] => some st

/-- `_process_star(idx)`: lower-star processing of one vertex. -/
def processStar (m : Mesh) (fuel : ℕ) (st : TMState) (idx : ℕ) : Option TMState :=
  let lstar := m.lower_star idx
  match lstar with
  | [] => some (st.set_critical idx)
  | delta :: rest =>
    let st1 := st.set_gradient_arrow idx delta
    let pq0 := (rest.filter (fun c => decide (m.dim c = 1))).foldl
      (fun q c => pqPush (m.extvalue c, c) q) []
    match m.cofacets delta with
    | none => none
    | some (f1, f2) =>
      let pq1 := ([f1, f2].filter (fun f =>
        decide (f ∈ lstar) &&
        decide ((m.unpaired_facets st1 f lstar).length = 1))).foldl
        (fun q f => pqPush (m.extvalue f, f) q) []
      gradLoop m lstar fuel pq0 pq1 st1

/-- `cmp_discrete_gradient`: reset `V`, `cr_id`, `cr_cells`, process the lower
star of every vertex, then sort `cr_cells` ascending by extended value.  The
Python code partitions `[0, N)` into contiguous blocks handled by threads; the
lower stars of distinct vertices are disjoint (proved below for fields with
pairwise-distinct vertex values), so processing the vertices sequentially in
index order is a faithful model. -/
def cmpDiscreteGradient (m : Mesh) (fuel : ℕ) (st : TMState) : Option TMState :=
  let st0 := { st with V := fun _ => none, crit := fun _ => false, crCells := [] }
  ((List.range m.size).foldlM (fun s idx => processStar m fuel s idx) st0).map
    (fun s => { s with crCells := sortAscBy m.extvalue s.crCells })

/-- The BFS of `cmp_msgraph` for one critical cell `cidx`: the deque with
`appendleft`/`pop` is a FIFO queue, modelled with the oldest entry at the
head.  Visiting a cell `a`: `b = V[a]`; for every facet of `b` other than
`a`, add an edge to `cidx` when critical, else enqueue when its arrow points
out (`V[face] > face`; comparing `None > int` would raise, embedded as
`none`). -/
def msLoop (m : Mesh) (st : TMState) (cidx : ℕ) :
    ℕ → MGraph → List ℕ → Option MGraph
  | 0, _, _ => none
  | fuel + 1, g, q =>
    match q with
    | [] => some g
    | a :: qr =>
      match st.V a with
      | none => none
      | some b =>
        match (m.facets b).foldlM (fun (gq : MGraph × List ℕ) face =>
          if face = a then some gq
          else if st.is_critical face then some (gq.1.add_edge cidx face, gq.2)
          else match st.V face with
               | some c => if face < c then some (gq.1, gq.2 ++ [face]) else some gq
               | none => none) (g, qr) with
        | none => none
        | some (g', q') => msLoop m st cidx fuel g' q'

/-- One critical cell's contribution to the MS graph: seed the queue from the
facets of `cidx`, then run the BFS. -/
def msCell (m : Mesh) (st : TMState) (fuel : ℕ) (g : MGraph) (cidx : ℕ) :
    Option MGraph :=
  match (m.facets cidx).foldlM (fun (gq : MGraph × List ℕ) face =>
    if st.is_critical face then some (gq.1.add_edge cidx face, gq.2)
    else match st.V face with
         | some c => if face < c then some (gq.1, gq.2 ++ [face]) else some gq
         | none => none) (g, ([] : List ℕ)) with
  | none => none
  | some (g', q') => msLoop m st cidx fuel g' q'

/-- `cmp_msgraph`: a fresh multigraph on the critical cells; each 1- and then
2-critical cell is processed by the BFS above.  (The `x`/`y`/`morse_index`
node attributes are presentation-only and not modelled.) -/
def cmpMsgraph (m : Mesh) (st : TMState) (fuel : ℕ) : Option TMState :=
  let g0 : MGraph := ⟨st.crCells, []⟩
  ((m.cp st 1 ++ m.cp st 2).foldlM (fun g cidx => msCell m st fuel g cidx) g0).map
    (fun g => { st with msgraph := g })

/-- The saddle→extremum descent of `_cmp_arcs` through vertices: follow
`cur_e = V[cur_v]`, step to the other endpoint, until a critical cell is hit. -/
def traceDown (m : Mesh) (st : TMState) :
    ℕ → ℕ → List ℕ → Option (List ℕ)
  | 0, _, _ => none
  | fuel + 1, cur_v, separx =>
    if st.is_critical cur_v then some separx
    else match st.V cur_v with
         | none => none
         | some cur_e =>
           match m.verts cur_e with
           | v0 :: v1 :: _ =>
             let next_v := if v0 = cur_v then v1 else v0
             traceDown m st fuel next_v (separx ++ [cur_e, next_v])
           | _ => none

/-- The saddle→extremum ascent of `_cmp_arcs` through faces: follow
`cur_e = V[cur_f]`, step to the other cofacet, until a critical cell is hit. -/
def traceUp (m : Mesh) (st : TMState) :
    ℕ → ℕ → List ℕ → Option (List ℕ)
  | 0, _, _ => none
  | fuel + 1, cur_f, separx =>
    if st.is_critical cur_f then some separx
    else match st.V cur_f with
         | none => none
         | some cur_e =>
           match m.cofacets cur_e with
           | none => none
           | some (f0, f1) =>
             let next_f := if f0 = cur_f then f1 else f0
             traceUp m st fuel next_f (separx ++ [cur_e, next_f])

/-- `_cmp_arcs(s)` as a pure computation of the new `arcs[s]` entry: two
descending separatrices (one per vertex of `s`) followed by two ascending ones
(one per cofacet of `s`). -/
def cmpArcsFor (m : Mesh) (st : TMState) (fuel : ℕ) (s : ℕ) :
    Option (List (List ℕ)) := do
  let downs ← (m.verts s).mapM (fun v => traceDown m st fuel v [s, v])
  let cf ← m.cofacets s
  let ups ← [cf.1, cf.2].mapM (fun f => traceUp m st fuel f [s, f])
  some (downs ++ ups)

/-- Replace the `arcs[s]` dictionary entry (`KeyError`, i.e. `none`, when the
key is absent). -/
def setArcEntry (arcs : List (ℕ × List (List ℕ))) (s : ℕ) (l : List (List ℕ)) :
    Option (List (ℕ × List (List ℕ))) :=
  if arcs.any (fun p => p.1 = s) then
    some (arcs.map (fun p => if p.1 = s then (p.1, l) else p))
  else none

/-- `cmp_arcs`: the arcs dictionary keyed by the saddles in `cp(1)` order. -/
def cmpArcs (m : Mesh) (st : TMState) (fuel : ℕ) : Option TMState :=
  ((m.cp st 1).mapM (fun s => (cmpArcsFor m st fuel s).map (fun l => (s, l)))).map
    (fun a => { st with arcs := a })

/-- `list_arcs`: all arcs, flattened in dictionary order. -/
def list_arcs (st : TMState) : List (List ℕ) := (st.arcs.map Prod.snd).flatten

/-- `find_arc`: the arc in `arcs[start_idx]` ending at `end_idx` (`none` both
for `KeyError` and for the `RuntimeError` when no arc matches). -/
def find_arc (st : TMState) (start_idx end_idx : ℕ) : Option (List ℕ) :=
  match st.arcs.find? (fun p => p.1 = start_idx) with
  | none => none
  | some p => p.2.find? (fun arc => arc.getLast? = some end_idx)

/-- `get_min_neib_msgraph`: the 0-dimensional neighbours of a saddle in the MS
multigraph, counted with edge multiplicity; raises (`none`) unless the
argument is a saddle with exactly two such neighbours. -/
def getMinNeib (m : Mesh) (st : TMState) (cidx : ℕ) : Option (List ℕ) :=
  if m.dim cidx ≠ 1 then none
  else
    let result := (st.msgraph.neighbors cidx).filter (fun n => m.dim n = 0)
    if result.length ≠ 2 then none else some result

/-- `get_max_neib_msgraph`: as above with 2-dimensional neighbours. -/
def getMaxNeib (m : Mesh) (st : TMState) (cidx : ℕ) : Option (List ℕ) :=
  if m.dim cidx ≠ 1 then none
  else
    let result := (st.msgraph.neighbors cidx).filter (fun n => m.dim n = 2)
    if result.length ≠ 2 then none else some result

/-- `is_arc_crossed_boundary`: some cell of the arc has a vertex on the glued
boundary (`idx < sizeX` or `idx % sizeY == 0`; note the source mixes `sizeX`
and `sizeY` here). -/
def is_arc_crossed_boundary (m : Mesh) (arc : List ℕ) : Bool :=
  arc.any (fun cell => (m.verts cell).any (fun idx => idx < m.sizeX || idx % m.sizeY = 0))

/-- Modelled from the spec: the module `morse/unionfind.py` imported by
`torusmesh.py` is not under `src/`; §9 of the spec calls for a "Standard
rank+path-compression union-find over critical-cell indices".  This is a
standard functional union-find: `parent` array, `find` follows parent links
(path compression and rank only affect efficiency, not the equivalence
classes), `union` links the two roots. -/
structure UnionFind where
  parent : List ℕ

/-- Modelled from the spec: fresh union-find over `n` indices. -/
def UnionFind.init (n : ℕ) : UnionFind := ⟨List.range n⟩

/-- Modelled from the spec: `makeset i`. -/
def UnionFind.makeset (uf : UnionFind) (i : ℕ) : UnionFind := ⟨uf.parent.set i i⟩

/-- Modelled from the spec: root lookup, fuelled by the array length. -/
def UnionFind.findAux (parent : List ℕ) : ℕ → ℕ → ℕ
  | 0, x => x
  | fuel + 1, x =>
    let p := parent.getD x x
    if p = x then x else UnionFind.findAux parent fuel p

/-- Modelled from the spec: `find`. -/
def UnionFind.findRoot (uf : UnionFind) (x : ℕ) : ℕ :=
  UnionFind.findAux uf.parent uf.parent.length x

/-- Modelled from the spec: `union`. -/
def UnionFind.union (uf : UnionFind) (a b : ℕ) : UnionFind :=
  let ra := uf.findRoot a
  let rb := uf.findRoot b
  if ra = rb then uf else ⟨uf.parent.set ra rb⟩

/-- `np.max` of an extended value (the lists are non-empty; `np.max` raises on
an empty array). -/
def listMaxQ : List ℚ → ℚ
  | [] => 0
  | a :: l => l.foldl max a

/-- The local `persistence(cidx1, cidx2)` of `cmp_persistent_pairs`:
`|max extvalue(cidx1) - max extvalue(cidx2)|`. -/
def persistencePair (m : Mesh) (c1 c2 : ℕ) : ℚ :=
  |listMaxQ (m.extvalue c1) - listMaxQ (m.extvalue c2)|

/-- The first labelling loop of `cmp_persistent_pairs`: minima positive,
maxima negative, a saddle positive iff its two minimum neighbours are already
in one union-find component (then the components are united). -/
def cmpSigns (m : Mesh) (st : TMState) : Option (List Bool × UnionFind) :=
  (List.range st.crCells.length).foldlM (fun (p : List Bool × UnionFind) i =>
    let cidx := st.crCells.getD i 0
    let uf1 := p.2.makeset i
    let d := m.dim cidx
    if d = 0 then some (p.1.set i true, uf1)
    else if d = 1 then
      match getMinNeib m st cidx with
      | none => none
      | some nb =>
        match nb with
        | [n0, n1] =>
          match st.crCells.findIdx? (fun c => c = n0),
                st.crCells.findIdx? (fun c => c = n1) with
          | some i0, some i1 =>
            some (p.1.set i (uf1.findRoot i0 = uf1.findRoot i1), uf1.union i0 i1)
          | _, _ => none
        | _ => none
    else some (p.1.set i false, uf1))
    (List.replicate st.crCells.length false, UnionFind.init st.crCells.length)

/-- Bitwise XOR of two equal-length bit columns (the `finditer`/flip loop). -/
def bitXor (a b : List Bool) : List Bool := a.zipWith (fun x y => xor x y) b

/-- Index of the highest set bit (`curset.to01().rindex('1')`). -/
def bitHighest (l : List Bool) : Option ℕ :=
  (l.reverse.findIdx? (fun b => b)).map (fun k => l.length - 1 - k)

/-- Index of the lowest set bit (`curset.to01().index('1')`). -/
def bitLowest (l : List Bool) : Option ℕ := l.findIdx? (fun b => b)

/-- The inner reduction loop of `cmp_persistent_pairs` at filtration position
`i`: while bits remain, pick the highest (forward pass) or lowest (reverse
pass) set bit `s`; either register the pair `(crCells[i], crCells[s])` and
record the cycle at `s` and `i`, or XOR with the recorded cycle. -/
def reduceLoop (m : Mesh) (st : TMState) (useLowest : Bool) (i : ℕ) :
    ℕ → List Bool → List (Option (List Bool)) → List (ℕ × ℕ × ℚ) →
    Option (List Bool × List (Option (List Bool)) × List (ℕ × ℕ × ℚ))
  | 0, _, _, _ => none
  | fuel + 1, curset, cycles, pairs =>
    if curset.count true = 0 then some (curset, cycles, pairs)
    else
      match (if useLowest then bitLowest curset else bitHighest curset) with
      | none => none
      | some s =>
        match cycles.getD s none with
        | none =>
          let cycles' := (cycles.set s (some curset)).set i (some curset)
          let c1 := st.crCells.getD i 0
          let c2 := st.crCells.getD s 0
          reduceLoop m st useLowest i fuel curset cycles'
            (pairs ++ [(c1, c2, persistencePair m c1 c2)])
        | some cyc => reduceLoop m st useLowest i fuel (bitXor curset cyc) cycles pairs

/-- One filtration position of a persistence pass: if `crCells[i]` is a saddle
of the selected sign, mark the bit of each selected neighbour and reduce. -/
def passStep (m : Mesh) (st : TMState) (signs : List Bool) (wantSign : Bool)
    (fuel : ℕ)
    (acc : List Bool × List (Option (List Bool)) × List (ℕ × ℕ × ℚ)) (i : ℕ) :
    Option (List Bool × List (Option (List Bool)) × List (ℕ × ℕ × ℚ)) :=
  let cidx := st.crCells.getD i 0
  if m.dim cidx = 1 && (signs.getD i false) = wantSign then
    match (if wantSign then getMaxNeib m st cidx else getMinNeib m st cidx) with
    | none => none
    | some nb =>
      match nb.foldlM (fun (cs : List Bool) n =>
        (st.crCells.findIdx? (fun c => c = n)).map (fun r => cs.set r true))
        acc.1 with
      | none => none
      | some curset' => reduceLoop m st wantSign i fuel curset' acc.2.1 acc.2.2
  else some acc

/-- Stable insertion before the first element with a key not larger
(`pairs.sort(key=lambda x: x[2], reverse=True)`). -/
def insertPairDesc (a : ℕ × ℕ × ℚ) : List (ℕ × ℕ × ℚ) → List (ℕ × ℕ × ℚ)
  | [] => [a]
  | b :: l => if a.2.2 < b.2.2 then b :: insertPairDesc a l else a :: b :: l

/-- Stable descending sort of the persistence pairs by their third component. -/
def sortPairsDesc : List (ℕ × ℕ × ℚ) → List (ℕ × ℕ × ℚ)
  | [] => []
  | a :: l => insertPairDesc a (sortPairsDesc l)

/-- `cmp_persistent_pairs`: the sign labelling, the forward pass over negative
saddles (minimum neighbours, highest-bit reduction), the reverse pass over
positive saddles (maximum neighbours, lowest-bit reduction, fresh `curset`,
carried `cycles`), and the final stable sort by persistence descending. -/
def cmpPersistentPairs (m : Mesh) (st : TMState) (fuel : ℕ) : Option TMState :=
  let n := st.crCells.length
  match cmpSigns m st with
  | none => none
  | some (signs, _) =>
    match (List.range n).foldlM (passStep m st signs false fuel)
      (List.replicate n false, List.replicate n (none : Option (List Bool)), []) with
    | none => none
    | some fwd =>
      match (List.range n).reverse.foldlM (passStep m st signs true fuel)
        (List.replicate n false, fwd.2.1, fwd.2.2) with
      | none => none
      | some rev => some { st with ppairs := sortPairsDesc rev.2.2 }

/-- The gradient-reversal walk `for i in range(0, len(arc), 2)`: the arc split
into consecutive pairs; an odd-length arc would raise `IndexError` at
`arc[i+1]`. -/
def arcChunks : List ℕ → Option (List (ℕ × ℕ))
  | [] => some []
  | [_] => none
  | a :: b :: t => (arcChunks t).map (fun l => (a, b) :: l)

/-- `eliminate_pair_revert_gradient`: pop the last persistence pair, reverse
the gradient along the unique saddle→extremum arc, unset both critical cells,
rewire the MS graph, and retrace the arcs of the affected saddles. -/
def elimRevert (m : Mesh) (st : TMState) (fuel : ℕ) : Option TMState :=
  match st.ppairs.getLast? with
  | none => some st
  | some pair =>
    let st0 := { st with ppairs := st.ppairs.dropLast }
    let saddle := pair.1
    if m.dim saddle ≠ 1 then none
    else
      let extr := pair.2.1
      let extr_dim := m.dim extr
      let saddles := (st0.msgraph.neighbors extr).filter (fun nb => nb ≠ saddle)
      match (if extr_dim = 0 then getMinNeib m st0 saddle else getMaxNeib m st0 saddle) with
      | none => none
      | some mm =>
        match mm with
        | [a, b] =>
          let min_or_max := if a ≠ extr then a else b
          if extr_dim = 1 then none
          else
            match find_arc st0 saddle extr with
            | none => none
            | some arc =>
              match arcChunks arc with
              | none => none
              | some chunks => do
                let st1 := chunks.foldl (fun s p => s.set_gradient_arrow p.1 p.2) st0
                let st2 ← st1.unset_critical saddle
                let st3 ← st2.unset_critical extr
                let st4 := { st3 with msgraph := st3.msgraph.remove_node saddle }
                if !(st4.arcs.any (fun p => p.1 = saddle)) then none
                else
                  let st5 := { st4 with arcs := st4.arcs.filter (fun p => p.1 ≠ saddle) }
                  let st6 ← saddles.foldlM (fun (s : TMState) sdl => do
                    let g ← s.msgraph.remove_edge sdl extr
                    let s' := { s with msgraph := g.add_edge sdl min_or_max }
                    let newArcs ← cmpArcsFor m s' fuel sdl
                    let a ← setArcEntry s'.arcs sdl newArcs
                    pure { s' with arcs := a }) st5
                  some { st6 with msgraph := st6.msgraph.remove_node extr }
        | _ => none

/-- Python indexing `l[j]` with negative indices counted from the end;
`none` is `IndexError`. -/
def pyIdx (l : List ℕ) (j : ℤ) : Option ℕ :=
  if 0 ≤ j then l.get? j.toNat
  else if (l.length : ℤ) + j < 0 then none
  else l.get? ((l.length : ℤ) + j).toNat

/-- Python slice deletion `del l[a:b]` with negative indices and clamping. -/
def pyDelSlice (l : List ℕ) (a b : ℤ) : List ℕ :=
  let n : ℤ := l.length
  let a' := if a < 0 then max 0 (n + a) else min a n
  let b' := if b < 0 then max 0 (n + b) else min b n
  if b' ≤ a' then l else l.take a'.toNat ++ l.drop b'.toNat

/-- The inner mustache-length scan of `_simplify_arc`: grow while
`arc[it - len - 1] == arc[it + len + 1]` (with Python index semantics). -/
def mustacheLen (arc : List ℕ) (it : ℤ) : ℕ → ℕ → Option ℕ
  | 0, _ => none
  | fuel + 1, len =>
    match pyIdx arc (it - len - 1), pyIdx arc (it + len + 1) with
    | some x, some y => if x = y then mustacheLen arc it fuel (len + 1) else some len
    | _, _ => none

/-- `_simplify_arc`: remove back-and-forth subpaths (mustaches); `it` and the
tracked `arc_num` follow the source, including Python's negative-index
behaviour at `it = 0`. -/
def simplifyArc : ℕ → List ℕ → ℤ → ℤ → Option (List ℕ)
  | 0, _, _, _ => none
  | fuel + 1, arc, it, arc_num =>
    if it < arc_num - 2 then
      match pyIdx arc (it - 1), pyIdx arc (it + 1) with
      | some x, some y =>
        if x = y then
          match mustacheLen arc it (fuel + 1) 1 with
          | none => none
          | some mlen =>
            simplifyArc fuel (pyDelSlice arc (it - mlen) (it + mlen))
              (it - mlen) (arc_num - 2 * mlen)
        else simplifyArc fuel arc (it + 1) arc_num
      | _, _ => none
    else some arc

/-- Replace, in `arcs[s]`, the first arc ending at `tail` by `newArc`
(the in-place `arc.extend`/`_simplify_arc` mutation of
`eliminate_pair_change_msgraph`). -/
def replaceArcTo (arcsOf : List (List ℕ)) (tail : ℕ) (newArc : List ℕ) :
    List (List ℕ) :=
  match arcsOf.findIdx? (fun arc => arc.getLast? = some tail) with
  | none => arcsOf
  | some i => arcsOf.set i newArc

/-- `eliminate_pair_change_msgraph`: pop the last persistence pair, remove the
two critical cells from the MS graph rewiring the neighbour saddles, and
splice the neighbours' arcs through the reversed cancelled arc, removing
mustaches. -/
def elimMsgraph (m : Mesh) (st : TMState) (fuel : ℕ) : Option TMState :=
  match st.ppairs.getLast? with
  | none => some st
  | some pair =>
    let st0 := { st with ppairs := st.ppairs.dropLast }
    let saddle := pair.1
    if m.dim saddle ≠ 1 then none
    else
      let extr := pair.2.1
      let extr_dim := m.dim extr
      if extr_dim = 1 then none
      else
        let saddles := (st0.msgraph.neighbors extr).filter (fun nb => nb ≠ saddle)
        match (if extr_dim = 0 then getMinNeib m st0 saddle else getMaxNeib m st0 saddle) with
        | none => none
        | some mm =>
          match mm with
          | [a, b] => do
            let min_or_max := if a ≠ extr then a else b
            let st1 := { st0 with msgraph := st0.msgraph.remove_node saddle }
            let st2 ← saddles.foldlM (fun (s : TMState) sdl => do
              let g ← s.msgraph.remove_edge sdl extr
              pure { s with msgraph := g.add_edge sdl min_or_max }) st1
            let st3 := { st2 with msgraph := st2.msgraph.remove_node extr }
            let arcSE ← find_arc st3 saddle extr
            let arcSM ← find_arc st3 saddle min_or_max
            let arc_extension := (arcSE.drop 1).dropLast.reverse ++ arcSM
            let st4 ← saddles.foldlM (fun (s : TMState) sdl => do
              let arc ← find_arc s sdl extr
              let newArc ← simplifyArc (fuel + 1) (arc ++ arc_extension) 0
                ((arc ++ arc_extension).length)
              match s.arcs.findIdx? (fun p => p.1 = sdl) with
              | none => none
              | some i =>
                let entry := s.arcs.getD i (0, [])
                pure { s with arcs := s.arcs.set i (entry.1, replaceArcTo entry.2 extr newArc) }) st3
            if !(st4.arcs.any (fun p => p.1 = saddle)) then none
            else
              let st5 := { st4 with arcs := st4.arcs.filter (fun p => p.1 ≠ saddle) }
              let st6 ← st5.unset_critical saddle
              st6.unset_critical extr
          | _ => none

/-- `simplify_by_level`: count the pairs with persistence below `level`, then
eliminate that many pairs with the chosen method. -/
def simplifyByLevel (m : Mesh) (st : TMState) (fuel : ℕ) (level : ℚ)
    (method : String) : Option TMState :=
  if method ≠ "gradient" ∧ method ≠ "arc" then none
  else
    let num := (st.ppairs.filter (fun p => p.2.2 < level)).length
    (List.range num).foldlM (fun s _ =>
      if method = "gradient" then elimRevert m s fuel else elimMsgraph m s fuel) st

/-- `simplify_by_pairs_remained`: validate the method; if more pairs are
requested than remain, warn and return unchanged; requesting fewer than 2 is
an `AssertionError` (`none`); otherwise eliminate down to `pairs_remained`. -/
def simplifyByPairsRemained (m : Mesh) (st : TMState) (fuel : ℕ)
    (pairs_remained : ℕ) (method : String) : Option TMState :=
  if method ≠ "gradient" ∧ method ≠ "arc" then none
  else if pairs_remained > st.ppairs.length then some st
  else if pairs_remained < 2 then none
  else
    (List.range (st.ppairs.length - pairs_remained)).foldlM (fun s _ =>
      if method = "gradient" then elimRevert m s fuel else elimMsgraph m s fuel) st

/-- The unordered node pair of a simple-graph edge, smaller endpoint first. -/
def canonPair (a b : ℕ) : ℕ × ℕ := if a ≤ b then (a, b) else (b, a)

/-- `nx.Graph(multigraph)`: parallel edges collapse to a single edge; the
edge list keeps one canonical copy per node pair, first occurrences first. -/
def toSimpleEdges (edges : List (ℕ × ℕ)) : List (ℕ × ℕ) :=
  (edges.map (fun e => canonPair e.1 e.2)).dedup

/-- `get_cut_morse_graph`: the simple collapse of the MS multigraph, with the
edge `(arc[0], arc[-1])` removed for every arc crossing the glued boundary
(`try/except` swallows removals of already-removed edges; `arc[0]` on an
empty arc would raise `IndexError`, embedded as `none`). -/
def getCutMorseGraph (m : Mesh) (st : TMState) : Option MGraph :=
  (list_arcs st).foldlM (fun (es : List (ℕ × ℕ)) arc =>
      if is_arc_crossed_boundary m arc then
        match arc.head?, arc.getLast? with
        | some a, some b => some (es.eraseP (fun e => e = canonPair a b))
        | _, _ => none
      else some es)
    (toSimpleEdges st.msgraph.edges) |>.map (fun es => ⟨st.msgraph.nodes, es⟩)

/-- `build_all`: gradient, MS graph, arcs, persistence pairs in order. -/
def buildAll (m : Mesh) (fuel : ℕ) : Option TMState := do
  let s1 ← cmpDiscreteGradient m fuel TMState.init
  let s2 ← cmpMsgraph m s1 fuel
  let s3 ← cmpArcs m s2 fuel
  cmpPersistentPairs m s3 fuel

/-- Concrete 1×2 grid with field values `f(0,0) = 1`, `f(0,1) = 2`
(pairwise distinct). -/
def mesh12 : Mesh := ⟨1, 2, fun x y => if x = 0 && y = 0 then 1 else 2⟩

/-- Concrete 1×1 grid. -/
def mesh11 : Mesh := ⟨1, 1, fun _ _ => 5⟩

/-- Concrete 2×2 grid with pairwise-distinct values `0, 1, 2, 8`. -/
def mesh22 : Mesh :=
  ⟨2, 2, fun x y => if x = 0 && y = 0 then 0 else if x = 1 && y = 0 then 1
    else if x = 0 && y = 1 then 2 else 8⟩

/-- The gradient state of `mesh12`. -/
def st12grad : TMState := (cmpDiscreteGradient mesh12 100 TMState.init).getD TMState.init

/-- The gradient state of `mesh11`. -/
def st11grad : TMState := (cmpDiscreteGradient mesh11 100 TMState.init).getD TMState.init

/-- The MS-graph state of `mesh12`. -/
def st12ms : TMState := (cmpMsgraph mesh12 st12grad 100).getD TMState.init

/-- The gradient state of `mesh22`. -/
def st22grad : TMState := (cmpDiscreteGradient mesh22 200 TMState.init).getD TMState.init

/-- The MS-graph state of `mesh22`. -/
def st22ms : TMState := (cmpMsgraph mesh22 st22grad 200).getD TMState.init

/-- The arcs state of `mesh22`. -/
def st22arcs : TMState := (cmpArcs mesh22 st22ms 200).getD TMState.init

/-- The full pipeline state of `mesh22` (after `cmp_persistent_pairs`). -/
def st22full : TMState := (cmpPersistentPairs mesh22 st22arcs 200).getD TMState.init

/-- The cut Morse graph of the 2×2 pipeline state. -/
def g22cut : MGraph := (getCutMorseGraph mesh22 st22full).getD ⟨[], []⟩

/-- Every pair in the list carries the persistence of its own two cells. -/
def GoodPairs (m : Mesh) (pairs : List (ℕ × ℕ × ℚ)) : Prop :=
  ∀ p ∈ pairs, p.2.2 = |listMaxQ (m.extvalue p.1) - listMaxQ (m.extvalue p.2.1)|

/-- Global well-formedness of the gradient state, as maintained by
`cmp_discrete_gradient`: `V` is a partial involution pairing cells of
consecutive dimension, critical cells are unpaired, `cr_cells` is a
duplicate-free enumeration of the critical bitmap, all recorded cells are
genuine cell ids, every vertex pair points into the vertex's lower star, and
every lower cell of a pair is a facet of its partner. -/
structure GInv (m : Mesh) (st : TMState) : Prop where
  inv2 : ∀ a b, st.V a = some b → st.V b = some a ∧
    (m.dim a + 1 = m.dim b ∨ m.dim b + 1 = m.dim a)
  critV : ∀ c, st.crit c = true → st.V c = none
  crmem : ∀ c, c ∈ st.crCells ↔ st.crit c = true
  crnd : st.crCells.Nodup
  critRange : ∀ c, st.crit c = true → c < 4 * m.size
  vrange : ∀ a b, st.V a = some b → a < 4 * m.size ∧ b < 4 * m.size
  vdown : ∀ a b, st.V a = some b → m.dim a = 0 → b ∈ m.lower_star a
  vstruct : ∀ a b, st.V a = some b → m.dim a + 1 = m.dim b → a ∈ m.facets b

/-- The invariant of the inner `while pq_one or pq_zero` loop of
`_process_star` for the vertex `v`, relative to the state `st₀` at entry to
the star.  The queue entries are `(extvalue, cell)` pairs; `pq_one` holds
faces of the star with at most one unpaired facet left, `pq_zero` holds star
cells with none; the two queues are jointly duplicate-free, jointly cover
every still-unpaired star cell except the faces with two unpaired facets
left, and non-unpaired star cells have no unpaired facets. -/
structure LInv (m : Mesh) (v : ℕ) (st₀ st : TMState)
    (pq0 pq1 : List (List ℚ × ℕ)) : Prop where
  g : GInv m st
  frameV : ∀ c, c ∉ m.lower_star v → c ≠ v → st.V c = st₀.V c
  frameC : ∀ c, c ∉ m.lower_star v → c ≠ v → st.crit c = st₀.crit c
  starv : st.is_unpaired v = false
  q1p : ∀ x ∈ pq1, x.2 ∈ m.lower_star v ∧ 3 * m.size ≤ x.2 ∧
    st.is_unpaired x.2 = true ∧
    (m.unpaired_facets st x.2 (m.lower_star v)).length ≤ 1 ∧
    x.1 = m.extvalue x.2
  q0p : ∀ x ∈ pq0, x.2 ∈ m.lower_star v ∧ st.is_unpaired x.2 = true ∧
    (m.unpaired_facets st x.2 (m.lower_star v)).length = 0 ∧
    x.1 = m.extvalue x.2
  qnd : (pq0.map Prod.snd ++ pq1.map Prod.snd).Nodup
  cov : ∀ c ∈ m.lower_star v, st.is_unpaired c = true →
    c ∈ pq0.map Prod.snd ∨ c ∈ pq1.map Prod.snd ∨
    (m.unpaired_facets st c (m.lower_star v)).length = 2
  npCnt : ∀ c ∈ m.lower_star v, st.is_unpaired c = false →
    (m.unpaired_facets st c (m.lower_star v)).length = 0

/-- What holds of the state when `_process_star(v)` returns: global
well-formedness, an exact frame outside the star, and every cell of the
star together with `v` itself resolved (paired or critical). -/
structure StarPost (m : Mesh) (v : ℕ) (st₀ st : TMState) : Prop where
  g : GInv m st
  frameV : ∀ c, c ∉ m.lower_star v → c ≠ v → st.V c = st₀.V c
  frameC : ∀ c, c ∉ m.lower_star v → c ≠ v → st.crit c = st₀.crit c
  resolved : ∀ c ∈ m.lower_star v, st.is_unpaired c = false
  resolvedV : st.is_unpaired v = false

/-- The whole-fold invariant of `cmp_discrete_gradient` after the stars of
the first `k` vertices have been processed. -/
structure Mesh.FoldInv (m : Mesh) (k : ℕ) (s : TMState) : Prop where
  g : GInv m s
  vres : ∀ u < k, s.is_unpaired u = false
  sres : ∀ u < k, ∀ c ∈ m.lower_star u, s.is_unpaired c = false
  untouched : ∀ c, (∀ u < k, c ∉ m.lower_star u ∧ c ≠ u) →
    s.V c = none ∧ s.crit c = false

/-- The sign `(−1)^dim` of a cell. -/
def Mesh.sgn (m : Mesh) (c : ℕ) : ℤ := if m.dim c = 1 then -1 else 1

/-- The number of 0-dimensional neighbours of `x` in the multigraph, counted
with edge multiplicity (the quantity tested by `get_min_neib_msgraph`). -/
def minNeibCount (m : Mesh) (g : MGraph) (x : ℕ) : ℕ :=
  ((g.neighbors x).filter (fun n => decide (m.dim n = 0))).length

/-- The cells whose gradient entry is rewritten when reverting along arc
chunks. -/
def touchedCells : List (ℕ × ℕ) → List ℕ
  | [] => []
  | p :: t => p.1 :: p.2 :: touchedCells t

/-- A 4×2 field with two separated peaks (`100` at `(1,1)` and `90` at
`(3,1)`) over pairwise-distinct small values. -/
def meshE : Mesh :=
  ⟨4, 2, fun x y =>
    if x = 0 && y = 0 then 1 else if x = 1 && y = 0 then 3
    else if x = 2 && y = 0 then 2 else if x = 3 && y = 0 then 0
    else if x = 0 && y = 1 then 4 else if x = 1 && y = 1 then 100
    else if x = 2 && y = 1 then 5 else 90⟩

/-- The gradient pairing of the Morse–Smale complex of `meshE`, as a table
(both directions listed). -/
def tblW : List (ℕ × ℕ) :=
  [(0, 11), (1, 8), (2, 10), (4, 16), (5, 17), (6, 18), (7, 19), (8, 1),
   (10, 2), (11, 0), (12, 24), (13, 25), (14, 26), (15, 27), (16, 4),
   (17, 5), (18, 6), (19, 7), (21, 28), (23, 31), (24, 12), (25, 13),
   (26, 14), (27, 15), (28, 21), (31, 23)]

/-- The full Morse–Smale state of `meshE` in closed form: gradient from
`tblW`, critical cells `3, 9, 20, 22, 29, 30` (one minimum, three saddles,
two maxima), the MS multigraph, two persistence pairs, and the traced
arcs. -/
def stW : TMState :=
  { V := fun c => (tblW.find? (fun p => p.1 = c)).map Prod.snd,
    crit := fun c =>
      c == 3 || c == 9 || c == 20 || c == 22 || c == 29 || c == 30,
    crCells := [3, 9, 20, 22, 30, 29],
    msgraph := ⟨[3, 9, 20, 22, 30, 29],
      [(9, 3), (9, 3), (20, 3), (20, 3), (22, 3), (22, 3), (30, 22), (30, 20),
       (29, 9), (29, 22), (29, 9), (29, 20)]⟩,
    ppairs := [(9, 29, 97), (22, 30, 85)],
    arcs := [(9, [[9, 1, 8, 0, 11, 3], [9, 2, 10, 3], [9, 29], [9, 25, 13, 29]]),
             (20, [[20, 4, 16, 0, 11, 3], [20, 0, 11, 3], [20, 31, 23, 30],
                   [20, 28, 21, 29]]),
             (22, [[22, 6, 18, 2, 10, 3], [22, 2, 10, 3], [22, 29], [22, 30]])] }

/-- The state of `stW` after one pair elimination. -/
def stWelim : TMState := (elimRevert meshE stW 300).getD TMState.init

/-- C1 ("corrected"): the claim fails on a non-square grid.  On `W = 2`,
`H = 3`, the vertex `v = _to_index(1, 0) = 3` satisfies `0 ≤ 1 < W` and
`0 ≤ 0 < H`, yet `_vright(3) = 2` while the claimed neighbour
`_to_index((1+1) mod 2, 0)` is `0`. -/
theorem C1_counterexample :
    (1 < (2 : ℕ) ∧ 0 < (3 : ℕ)) ∧
    (Mesh.mk 2 3 (fun _ _ => 0)).vright ((Mesh.mk 2 3 (fun _ _ => 0)).to_index 1 0) ≠
      (Mesh.mk 2 3 (fun _ _ => 0)).to_index ((1 + 1) % 2) 0 := by
  decide

/-- C1 amended: the vertex-id convention actually used by `_vright` (and by
`coordx`/`coordy`, `value`, `_verts`) is the row-major one `id = y·W + x`
with `x = id % sizeX`, not the `id = x·H + y` convention stated next to
`_to_index`.  For every vertex `v = y·W + x` with `0 ≤ x < W` and
`0 ≤ y < H`, `_vright v` is the vertex `((x+1) mod W, y)` in that convention
(horizontal wraparound modulo `W`), and the horizontal edge with id `N + v`
connects `v` and this right toroidal neighbour (its vertex list is
`[v, _vright v]`). -/
theorem C1_amended (m : Mesh) (x y : ℕ) (hx : x < m.sizeX) (hy : y < m.sizeY) :
    m.vright (y * m.sizeX + x) = y * m.sizeX + (x + 1) % m.sizeX ∧
    m.verts (m.size + (y * m.sizeX + x)) =
      [y * m.sizeX + x, m.vright (y * m.sizeX + x)] := by
  have hmod : (y * m.sizeX + x) % m.sizeX = x := by
    rw [Nat.add_comm, Nat.mul_comm, Nat.add_mul_mod_self_left, Nat.mod_eq_of_lt hx]
  have hmod1 : (y * m.sizeX + x + 1) % m.sizeX = (x + 1) % m.sizeX := by
    rw [Nat.add_assoc, Nat.add_comm (y * m.sizeX), Nat.mul_comm, Nat.add_mul_mod_self_left]
  have hv : m.vright (y * m.sizeX + x) = y * m.sizeX + (x + 1) % m.sizeX := by
    unfold Mesh.vright
    rw [hmod, hmod1]
    omega
  refine ⟨hv, ?_⟩
  have hvN : y * m.sizeX + x < m.size := by
    unfold Mesh.size
    calc y * m.sizeX + x < y * m.sizeX + m.sizeX := by omega
    _ = (y + 1) * m.sizeX := by ring
    _ ≤ m.sizeY * m.sizeX := Nat.mul_le_mul_right _ hy
    _ = m.sizeX * m.sizeY := Nat.mul_comm _ _
  unfold Mesh.verts
  have h1 : ¬ (m.size + (y * m.sizeX + x) < m.size) := by omega
  have h2 : m.size + (y * m.sizeX + x) < 2 * m.size := by omega
  rw [if_neg h1, if_pos h2]
  simp [Nat.add_sub_cancel_left]

/-- Witness for `C1_amended` at the concrete input `W = 2`, `H = 3`,
`x = 1`, `y = 2`. -/
theorem C1_amended_witness :
    (Mesh.mk 2 3 (fun _ _ => 0)).vright (2 * 2 + 1) = 2 * 2 + (1 + 1) % 2 ∧
    (Mesh.mk 2 3 (fun _ _ => 0)).verts ((Mesh.mk 2 3 (fun _ _ => 0)).size + (2 * 2 + 1)) =
      [2 * 2 + 1, (Mesh.mk 2 3 (fun _ _ => 0)).vright (2 * 2 + 1)] :=
  C1_amended (Mesh.mk 2 3 (fun _ _ => 0)) 1 2 (by decide) (by decide)

/-- An invariant preserved by every successful step of an `Option`-monadic
fold is preserved by the whole fold. -/
theorem foldlM_option_inv {α β : Type} (P : β → Prop) (f : β → α → Option β) :
    ∀ (l : List α) (b : β), P b →
      (∀ b' a r, a ∈ l → P b' → f b' a = some r → P r) →
      ∀ r, l.foldlM f b = some r → P r := by
  intro l
  induction l with
  | nil =>
    intro b hb _ r hr
    simp only [List.foldlM_nil] at hr
    cases hr
    exact hb
  | cons a t ih =>
    intro b hb hf r hr
    rw [List.foldlM_cons] at hr
    cases hfa : f b a with
    | none => rw [hfa] at hr; cases hr
    | some b' =>
      rw [hfa] at hr
      exact ih b' (hf b a b' (List.mem_cons_self a t) hb hfa)
        (fun c x r' hx => hf c x r' (List.mem_cons_of_mem a hx)) r hr

/-- C9 ("corrected"): with `pairs_remained = 1 < 2` but an empty pair list,
`simplify_by_pairs_remained` does not raise: the empty-work check
(`pairs_remained > len(ppairs)`) fires first and the call warns and returns
normally with the state unchanged. -/
theorem C9_counterexample :
    1 < 2 ∧
    simplifyByPairsRemained (Mesh.mk 1 1 (fun _ _ => 0)) TMState.init 100 1 "gradient" =
      some TMState.init :=
  ⟨Nat.one_lt_two, rfl⟩

/-- C9 amended: `simplify_by_pairs_remained(k, method)` with a valid method
and `k < 2` raises (`AssertionError`) whenever `k ≤ len(ppairs)`; when
`k > len(ppairs)` the preceding empty-work check returns normally instead. -/
theorem C9_amended (m : Mesh) (st : TMState) (fuel k : ℕ) (method : String)
    (hmethod : method = "gradient" ∨ method = "arc")
    (hk2 : k < 2) (hklen : k ≤ st.ppairs.length) :
    simplifyByPairsRemained m st fuel k method = none := by
  unfold simplifyByPairsRemained
  have hm : ¬(method ≠ "gradient" ∧ method ≠ "arc") := by
    rcases hmethod with h | h <;> simp [h]
  rw [if_neg hm, if_neg (by omega : ¬ k > st.ppairs.length), if_pos hk2]

/-- Witness for `C9_amended`: `k = 1` with one remaining pair. -/
theorem C9_amended_witness :
    simplifyByPairsRemained (Mesh.mk 1 1 (fun _ _ => 0))
      { TMState.init with ppairs := [(0, 0, 0)] } 100 1 "gradient" = none :=
  C9_amended (Mesh.mk 1 1 (fun _ _ => 0))
    { TMState.init with ppairs := [(0, 0, 0)] } 100 1 "gradient"
    (Or.inl rfl) Nat.one_lt_two (by simp)

/-- C7 ("confirmed"): `simplify_by_level(0, method)` with a valid method
eliminates no pairs and returns the state unchanged (every engine-produced
persistence is an absolute value, hence non-negative, so no pair is below
level 0). -/
theorem C7_simplify_level_zero (m : Mesh) (st : TMState) (fuel : ℕ)
    (method : String) (hmethod : method = "gradient" ∨ method = "arc")
    (hnn : ∀ p ∈ st.ppairs, 0 ≤ p.2.2) :
    simplifyByLevel m st fuel 0 method = some st := by
  unfold simplifyByLevel
  have hm : ¬(method ≠ "gradient" ∧ method ≠ "arc") := by
    rcases hmethod with h | h <;> simp [h]
  rw [if_neg hm]
  have hfil : (st.ppairs.filter (fun p => decide (p.2.2 < 0))).length = 0 := by
    rw [List.length_eq_zero, List.filter_eq_nil_iff]
    intro p hp
    simpa using not_lt.2 (hnn p hp)
  simp only [hfil, List.range_zero, List.foldlM_nil]
  rfl

/-- Witness for `C7_simplify_level_zero` on a state with one pair of positive
persistence. -/
theorem C7_witness :
    simplifyByLevel (Mesh.mk 1 1 (fun _ _ => 0))
      { TMState.init with ppairs := [(4, 0, 3)] } 100 0 "arc" =
      some { TMState.init with ppairs := [(4, 0, 3)] } :=
  C7_simplify_level_zero _ _ 100 "arc" (Or.inr rfl)
    (by intro p hp; simp at hp; simp [hp])

/-- Membership in `eraseP (· = q)` on a duplicate-free list. -/
theorem mem_eraseP_eq {es : List (ℕ × ℕ)} {q e : ℕ × ℕ} (h : es.Nodup) :
    (e ∈ es.eraseP (fun x => decide (x = q))) ↔ (e ∈ es ∧ e ≠ q) := by
  induction es with
  | nil => simp
  | cons x t ih =>
    rcases List.nodup_cons.mp h with ⟨hx, ht⟩
    by_cases hxq : x = q
    · subst hxq
      rw [List.eraseP_cons_of_pos (by simp)]
      constructor
      · intro he
        exact ⟨List.mem_cons_of_mem _ he, fun hexq => hx (hexq ▸ he)⟩
      · rintro ⟨he, hne⟩
        rcases List.mem_cons.mp he with rfl | h2
        · exact absurd rfl hne
        · exact h2
    · rw [List.eraseP_cons_of_neg (by simp [hxq])]
      simp only [List.mem_cons, ih ht]
      constructor
      · rintro (rfl | ⟨he, hne⟩)
        · exact ⟨Or.inl rfl, hxq⟩
        · exact ⟨Or.inr he, hne⟩
      · rintro ⟨rfl | he, hne⟩
        · exact Or.inl rfl
        · exact Or.inr ⟨he, hne⟩

/-- An empty arc never crosses the boundary. -/
theorem not_crossed_nil (m : Mesh) : is_arc_crossed_boundary m [] = false := rfl

/-- The fold of `get_cut_morse_graph` computes exactly: start minus the
canonical endpoint pairs of the crossing arcs. -/
theorem cutFold_characterization (m : Mesh) :
    ∀ (arcs : List (List ℕ)) (es0 es : List (ℕ × ℕ)), es0.Nodup →
      (arcs.foldlM (fun (es : List (ℕ × ℕ)) arc =>
          if is_arc_crossed_boundary m arc then
            match arc.head?, arc.getLast? with
            | some a, some b => some (es.eraseP (fun e => decide (e = canonPair a b)))
            | _, _ => none
          else some es) es0) = some es →
      es.Nodup ∧
      (∀ e, e ∈ es ↔ (e ∈ es0 ∧
        ∀ arc ∈ arcs, is_arc_crossed_boundary m arc = true →
          canonPair (arc.headD 0) (arc.getLastD 0) ≠ e)) := by
  intro arcs
  induction arcs with
  | nil =>
    intro es0 es h0 hfold
    simp only [List.foldlM_nil] at hfold
    cases hfold
    exact ⟨h0, fun e => by simp⟩
  | cons arc t ih =>
    intro es0 es h0 hfold
    rw [List.foldlM_cons] at hfold
    by_cases hcross : is_arc_crossed_boundary m arc = true
    · have hne : arc ≠ [] := by
        intro hnil
        rw [hnil, not_crossed_nil] at hcross
        cases hcross
      rcases List.exists_cons_of_ne_nil hne with ⟨x, xs, rfl⟩
      rw [if_pos hcross] at hfold
      have hlast : (x :: xs).getLast? = some ((x :: xs).getLast (by simp)) :=
        List.getLast?_eq_getLast _ _
      rw [List.head?_cons, hlast] at hfold
      simp only [Option.bind_eq_bind, Option.some_bind] at hfold
      set q := canonPair x ((x :: xs).getLast (by simp)) with hq
      have h1 : (es0.eraseP (fun e => decide (e = q))).Nodup :=
        (List.eraseP_sublist es0).nodup h0
      rcases ih _ es h1 hfold with ⟨hnd, hmem⟩
      refine ⟨hnd, fun e => ?_⟩
      rw [hmem e, mem_eraseP_eq h0]
      constructor
      · rintro ⟨⟨he0, hneq⟩, hrest⟩
        refine ⟨he0, fun arc' harc' hcross' => ?_⟩
        rcases List.mem_cons.mp harc' with rfl | hmem'
        · simpa [hq] using fun hh => hneq hh.symm
        · exact hrest arc' hmem' hcross'
      · rintro ⟨he0, hall⟩
        refine ⟨⟨he0, ?_⟩, fun arc' harc' hcross' =>
          hall arc' (List.mem_cons_of_mem _ harc') hcross'⟩
        have := hall (x :: xs) (List.mem_cons_self _ _) hcross
        simp only [List.headD_cons] at this
        intro heq
        apply this
        rw [List.getLastD_eq_getLast?, hlast]
        simpa [hq] using heq.symm
    · rw [if_neg hcross] at hfold
      simp only [Option.bind_eq_bind, Option.some_bind] at hfold
      rcases ih _ es h0 hfold with ⟨hnd, hmem⟩
      refine ⟨hnd, fun e => ?_⟩
      rw [hmem e]
      constructor
      · rintro ⟨he0, hrest⟩
        refine ⟨he0, fun arc' harc' hcross' => ?_⟩
        rcases List.mem_cons.mp harc' with rfl | hmem'
        · exact absurd hcross' hcross
        · exact hrest arc' hmem' hcross'
      · rintro ⟨he0, hall⟩
        exact ⟨he0, fun arc' harc' hcross' =>
          hall arc' (List.mem_cons_of_mem _ harc') hcross'⟩

/-- C10 ("confirmed"): `get_cut_morse_graph` collapses all parallel edges of
the MS multigraph into single (canonical, duplicate-free) edges and then, for
every arc that crosses the toroidal seam, deletes the single remaining edge
between the arc's endpoints.  In particular a node pair loses its only edge
as soon as one of its parallel arcs crosses the seam, even when another
parallel arc between the same nodes stays inside. -/
theorem C10_cut_morse_graph (m : Mesh) (st : TMState) (g : MGraph)
    (h : getCutMorseGraph m st = some g) :
    g.nodes = st.msgraph.nodes ∧ g.edges.Nodup ∧
    (∀ e, e ∈ g.edges ↔
      ((∃ p ∈ st.msgraph.edges, canonPair p.1 p.2 = e) ∧
       ∀ arc ∈ list_arcs st, is_arc_crossed_boundary m arc = true →
         canonPair (arc.headD 0) (arc.getLastD 0) ≠ e)) := by
  unfold getCutMorseGraph at h
  cases hfold : (list_arcs st).foldlM (fun (es : List (ℕ × ℕ)) arc =>
      if is_arc_crossed_boundary m arc then
        match arc.head?, arc.getLast? with
        | some a, some b => some (es.eraseP (fun e => decide (e = canonPair a b)))
        | _, _ => none
      else some es) (toSimpleEdges st.msgraph.edges) with
  | none => rw [hfold] at h; cases h
  | some es =>
    rw [hfold] at h
    rw [Option.map_some'] at h
    have hnd0 : (toSimpleEdges st.msgraph.edges).Nodup := List.nodup_dedup _
    rcases cutFold_characterization m (list_arcs st) _ es hnd0 hfold with ⟨hnd, hmem⟩
    cases h
    refine ⟨rfl, hnd, fun e => ?_⟩
    rw [hmem e]
    constructor
    · rintro ⟨he0, hall⟩
      refine ⟨?_, hall⟩
      rcases List.mem_map.mp (List.mem_dedup.mp he0) with ⟨p, hp, hpe⟩
      exact ⟨p, hp, hpe⟩
    · rintro ⟨⟨p, hp, hpe⟩, hall⟩
      exact ⟨List.mem_dedup.mpr (List.mem_map.mpr ⟨p, hp, hpe⟩), hall⟩

/-- Extract `o = some (o.getD d)` from computability of `o`. -/
theorem optEqSomeGetD {α : Type} (o : Option α) (d : α) (h : o.isSome = true) :
    o = some (o.getD d) := by
  cases o with
  | none => cases h
  | some v => rfl

/-- C3 ("corrected"): on the 1×2 grid with distinct values `1, 2`,
`cmp_discrete_gradient` succeeds but leaves the horizontal edge `2` (a
degenerate loop edge, never part of any lower star) both unpaired and
unmarked: `cr_id[2]` is false while `V[2] = None`, refuting
"`cr_id[c]` iff `V[c] is None`". -/
theorem C3_counterexample :
    (∀ i < mesh12.size, ∀ j < mesh12.size, mesh12.value i = mesh12.value j → i = j) ∧
    cmpDiscreteGradient mesh12 100 TMState.init = some st12grad ∧
    ¬(st12grad.crit 2 = true ↔ st12grad.V 2 = none) := by
  refine ⟨by decide, rfl, ?_⟩
  intro hiff
  have h2 : st12grad.crit 2 = true := hiff.mpr (by rfl)
  exact absurd h2 (by decide)

/-- C4 ("corrected"): on the 1×1 grid (a single vertex, trivially
pairwise-distinct values), the single vertex is critical and nothing else is,
so `#minima − #saddles + #maxima = 1 ≠ 0`. -/
theorem C4_counterexample :
    (∀ i < mesh11.size, ∀ j < mesh11.size, mesh11.value i = mesh11.value j → i = j) ∧
    cmpDiscreteGradient mesh11 100 TMState.init = some st11grad ∧
    ((mesh11.cp st11grad 0).length : ℤ) - ((mesh11.cp st11grad 1).length : ℤ) +
      ((mesh11.cp st11grad 2).length : ℤ) ≠ 0 := by
  exact ⟨by decide, rfl, by decide⟩

/-- C5 ("corrected"): on the 1×2 grid with distinct values, after
`cmp_discrete_gradient` and `cmp_msgraph`, the critical saddle `5` has two
0-critical neighbours but zero 2-critical neighbours in the MS multigraph,
and `get_max_neib_msgraph(5)` raises its cardinality error (`none`): the
two-maximum half of the claim is false. -/
theorem C5_counterexample :
    (∀ i < mesh12.size, ∀ j < mesh12.size, mesh12.value i = mesh12.value j → i = j) ∧
    cmpDiscreteGradient mesh12 100 TMState.init = some st12grad ∧
    cmpMsgraph mesh12 st12grad 100 = some st12ms ∧
    st12ms.crit 5 = true ∧ mesh12.dim 5 = 1 ∧
    ((st12ms.msgraph.neighbors 5).filter (fun n => decide (mesh12.dim n = 2))).length = 0 ∧
    getMaxNeib mesh12 st12ms 5 = none := by
  exact ⟨by decide, rfl, rfl, by decide, by decide, by decide, by decide⟩

/-- Witness for `C10_cut_morse_graph` on the full 2×2 pipeline state. -/
theorem C10_witness :
    g22cut.nodes = st22full.msgraph.nodes ∧ g22cut.edges.Nodup ∧
    (∀ e, e ∈ g22cut.edges ↔
      ((∃ p ∈ st22full.msgraph.edges, canonPair p.1 p.2 = e) ∧
       ∀ arc ∈ list_arcs st22full, is_arc_crossed_boundary mesh22 arc = true →
         canonPair (arc.headD 0) (arc.getLastD 0) ≠ e)) :=
  C10_cut_morse_graph mesh22 st22full g22cut (by decide)

/-- Membership after `insertPairDesc`. -/
theorem mem_insertPairDesc (a x : ℕ × ℕ × ℚ) :
    ∀ l, x ∈ insertPairDesc a l ↔ x = a ∨ x ∈ l := by
  intro l
  induction l with
  | nil => simp [insertPairDesc]
  | cons b t ih =>
    unfold insertPairDesc
    by_cases hab : a.2.2 < b.2.2
    · rw [if_pos hab]
      simp only [List.mem_cons, ih]
      tauto
    · rw [if_neg hab]
      simp only [List.mem_cons]

/-- Membership after `sortPairsDesc`. -/
theorem mem_sortPairsDesc (x : ℕ × ℕ × ℚ) :
    ∀ l, x ∈ sortPairsDesc l ↔ x ∈ l := by
  intro l
  induction l with
  | nil => simp [sortPairsDesc]
  | cons b t ih =>
    unfold sortPairsDesc
    rw [mem_insertPairDesc, ih, List.mem_cons]

/-- `insertPairDesc` preserves descending sortedness by the third component. -/
theorem sorted_insertPairDesc (a : ℕ × ℕ × ℚ) :
    ∀ l, List.Sorted (fun p q : ℕ × ℕ × ℚ => q.2.2 ≤ p.2.2) l →
      List.Sorted (fun p q : ℕ × ℕ × ℚ => q.2.2 ≤ p.2.2) (insertPairDesc a l) := by
  intro l
  induction l with
  | nil => intro _; simp [insertPairDesc]
  | cons b t ih =>
    intro hs
    rcases List.sorted_cons.mp hs with ⟨hb, ht⟩
    unfold insertPairDesc
    by_cases hab : a.2.2 < b.2.2
    · rw [if_pos hab]
      refine List.sorted_cons.mpr ⟨?_, ih ht⟩
      intro x hx
      rcases (mem_insertPairDesc a x t).mp hx with rfl | hxt
      · exact le_of_lt hab
      · exact hb x hxt
    · rw [if_neg hab]
      refine List.sorted_cons.mpr ⟨?_, hs⟩
      intro x hx
      rcases List.mem_cons.mp hx with rfl | hxt
      · exact not_lt.mp hab
      · exact le_trans (hb x hxt) (not_lt.mp hab)

/-- `sortPairsDesc` sorts descending by the third component. -/
theorem sorted_sortPairsDesc :
    ∀ l, List.Sorted (fun p q : ℕ × ℕ × ℚ => q.2.2 ≤ p.2.2) (sortPairsDesc l) := by
  intro l
  induction l with
  | nil => simp [sortPairsDesc]
  | cons b t ih => exact sorted_insertPairDesc b _ ih

/-- The reduction loop only appends pairs of the form
`(c1, c2, persistence(c1, c2))`. -/
theorem reduceLoop_good (m : Mesh) (st : TMState) (low : Bool) (i : ℕ) :
    ∀ fuel curset cycles pairs out, GoodPairs m pairs →
      reduceLoop m st low i fuel curset cycles pairs = some out →
      GoodPairs m out.2.2 := by
  intro fuel
  induction fuel with
  | zero => intro _ _ _ _ _ h; cases h
  | succ f ih =>
    intro curset cycles pairs out hg h
    unfold reduceLoop at h
    split at h
    · cases h
      exact hg
    · split at h
      · exact Option.noConfusion h
      · split at h
        · refine ih _ _ _ _ ?_ h
          intro p hp
          rcases List.mem_append.mp hp with hp1 | hp2
          · exact hg p hp1
          · rcases List.mem_singleton.mp hp2 with rfl
            rfl
        · exact ih _ _ _ _ hg h

/-- One pass step preserves the pair-shape invariant. -/
theorem passStep_good (m : Mesh) (st : TMState) (signs : List Bool)
    (wantSign : Bool) (fuel : ℕ)
    (acc : List Bool × List (Option (List Bool)) × List (ℕ × ℕ × ℚ)) (i : ℕ)
    (out : List Bool × List (Option (List Bool)) × List (ℕ × ℕ × ℚ))
    (hg : GoodPairs m acc.2.2)
    (h : passStep m st signs wantSign fuel acc i = some out) :
    GoodPairs m out.2.2 := by
  unfold passStep at h
  dsimp only at h
  split at h
  · split at h
    · exact Option.noConfusion h
    · split at h
      · exact Option.noConfusion h
      · exact reduceLoop_good m st wantSign i fuel _ acc.2.1 acc.2.2 out hg h
  · cases h
    exact hg

/-- C6 ("confirmed"): after `cmp_persistent_pairs`, the pair list is sorted by
persistence descending, and every triple `(saddle, extremum, p)` satisfies
`p = |max extvalue(saddle) − max extvalue(extremum)|`. -/
theorem C6_persistent_pairs (m : Mesh) (st : TMState) (fuel : ℕ) (st' : TMState)
    (h : cmpPersistentPairs m st fuel = some st') :
    List.Sorted (fun p q : ℕ × ℕ × ℚ => q.2.2 ≤ p.2.2) st'.ppairs ∧
    ∀ p ∈ st'.ppairs,
      p.2.2 = |listMaxQ (m.extvalue p.1) - listMaxQ (m.extvalue p.2.1)| := by
  unfold cmpPersistentPairs at h
  dsimp only at h
  cases hsg : cmpSigns m st with
  | none => rw [hsg] at h; exact Option.noConfusion h
  | some sgp =>
    rw [hsg] at h
    dsimp only at h
    cases hfwd : (List.range st.crCells.length).foldlM
        (passStep m st sgp.1 false fuel)
        (List.replicate st.crCells.length false,
         List.replicate st.crCells.length (none : Option (List Bool)), []) with
    | none => rw [hfwd] at h; exact Option.noConfusion h
    | some fwd =>
      rw [hfwd] at h
      dsimp only at h
      cases hrev : (List.range st.crCells.length).reverse.foldlM
          (passStep m st sgp.1 true fuel)
          (List.replicate st.crCells.length false, fwd.2.1, fwd.2.2) with
      | none => rw [hrev] at h; exact Option.noConfusion h
      | some rev =>
        rw [hrev] at h
        dsimp only at h
        cases h
        have hfg : GoodPairs m fwd.2.2 := by
          refine foldlM_option_inv (fun acc => GoodPairs m acc.2.2) _ _ _
            (by intro p hp; cases hp) ?_ _ hfwd
          intro b' a r _ hb hr
          exact passStep_good m st sgp.1 false fuel b' a r hb hr
        have hrg : GoodPairs m rev.2.2 := by
          refine foldlM_option_inv (fun acc => GoodPairs m acc.2.2) _ _ _ hfg ?_ _ hrev
          intro b' a r _ hb hr
          exact passStep_good m st sgp.1 true fuel b' a r hb hr
        refine ⟨sorted_sortPairsDesc _, ?_⟩
        intro p hp
        exact hrg p ((mem_sortPairsDesc p _).mp hp)

/-- Witness for `C6_persistent_pairs`: the 2×2 pipeline run. -/
theorem C6_witness :
    List.Sorted (fun p q : ℕ × ℕ × ℚ => q.2.2 ≤ p.2.2) st22full.ppairs ∧
    ∀ p ∈ st22full.ppairs,
      p.2.2 = |listMaxQ (mesh22.extvalue p.1) - listMaxQ (mesh22.extvalue p.2.1)| :=
  C6_persistent_pairs mesh22 st22arcs 200 st22full (optEqSomeGetD _ _ (by decide))

/-- `vright` keeps the row and steps the column right, modulo `W`. -/
theorem Mesh.vright_eq (hW : 0 < m.sizeX) (idx : ℕ) :
    m.vright idx = m.coordy idx * m.sizeX + (m.coordx idx + 1) % m.sizeX := by
  unfold vright coordx coordy
  have h1 : idx % m.sizeX < m.sizeX := Nat.mod_lt _ hW
  have h2 : m.sizeX * (idx / m.sizeX) + idx % m.sizeX = idx :=
    Nat.div_add_mod idx m.sizeX
  have h2' : idx / m.sizeX * m.sizeX = m.sizeX * (idx / m.sizeX) := Nat.mul_comm _ _
  have h3 : (idx + 1) % m.sizeX = (idx % m.sizeX + 1) % m.sizeX := by
    conv =>
      lhs
      rw [← h2]
    rw [Nat.add_assoc, Nat.mul_add_mod]
  omega

/-- `vleft` keeps the row and steps the column left, modulo `W`. -/
theorem Mesh.vleft_eq (hW : 0 < m.sizeX) (idx : ℕ) :
    m.vleft idx = m.coordy idx * m.sizeX + (m.coordx idx + m.sizeX - 1) % m.sizeX := by
  unfold vleft coordx coordy
  have h1 : idx % m.sizeX < m.sizeX := Nat.mod_lt _ hW
  have h2 : m.sizeX * (idx / m.sizeX) + idx % m.sizeX = idx :=
    Nat.div_add_mod idx m.sizeX
  have h2' : idx / m.sizeX * m.sizeX = m.sizeX * (idx / m.sizeX) := Nat.mul_comm _ _
  have h3 : (idx + m.sizeX - 1) % m.sizeX = (idx % m.sizeX + m.sizeX - 1) % m.sizeX := by
    have h4 : idx + m.sizeX - 1 = m.sizeX * (idx / m.sizeX) + (idx % m.sizeX + m.sizeX - 1) := by
      omega
    rw [h4, Nat.mul_add_mod]
  omega

/-- `vbottom` keeps the column and steps the row down, modulo `H`. -/
theorem Mesh.vbottom_eq (hW : 0 < m.sizeX) (hH : 0 < m.sizeY) (idx : ℕ)
    (hidx : idx < m.size) :
    m.vbottom idx = (m.coordy idx + 1) % m.sizeY * m.sizeX + m.coordx idx := by
  unfold vbottom coordx coordy
  have hsz : m.size = m.sizeX * m.sizeY := rfl
  have h1 : idx % m.sizeX < m.sizeX := Nat.mod_lt _ hW
  have h2 : m.sizeX * (idx / m.sizeX) + idx % m.sizeX = idx := Nat.div_add_mod idx m.sizeX
  have hy : idx / m.sizeX < m.sizeY := by
    rw [Nat.div_lt_iff_lt_mul hW]
    calc idx < m.sizeX * m.sizeY := hidx
    _ = m.sizeY * m.sizeX := Nat.mul_comm _ _
  by_cases hlast : idx / m.sizeX + 1 = m.sizeY
  · have hmod : (idx / m.sizeX + 1) % m.sizeY = 0 := by rw [hlast, Nat.mod_self]
    rw [hmod, hsz]
    have hstep : idx + m.sizeX = idx % m.sizeX + m.sizeX * m.sizeY := by
      have he : m.sizeX * (idx / m.sizeX + 1) = m.sizeX * m.sizeY := by rw [hlast]
      have he2 : m.sizeX * (idx / m.sizeX + 1) = m.sizeX * (idx / m.sizeX) + m.sizeX :=
        Nat.mul_succ _ _
      omega
    rw [hstep, Nat.add_mod_right]
    have : idx % m.sizeX % (m.sizeX * m.sizeY) = idx % m.sizeX := by
      apply Nat.mod_eq_of_lt
      calc idx % m.sizeX < m.sizeX := h1
      _ = m.sizeX * 1 := (Nat.mul_one _).symm
      _ ≤ m.sizeX * m.sizeY := Nat.mul_le_mul_left _ hH
    omega
  · have hlt : idx / m.sizeX + 1 < m.sizeY := by omega
    have hmod : (idx / m.sizeX + 1) % m.sizeY = idx / m.sizeX + 1 := Nat.mod_eq_of_lt hlt
    rw [hmod, hsz]
    have hsum : idx + m.sizeX = (idx / m.sizeX + 1) * m.sizeX + idx % m.sizeX := by
      have : (idx / m.sizeX + 1) * m.sizeX = idx / m.sizeX * m.sizeX + m.sizeX :=
        Nat.succ_mul _ _
      have h2' : idx / m.sizeX * m.sizeX = m.sizeX * (idx / m.sizeX) := Nat.mul_comm _ _
      omega
    have hlt2 : idx + m.sizeX < m.sizeX * m.sizeY := by
      rw [hsum]
      calc (idx / m.sizeX + 1) * m.sizeX + idx % m.sizeX
          < (idx / m.sizeX + 1) * m.sizeX + m.sizeX := by omega
      _ = (idx / m.sizeX + 1 + 1) * m.sizeX := by ring
      _ ≤ m.sizeY * m.sizeX := Nat.mul_le_mul_right _ (by omega)
      _ = m.sizeX * m.sizeY := Nat.mul_comm _ _
    rw [Nat.mod_eq_of_lt hlt2, hsum]

/-- `vtop` keeps the column and steps the row up, modulo `H`. -/
theorem Mesh.vtop_eq (hW : 0 < m.sizeX) (hH : 0 < m.sizeY) (idx : ℕ)
    (hidx : idx < m.size) :
    m.vtop idx = (m.coordy idx + m.sizeY - 1) % m.sizeY * m.sizeX + m.coordx idx := by
  unfold vtop coordx coordy
  have hsz : m.size = m.sizeX * m.sizeY := rfl
  have h1 : idx % m.sizeX < m.sizeX := Nat.mod_lt _ hW
  have h2 : m.sizeX * (idx / m.sizeX) + idx % m.sizeX = idx := Nat.div_add_mod idx m.sizeX
  have hy : idx / m.sizeX < m.sizeY := by
    rw [Nat.div_lt_iff_lt_mul hW]
    calc idx < m.sizeX * m.sizeY := hidx
    _ = m.sizeY * m.sizeX := Nat.mul_comm _ _
  have hXle : m.sizeX ≤ m.sizeX * m.sizeY := by
    calc m.sizeX = m.sizeX * 1 := (Nat.mul_one _).symm
    _ ≤ m.sizeX * m.sizeY := Nat.mul_le_mul_left _ hH
  have hexp : (idx / m.sizeX + m.sizeY - 1) * m.sizeX =
      idx / m.sizeX * m.sizeX + m.sizeY * m.sizeX - m.sizeX := by
    rw [Nat.sub_mul, Nat.add_mul, Nat.one_mul]
  have hc1 : idx / m.sizeX * m.sizeX = m.sizeX * (idx / m.sizeX) := Nat.mul_comm _ _
  have hc2 : m.sizeY * m.sizeX = m.sizeX * m.sizeY := Nat.mul_comm _ _
  have hkey : idx + m.size - m.sizeX =
      (idx / m.sizeX + m.sizeY - 1) * m.sizeX + idx % m.sizeX := by
    rw [hsz, hexp]
    omega
  rw [hkey, hsz]
  set r := idx / m.sizeX + m.sizeY - 1 with hr
  have hdecomp : m.sizeY * (r / m.sizeY) + r % m.sizeY = r := Nat.div_add_mod r m.sizeY
  have hmlt : r % m.sizeY < m.sizeY := Nat.mod_lt _ hH
  have hexp2 : r * m.sizeX = r % m.sizeY * m.sizeX + m.sizeX * m.sizeY * (r / m.sizeY) := by
    calc r * m.sizeX = (m.sizeY * (r / m.sizeY) + r % m.sizeY) * m.sizeX := by rw [hdecomp]
    _ = r % m.sizeY * m.sizeX + m.sizeX * m.sizeY * (r / m.sizeY) := by ring
  rw [hexp2, Nat.add_assoc, Nat.add_comm (m.sizeX * m.sizeY * (r / m.sizeY)),
    ← Nat.add_assoc, Nat.add_mul_mod_self_left]
  apply Nat.mod_eq_of_lt
  calc r % m.sizeY * m.sizeX + idx % m.sizeX
      < r % m.sizeY * m.sizeX + m.sizeX := by omega
  _ = (r % m.sizeY + 1) * m.sizeX := by ring
  _ ≤ m.sizeY * m.sizeX := Nat.mul_le_mul_right _ (by omega)
  _ = m.sizeX * m.sizeY := Nat.mul_comm _ _

/-- A coordinate pair below the bounds gives a vertex id below `N`. -/
theorem Mesh.mk_lt (hx : ∀ _ : Unit, True) (x y : ℕ) (hxW : x < m.sizeX) (hyH : y < m.sizeY) :
    y * m.sizeX + x < m.size := by
  unfold size
  calc y * m.sizeX + x < y * m.sizeX + m.sizeX := by omega
  _ = (y + 1) * m.sizeX := by ring
  _ ≤ m.sizeY * m.sizeX := Nat.mul_le_mul_right _ hyH
  _ = m.sizeX * m.sizeY := Nat.mul_comm _ _

/-- `coordx` of an explicitly built vertex id. -/
theorem Mesh.coordx_mk (x y : ℕ) (hxW : x < m.sizeX) :
    m.coordx (y * m.sizeX + x) = x := by
  unfold coordx
  rw [Nat.add_comm, Nat.mul_comm, Nat.add_mul_mod_self_left, Nat.mod_eq_of_lt hxW]

/-- `coordy` of an explicitly built vertex id. -/
theorem Mesh.coordy_mk (x y : ℕ) (hxW : x < m.sizeX) :
    m.coordy (y * m.sizeX + x) = y := by
  unfold coordy
  rw [Nat.add_comm, Nat.mul_comm, Nat.add_mul_div_left _ _ (by omega : 0 < m.sizeX),
    Nat.div_eq_of_lt hxW, Nat.zero_add]

/-- Every vertex id below `N` decomposes into its coordinates. -/
theorem Mesh.coord_decomp (idx : ℕ) (hidx : idx < m.size) :
    idx = m.coordy idx * m.sizeX + m.coordx idx ∧
    m.coordx idx < m.sizeX ∧ m.coordy idx < m.sizeY := by
  have hW : 0 < m.sizeX := by
    rcases Nat.eq_zero_or_pos m.sizeX with h | h
    · exfalso
      have : m.size = 0 := by unfold size; rw [h, Nat.zero_mul]
      omega
    · exact h
  have h2 : m.sizeX * (idx / m.sizeX) + idx % m.sizeX = idx := Nat.div_add_mod idx m.sizeX
  have h3 : idx / m.sizeX * m.sizeX = m.sizeX * (idx / m.sizeX) := Nat.mul_comm _ _
  refine ⟨by unfold coordx coordy; omega, Nat.mod_lt _ hW, ?_⟩
  unfold coordy
  rw [Nat.div_lt_iff_lt_mul hW]
  calc idx < m.size := hidx
  _ = m.sizeY * m.sizeX := Nat.mul_comm _ _

/-- `vright` stays below `N`. -/
theorem Mesh.vright_lt (hW : 0 < m.sizeX) (hH : 0 < m.sizeY) (idx : ℕ)
    (hidx : idx < m.size) : m.vright idx < m.size := by
  rcases coord_decomp idx hidx with ⟨_, hx, hy⟩
  rw [vright_eq hW]
  exact mk_lt (fun _ => trivial) _ _ (Nat.mod_lt _ hW) hy

/-- `vleft` stays below `N`. -/
theorem Mesh.vleft_lt (hW : 0 < m.sizeX) (hH : 0 < m.sizeY) (idx : ℕ)
    (hidx : idx < m.size) : m.vleft idx < m.size := by
  rcases coord_decomp idx hidx with ⟨_, hx, hy⟩
  rw [vleft_eq hW]
  exact mk_lt (fun _ => trivial) _ _ (Nat.mod_lt _ hW) hy

/-- `vbottom` stays below `N`. -/
theorem Mesh.vbottom_lt (hW : 0 < m.sizeX) (hH : 0 < m.sizeY) (idx : ℕ)
    (hidx : idx < m.size) : m.vbottom idx < m.size := by
  rcases coord_decomp idx hidx with ⟨_, hx, hy⟩
  rw [vbottom_eq hW hH idx hidx]
  exact mk_lt (fun _ => trivial) _ _ hx (Nat.mod_lt _ hH)

/-- `vtop` stays below `N`. -/
theorem Mesh.vtop_lt (hW : 0 < m.sizeX) (hH : 0 < m.sizeY) (idx : ℕ)
    (hidx : idx < m.size) : m.vtop idx < m.size := by
  rcases coord_decomp idx hidx with ⟨_, hx, hy⟩
  rw [vtop_eq hW hH idx hidx]
  exact mk_lt (fun _ => trivial) _ _ hx (Nat.mod_lt _ hH)

/-- `vleft` undoes `vright`. -/
theorem Mesh.vleft_vright (hW : 0 < m.sizeX) (hH : 0 < m.sizeY) (idx : ℕ)
    (hidx : idx < m.size) : m.vleft (m.vright idx) = idx := by
  rcases coord_decomp idx hidx with ⟨hdec, hx, hy⟩
  rw [vright_eq hW, vleft_eq hW, coordx_mk _ _ (Nat.mod_lt _ hW),
    coordy_mk _ _ (Nat.mod_lt _ hW)]
  have : ((m.coordx idx + 1) % m.sizeX + m.sizeX - 1) % m.sizeX = m.coordx idx := by
    have h1 : (m.coordx idx + 1) % m.sizeX + m.sizeX - 1 =
        (m.coordx idx + 1) % m.sizeX + (m.sizeX - 1) := by omega
    rw [h1, Nat.mod_add_mod]
    have h2 : m.coordx idx + 1 + (m.sizeX - 1) = m.coordx idx + m.sizeX := by omega
    rw [h2, Nat.add_mod_right, Nat.mod_eq_of_lt hx]
  rw [this]
  omega

/-- `vright` undoes `vleft`. -/
theorem Mesh.vright_vleft (hW : 0 < m.sizeX) (hH : 0 < m.sizeY) (idx : ℕ)
    (hidx : idx < m.size) : m.vright (m.vleft idx) = idx := by
  rcases coord_decomp idx hidx with ⟨hdec, hx, hy⟩
  rw [vleft_eq hW, vright_eq hW, coordx_mk _ _ (Nat.mod_lt _ hW),
    coordy_mk _ _ (Nat.mod_lt _ hW)]
  have : ((m.coordx idx + m.sizeX - 1) % m.sizeX + 1) % m.sizeX = m.coordx idx := by
    rw [Nat.mod_add_mod]
    have h2 : m.coordx idx + m.sizeX - 1 + 1 = m.coordx idx + m.sizeX := by omega
    rw [h2, Nat.add_mod_right, Nat.mod_eq_of_lt hx]
  rw [this]
  omega

/-- `vtop` undoes `vbottom`. -/
theorem Mesh.vtop_vbottom (hW : 0 < m.sizeX) (hH : 0 < m.sizeY) (idx : ℕ)
    (hidx : idx < m.size) : m.vtop (m.vbottom idx) = idx := by
  rcases coord_decomp idx hidx with ⟨hdec, hx, hy⟩
  have hb : m.vbottom idx < m.size := vbottom_lt hW hH idx hidx
  rw [vbottom_eq hW hH idx hidx] at hb ⊢
  rw [vtop_eq hW hH _ hb, coordx_mk _ _ hx, coordy_mk _ _ hx]
  have : ((m.coordy idx + 1) % m.sizeY + m.sizeY - 1) % m.sizeY = m.coordy idx := by
    have h1 : (m.coordy idx + 1) % m.sizeY + m.sizeY - 1 =
        (m.coordy idx + 1) % m.sizeY + (m.sizeY - 1) := by omega
    rw [h1, Nat.mod_add_mod]
    have h2 : m.coordy idx + 1 + (m.sizeY - 1) = m.coordy idx + m.sizeY := by omega
    rw [h2, Nat.add_mod_right, Nat.mod_eq_of_lt hy]
  rw [this]
  omega

/-- `vbottom` undoes `vtop`. -/
theorem Mesh.vbottom_vtop (hW : 0 < m.sizeX) (hH : 0 < m.sizeY) (idx : ℕ)
    (hidx : idx < m.size) : m.vbottom (m.vtop idx) = idx := by
  rcases coord_decomp idx hidx with ⟨hdec, hx, hy⟩
  have hb : m.vtop idx < m.size := vtop_lt hW hH idx hidx
  rw [vtop_eq hW hH idx hidx] at hb ⊢
  rw [vbottom_eq hW hH _ hb, coordx_mk _ _ hx, coordy_mk _ _ hx]
  have : ((m.coordy idx + m.sizeY - 1) % m.sizeY + 1) % m.sizeY = m.coordy idx := by
    rw [Nat.mod_add_mod]
    have h2 : m.coordy idx + m.sizeY - 1 + 1 = m.coordy idx + m.sizeY := by omega
    rw [h2, Nat.add_mod_right, Nat.mod_eq_of_lt hy]
  rw [this]
  omega

/-- `vright` and `vtop` commute (they act on different coordinates). -/
theorem Mesh.vright_vtop (hW : 0 < m.sizeX) (hH : 0 < m.sizeY) (idx : ℕ)
    (hidx : idx < m.size) : m.vright (m.vtop idx) = m.vtop (m.vright idx) := by
  rcases coord_decomp idx hidx with ⟨hdec, hx, hy⟩
  have ht : m.vtop idx < m.size := vtop_lt hW hH idx hidx
  have hr : m.vright idx < m.size := vright_lt hW hH idx hidx
  have e1 : m.vright (m.vtop idx) =
      (m.coordy idx + m.sizeY - 1) % m.sizeY * m.sizeX + (m.coordx idx + 1) % m.sizeX := by
    rw [vright_eq hW (m.vtop idx), vtop_eq hW hH idx hidx,
      coordx_mk _ _ hx, coordy_mk _ _ hx]
  have e2 : m.vtop (m.vright idx) =
      (m.coordy idx + m.sizeY - 1) % m.sizeY * m.sizeX + (m.coordx idx + 1) % m.sizeX := by
    rw [vtop_eq hW hH (m.vright idx) hr, vright_eq hW idx,
      coordx_mk _ _ (Nat.mod_lt _ hW), coordy_mk _ _ (Nat.mod_lt _ hW)]
  rw [e1, e2]

/-- `vtop` is the identity exactly on height-1 grids. -/
theorem Mesh.vtop_fix_iff (hW : 0 < m.sizeX) (hH : 0 < m.sizeY) (idx : ℕ)
    (hidx : idx < m.size) : m.vtop idx = idx ↔ m.sizeY = 1 := by
  rcases coord_decomp idx hidx with ⟨hdec, hx, hy⟩
  rw [vtop_eq hW hH idx hidx]
  constructor
  · intro h
    by_contra hY
    have hY2 : 2 ≤ m.sizeY := by omega
    have heqy : (m.coordy idx + m.sizeY - 1) % m.sizeY = m.coordy idx := by
      have h5 := congrArg m.coordy h
      rwa [coordy_mk _ _ hx] at h5
    by_cases h0 : m.coordy idx = 0
    · rw [h0, Nat.zero_add] at heqy
      have : (m.sizeY - 1) % m.sizeY = m.sizeY - 1 := Nat.mod_eq_of_lt (by omega)
      omega
    · have hlt : m.coordy idx + m.sizeY - 1 = m.coordy idx - 1 + m.sizeY := by omega
      rw [hlt, Nat.add_mod_right, Nat.mod_eq_of_lt (by omega)] at heqy
      omega
  · intro h
    have h0 : m.coordy idx = 0 := by omega
    have h1 : m.coordy idx * m.sizeX = 0 := by rw [h0, Nat.zero_mul]
    have h2 : (m.coordy idx + m.sizeY - 1) % m.sizeY = 0 := by
      rw [h, h0]
    rw [h2, Nat.zero_mul, Nat.zero_add]
    omega

/-- `vright` is the identity exactly on width-1 grids. -/
theorem Mesh.vright_fix_iff (hW : 0 < m.sizeX) (hH : 0 < m.sizeY) (idx : ℕ)
    (hidx : idx < m.size) : m.vright idx = idx ↔ m.sizeX = 1 := by
  rcases coord_decomp idx hidx with ⟨hdec, hx, hy⟩
  rw [vright_eq hW]
  constructor
  · intro h
    by_contra hX
    have hX2 : 2 ≤ m.sizeX := by omega
    have heqx : (m.coordx idx + 1) % m.sizeX = m.coordx idx := by
      have h5 := congrArg m.coordx h
      rwa [coordx_mk _ _ (Nat.mod_lt _ hW)] at h5
    by_cases h0 : m.coordx idx + 1 = m.sizeX
    · rw [h0, Nat.mod_self] at heqx
      omega
    · rw [Nat.mod_eq_of_lt (by omega)] at heqx
      omega
  · intro h
    have h0 : m.coordx idx = 0 := by omega
    have h2 : (m.coordx idx + 1) % m.sizeX = 0 := by
      rw [h, h0]
    have h3 : m.coordy idx * m.sizeX = m.coordy idx := by rw [h, Nat.mul_one]
    rw [h2]
    omega

/-- Vertices have dimension 0. -/
theorem Mesh.dim_vertex {idx : ℕ} (h : idx < m.size) : m.dim idx = 0 := by
  unfold dim
  rw [if_pos h]

/-- Edges have dimension 1. -/
theorem Mesh.dim_edge {idx : ℕ} (h1 : m.size ≤ idx) (h2 : idx < 3 * m.size) :
    m.dim idx = 1 := by
  unfold dim
  rw [if_neg (by omega), if_pos h2]

/-- Faces have dimension 2. -/
theorem Mesh.dim_face {idx : ℕ} (h1 : 3 * m.size ≤ idx) : m.dim idx = 2 := by
  unfold dim
  have hN : 0 < m.size ∨ m.size = 0 := by omega
  rw [if_neg (by omega), if_neg (by omega)]

/-- Vertex list of a vertex. -/
theorem Mesh.verts_vertex {idx : ℕ} (h : idx < m.size) : m.verts idx = [idx] := by
  unfold verts
  rw [if_pos h]

/-- Vertex list of a horizontal edge. -/
theorem Mesh.verts_edgeH {t : ℕ} (h : t < m.size) :
    m.verts (m.size + t) = [t, m.vright t] := by
  unfold verts
  rw [if_neg (by omega), if_pos (by omega)]
  simp [Nat.add_sub_cancel_left]

/-- Vertex list of a vertical edge. -/
theorem Mesh.verts_edgeV {t : ℕ} (h : t < m.size) :
    m.verts (2 * m.size + t) = [t, m.vbottom t] := by
  unfold verts
  rw [if_neg (by omega), if_neg (by omega), if_pos (by omega)]
  have : 2 * m.size + t - 2 * m.size = t := by omega
  rw [this]

/-- Vertex list of a face. -/
theorem Mesh.verts_face {t : ℕ} (h : t < m.size) :
    m.verts (3 * m.size + t) =
      [t, m.vright t, m.vbottom (m.vright t), m.vbottom t] := by
  unfold verts
  rw [if_neg (by omega), if_neg (by omega), if_neg (by omega)]
  have : 3 * m.size + t - 3 * m.size = t := by omega
  rw [this]

/-- Facet list of a face. -/
theorem Mesh.facets_face {t : ℕ} (h : t < m.size) :
    m.facets (3 * m.size + t) =
      [m.size + t, 2 * m.size + t, m.size + m.vbottom t, 2 * m.size + m.vright t] := by
  unfold facets
  rw [if_pos (dim_face (by omega))]
  have : 3 * m.size + t - 3 * m.size = t := by omega
  rw [this]

/-- Facet list of a horizontal edge: its two vertices. -/
theorem Mesh.facets_edgeH {t : ℕ} (h : t < m.size) :
    m.facets (m.size + t) = [t, m.vright t] := by
  unfold facets
  rw [if_neg (by rw [dim_edge (by omega) (by omega)]; omega)]
  exact verts_edgeH h

/-- Facet list of a vertical edge: its two vertices. -/
theorem Mesh.facets_edgeV {t : ℕ} (h : t < m.size) :
    m.facets (2 * m.size + t) = [t, m.vbottom t] := by
  unfold facets
  rw [if_neg (by rw [dim_edge (by omega) (by omega)]; omega)]
  exact verts_edgeV h

/-- Cofacet pair of a horizontal edge. -/
theorem Mesh.cofacets_edgeH {t : ℕ} (h : t < m.size) :
    m.cofacets (m.size + t) = some (3 * m.size + m.vtop t, 3 * m.size + t) := by
  unfold cofacets
  rw [if_neg (by rw [dim_edge (by omega) (by omega)]; omega), if_pos (by omega)]
  have : m.size + t - m.size = t := by omega
  rw [this]

/-- Cofacet pair of a vertical edge. -/
theorem Mesh.cofacets_edgeV {t : ℕ} (h : t < m.size) :
    m.cofacets (2 * m.size + t) = some (3 * m.size + m.vleft t, 3 * m.size + t) := by
  unfold cofacets
  rw [if_neg (by rw [dim_edge (by omega) (by omega)]; omega), if_neg (by omega)]
  have : 2 * m.size + t - 2 * m.size = t := by omega
  rw [this]

/-- `vright` and `vbottom` commute. -/
theorem Mesh.vright_vbottom (hW : 0 < m.sizeX) (hH : 0 < m.sizeY) (idx : ℕ)
    (hidx : idx < m.size) : m.vright (m.vbottom idx) = m.vbottom (m.vright idx) := by
  rcases coord_decomp idx hidx with ⟨hdec, hx, hy⟩
  have ht : m.vbottom idx < m.size := vbottom_lt hW hH idx hidx
  have hr : m.vright idx < m.size := vright_lt hW hH idx hidx
  have e1 : m.vright (m.vbottom idx) =
      (m.coordy idx + 1) % m.sizeY * m.sizeX + (m.coordx idx + 1) % m.sizeX := by
    rw [vright_eq hW (m.vbottom idx), vbottom_eq hW hH idx hidx,
      coordx_mk _ _ hx, coordy_mk _ _ hx]
  have e2 : m.vbottom (m.vright idx) =
      (m.coordy idx + 1) % m.sizeY * m.sizeX + (m.coordx idx + 1) % m.sizeX := by
    rw [vbottom_eq hW hH (m.vright idx) hr, vright_eq hW idx,
      coordx_mk _ _ (Nat.mod_lt _ hW), coordy_mk _ _ (Nat.mod_lt _ hW)]
  rw [e1, e2]

/-- `vleft` and `vtop` commute. -/
theorem Mesh.vleft_vtop (hW : 0 < m.sizeX) (hH : 0 < m.sizeY) (idx : ℕ)
    (hidx : idx < m.size) : m.vleft (m.vtop idx) = m.vtop (m.vleft idx) := by
  rcases coord_decomp idx hidx with ⟨hdec, hx, hy⟩
  have ht : m.vtop idx < m.size := vtop_lt hW hH idx hidx
  have hr : m.vleft idx < m.size := vleft_lt hW hH idx hidx
  have e1 : m.vleft (m.vtop idx) =
      (m.coordy idx + m.sizeY - 1) % m.sizeY * m.sizeX +
        (m.coordx idx + m.sizeX - 1) % m.sizeX := by
    rw [vleft_eq hW (m.vtop idx), vtop_eq hW hH idx hidx,
      coordx_mk _ _ hx, coordy_mk _ _ hx]
  have e2 : m.vtop (m.vleft idx) =
      (m.coordy idx + m.sizeY - 1) % m.sizeY * m.sizeX +
        (m.coordx idx + m.sizeX - 1) % m.sizeX := by
    rw [vtop_eq hW hH (m.vleft idx) hr, vleft_eq hW idx,
      coordx_mk _ _ (Nat.mod_lt _ hW), coordy_mk _ _ (Nat.mod_lt _ hW)]
  rw [e1, e2]

/-- `vleft` and `vbottom` commute. -/
theorem Mesh.vleft_vbottom (hW : 0 < m.sizeX) (hH : 0 < m.sizeY) (idx : ℕ)
    (hidx : idx < m.size) : m.vleft (m.vbottom idx) = m.vbottom (m.vleft idx) := by
  rcases coord_decomp idx hidx with ⟨hdec, hx, hy⟩
  have ht : m.vbottom idx < m.size := vbottom_lt hW hH idx hidx
  have hr : m.vleft idx < m.size := vleft_lt hW hH idx hidx
  have e1 : m.vleft (m.vbottom idx) =
      (m.coordy idx + 1) % m.sizeY * m.sizeX + (m.coordx idx + m.sizeX - 1) % m.sizeX := by
    rw [vleft_eq hW (m.vbottom idx), vbottom_eq hW hH idx hidx,
      coordx_mk _ _ hx, coordy_mk _ _ hx]
  have e2 : m.vbottom (m.vleft idx) =
      (m.coordy idx + 1) % m.sizeY * m.sizeX + (m.coordx idx + m.sizeX - 1) % m.sizeX := by
    rw [vbottom_eq hW hH (m.vleft idx) hr, vleft_eq hW idx,
      coordx_mk _ _ (Nat.mod_lt _ hW), coordy_mk _ _ (Nat.mod_lt _ hW)]
  rw [e1, e2]

/-- Vertex list of the left incident edge. -/
theorem Mesh.verts_eleft (hW : 0 < m.sizeX) (hH : 0 < m.sizeY) {v : ℕ} (hv : v < m.size) :
    m.verts (m.eleft v) = [m.vleft v, v] := by
  unfold eleft
  rw [verts_edgeH (vleft_lt hW hH v hv), vright_vleft hW hH v hv]

/-- Vertex list of the top incident edge. -/
theorem Mesh.verts_etop (hW : 0 < m.sizeX) (hH : 0 < m.sizeY) {v : ℕ} (hv : v < m.size) :
    m.verts (m.etop v) = [m.vtop v, v] := by
  unfold etop
  rw [Nat.mul_comm m.size 2, verts_edgeV (vtop_lt hW hH v hv), vbottom_vtop hW hH v hv]

/-- Vertex list of the right incident edge. -/
theorem Mesh.verts_eright (hW : 0 < m.sizeX) (hH : 0 < m.sizeY) {v : ℕ} (hv : v < m.size) :
    m.verts (m.eright v) = [v, m.vright v] := by
  unfold eright
  exact verts_edgeH hv

/-- Vertex list of the bottom incident edge. -/
theorem Mesh.verts_ebottom (hW : 0 < m.sizeX) (hH : 0 < m.sizeY) {v : ℕ} (hv : v < m.size) :
    m.verts (m.ebottom v) = [v, m.vbottom v] := by
  unfold ebottom
  rw [Nat.mul_comm m.size 2]
  exact verts_edgeV hv

/-- Vertex list of the left-top incident face. -/
theorem Mesh.verts_flefttop (hW : 0 < m.sizeX) (hH : 0 < m.sizeY) {v : ℕ} (hv : v < m.size) :
    m.verts (m.flefttop v) = [m.vtop (m.vleft v), m.vtop v, v, m.vleft v] := by
  unfold flefttop
  have hl : m.vleft v < m.size := vleft_lt hW hH v hv
  have ht : m.vtop (m.vleft v) < m.size := vtop_lt hW hH _ hl
  rw [Nat.mul_comm m.size 3, verts_face ht]
  rw [vright_vtop hW hH _ hl, vright_vleft hW hH v hv,
    vbottom_vtop hW hH v hv, vbottom_vtop hW hH _ hl]

/-- Vertex list of the right-top incident face. -/
theorem Mesh.verts_frighttop (hW : 0 < m.sizeX) (hH : 0 < m.sizeY) {v : ℕ} (hv : v < m.size) :
    m.verts (m.frighttop v) = [m.vtop v, m.vtop (m.vright v), m.vright v, v] := by
  unfold frighttop
  have ht : m.vtop v < m.size := vtop_lt hW hH v hv
  rw [Nat.mul_comm m.size 3, verts_face ht]
  rw [vright_vtop hW hH v hv, vbottom_vtop hW hH _ (vright_lt hW hH v hv),
    vbottom_vtop hW hH v hv]

/-- Vertex list of the left-bottom incident face. -/
theorem Mesh.verts_fleftbottom (hW : 0 < m.sizeX) (hH : 0 < m.sizeY) {v : ℕ} (hv : v < m.size) :
    m.verts (m.fleftbottom v) = [m.vleft v, v, m.vbottom v, m.vbottom (m.vleft v)] := by
  unfold fleftbottom
  have hl : m.vleft v < m.size := vleft_lt hW hH v hv
  rw [Nat.mul_comm m.size 3, verts_face hl, vright_vleft hW hH v hv]

/-- Vertex list of the right-bottom incident face. -/
theorem Mesh.verts_frightbottom (hW : 0 < m.sizeX) (hH : 0 < m.sizeY) {v : ℕ} (hv : v < m.size) :
    m.verts (m.frightbottom v) =
      [v, m.vright v, m.vbottom (m.vright v), m.vbottom v] := by
  unfold frightbottom
  rw [Nat.mul_comm m.size 3, verts_face hv]

/-- `insertAscBy` permutes a cons. -/
theorem insertAscBy_perm (key : ℕ → List ℚ) (a : ℕ) :
    ∀ l, List.Perm (insertAscBy key a l) (a :: l) := by
  intro l
  induction l with
  | nil => simp [insertAscBy]
  | cons b t ih =>
    unfold insertAscBy
    split
    · exact (List.Perm.cons b ih).trans (List.Perm.swap a b t)
    · exact List.Perm.refl _

/-- `sortAscBy` permutes its input. -/
theorem sortAscBy_perm (key : ℕ → List ℚ) :
    ∀ l, List.Perm (sortAscBy key l) l := by
  intro l
  induction l with
  | nil => exact List.Perm.refl _
  | cons b t ih =>
    unfold sortAscBy
    exact (insertAscBy_perm key b _).trans (List.Perm.cons b ih)

/-- Membership is invariant under `sortAscBy`. -/
theorem mem_sortAscBy {key : ℕ → List ℚ} {c : ℕ} {l : List ℕ} :
    c ∈ sortAscBy key l ↔ c ∈ l :=
  (sortAscBy_perm key l).mem_iff

/-- Membership in a conditional append. -/
theorem mem_ite_append {c x : ℕ} {l : List ℕ} {P : Prop} [Decidable P] :
    (c ∈ if P then l ++ [x] else l) ↔ ((P ∧ c = x) ∨ c ∈ l) := by
  split
  · rename_i h
    simp only [List.mem_append, List.mem_singleton]
    tauto
  · rename_i h
    tauto

/-- Membership in the lower star, by the eight star positions and their
guards (listed in the construction order of the source: faces last in the
build, hence first in this disjunction after unfolding). -/
theorem Mesh.mem_lower_star {v c : ℕ} :
    c ∈ m.lower_star v ↔
      ((((m.value (m.vright v) < m.value v ∧ m.value (m.vbottom v) < m.value v) ∧
         m.value (m.vright (m.vbottom v)) < m.value v) ∧ c = m.frightbottom v) ∨
       (((m.value (m.vleft v) < m.value v ∧ m.value (m.vbottom v) < m.value v) ∧
         m.value (m.vleft (m.vbottom v)) < m.value v) ∧ c = m.fleftbottom v) ∨
       (((m.value (m.vright v) < m.value v ∧ m.value (m.vtop v) < m.value v) ∧
         m.value (m.vright (m.vtop v)) < m.value v) ∧ c = m.frighttop v) ∨
       (((m.value (m.vleft v) < m.value v ∧ m.value (m.vtop v) < m.value v) ∧
         m.value (m.vleft (m.vtop v)) < m.value v) ∧ c = m.flefttop v) ∨
       (m.value (m.vbottom v) < m.value v ∧ c = m.ebottom v) ∨
       (m.value (m.vright v) < m.value v ∧ c = m.eright v) ∨
       (m.value (m.vtop v) < m.value v ∧ c = m.etop v) ∨
       (m.value (m.vleft v) < m.value v ∧ c = m.eleft v)) := by
  unfold lower_star
  rw [mem_sortAscBy]
  simp only [mem_ite_append, List.not_mem_nil, or_false, Bool.and_eq_true,
    decide_eq_true_eq]

/-- Every lower-star cell of `v` contains `v`, and all its other vertices have
strictly smaller value (`v` is the top of its lower star). -/
theorem Mesh.lowerStar_maxvert (hW : 0 < m.sizeX) (hH : 0 < m.sizeY) {v c : ℕ}
    (hv : v < m.size) (hc : c ∈ m.lower_star v) :
    v ∈ m.verts c ∧ ∀ u ∈ m.verts c, u ≠ v → m.value u < m.value v := by
  rcases mem_lower_star.mp hc with
    ⟨⟨⟨h1, h2⟩, h3⟩, rfl⟩ | ⟨⟨⟨h1, h2⟩, h3⟩, rfl⟩ | ⟨⟨⟨h1, h2⟩, h3⟩, rfl⟩ |
    ⟨⟨⟨h1, h2⟩, h3⟩, rfl⟩ | ⟨h1, rfl⟩ | ⟨h1, rfl⟩ | ⟨h1, rfl⟩ | ⟨h1, rfl⟩
  · rw [verts_frightbottom hW hH hv]
    refine ⟨by simp, ?_⟩
    intro u hu hne
    simp only [List.mem_cons, List.not_mem_nil, or_false] at hu
    rcases hu with rfl | rfl | rfl | rfl
    · exact absurd rfl hne
    · exact h1
    · rw [← vright_vbottom hW hH v hv]
      exact h3
    · exact h2
  · rw [verts_fleftbottom hW hH hv]
    refine ⟨by simp, ?_⟩
    intro u hu hne
    simp only [List.mem_cons, List.not_mem_nil, or_false] at hu
    rcases hu with rfl | rfl | rfl | rfl
    · exact h1
    · exact absurd rfl hne
    · exact h2
    · rw [← vleft_vbottom hW hH v hv]
      exact h3
  · rw [verts_frighttop hW hH hv]
    refine ⟨by simp, ?_⟩
    intro u hu hne
    simp only [List.mem_cons, List.not_mem_nil, or_false] at hu
    rcases hu with rfl | rfl | rfl | rfl
    · exact h2
    · rw [← vright_vtop hW hH v hv]
      exact h3
    · exact h1
    · exact absurd rfl hne
  · rw [verts_flefttop hW hH hv]
    refine ⟨by simp, ?_⟩
    intro u hu hne
    simp only [List.mem_cons, List.not_mem_nil, or_false] at hu
    rcases hu with rfl | rfl | rfl | rfl
    · rw [← vleft_vtop hW hH v hv]
      exact h3
    · exact h2
    · exact absurd rfl hne
    · exact h1
  · rw [verts_ebottom hW hH hv]
    refine ⟨by simp, ?_⟩
    intro u hu hne
    simp only [List.mem_cons, List.not_mem_nil, or_false] at hu
    rcases hu with rfl | rfl
    · exact absurd rfl hne
    · exact h1
  · rw [verts_eright hW hH hv]
    refine ⟨by simp, ?_⟩
    intro u hu hne
    simp only [List.mem_cons, List.not_mem_nil, or_false] at hu
    rcases hu with rfl | rfl
    · exact absurd rfl hne
    · exact h1
  · rw [verts_etop hW hH hv]
    refine ⟨by simp, ?_⟩
    intro u hu hne
    simp only [List.mem_cons, List.not_mem_nil, or_false] at hu
    rcases hu with rfl | rfl
    · exact h1
    · exact absurd rfl hne
  · rw [verts_eleft hW hH hv]
    refine ⟨by simp, ?_⟩
    intro u hu hne
    simp only [List.mem_cons, List.not_mem_nil, or_false] at hu
    rcases hu with rfl | rfl
    · exact h1
    · exact absurd rfl hne

/-- Lower stars of distinct vertices are disjoint. -/
theorem Mesh.lowerStar_disjoint (hW : 0 < m.sizeX) (hH : 0 < m.sizeY) {u v c : ℕ}
    (hu : u < m.size) (hv : v < m.size) (hne : u ≠ v)
    (hcu : c ∈ m.lower_star u) (hcv : c ∈ m.lower_star v) : False := by
  rcases lowerStar_maxvert hW hH hu hcu with ⟨humem, hult⟩
  rcases lowerStar_maxvert hW hH hv hcv with ⟨hvmem, hvlt⟩
  have h1 : m.value v < m.value u := hult v hvmem (Ne.symm hne)
  have h2 : m.value u < m.value v := hvlt u humem hne
  exact absurd (h1.trans h2) (lt_irrefl _)

/-- Lower-star cells lie in the edge/face id ranges `[N, 4N)`. -/
theorem Mesh.lowerStar_range (hW : 0 < m.sizeX) (hH : 0 < m.sizeY) {v c : ℕ}
    (hv : v < m.size) (hc : c ∈ m.lower_star v) :
    m.size ≤ c ∧ c < 4 * m.size := by
  have hl : m.vleft v < m.size := vleft_lt hW hH v hv
  have ht : m.vtop v < m.size := vtop_lt hW hH v hv
  have htl : m.vtop (m.vleft v) < m.size := vtop_lt hW hH _ hl
  rcases mem_lower_star.mp hc with
    ⟨_, rfl⟩ | ⟨_, rfl⟩ | ⟨_, rfl⟩ | ⟨_, rfl⟩ | ⟨_, rfl⟩ | ⟨_, rfl⟩ | ⟨_, rfl⟩ | ⟨_, rfl⟩
  · unfold frightbottom
    omega
  · unfold fleftbottom
    omega
  · unfold frighttop
    omega
  · unfold flefttop
    omega
  · unfold ebottom
    omega
  · unfold eright
    omega
  · unfold etop
    omega
  · unfold eleft
    omega

/-- The four possible edge positions of a lower star have ids in `[N, 3N)`,
the four face positions in `[3N, 4N)`; every lower-star cell is an edge or a
face, and an explicit description holds. -/
theorem Mesh.lowerStar_dim (hW : 0 < m.sizeX) (hH : 0 < m.sizeY) {v c : ℕ}
    (hv : v < m.size) (hc : c ∈ m.lower_star v) :
    (m.dim c = 1 ∧ m.size ≤ c ∧ c < 3 * m.size) ∨
    (m.dim c = 2 ∧ 3 * m.size ≤ c ∧ c < 4 * m.size) := by
  have hl : m.vleft v < m.size := vleft_lt hW hH v hv
  have ht : m.vtop v < m.size := vtop_lt hW hH v hv
  have htl : m.vtop (m.vleft v) < m.size := vtop_lt hW hH _ hl
  rcases mem_lower_star.mp hc with
    ⟨_, rfl⟩ | ⟨_, rfl⟩ | ⟨_, rfl⟩ | ⟨_, rfl⟩ | ⟨_, rfl⟩ | ⟨_, rfl⟩ | ⟨_, rfl⟩ | ⟨_, rfl⟩
  · exact Or.inr ⟨dim_face (by unfold frightbottom; omega), by unfold frightbottom; omega⟩
  · exact Or.inr ⟨dim_face (by unfold fleftbottom; omega), by unfold fleftbottom; omega⟩
  · exact Or.inr ⟨dim_face (by unfold frighttop; omega), by unfold frighttop; omega⟩
  · exact Or.inr ⟨dim_face (by unfold flefttop; omega), by unfold flefttop; omega⟩
  · exact Or.inl ⟨dim_edge (by unfold ebottom; omega) (by unfold ebottom; omega),
      by unfold ebottom; omega⟩
  · exact Or.inl ⟨dim_edge (by unfold eright; omega) (by unfold eright; omega),
      by unfold eright; omega⟩
  · exact Or.inl ⟨dim_edge (by unfold etop; omega) (by unfold etop; omega),
      by unfold etop; omega⟩
  · exact Or.inl ⟨dim_edge (by unfold eleft; omega) (by unfold eleft; omega),
      by unfold eleft; omega⟩

/-- `listLtQ` is asymmetric. -/
theorem listLtQ_asymm : ∀ {a b : List ℚ}, listLtQ a b = true → listLtQ b a = false := by
  intro a
  induction a with
  | nil =>
    intro b h
    cases b with
    | nil => simpa [listLtQ] using h
    | cons x xs => simp [listLtQ]
  | cons x xs ih =>
    intro b h
    cases b with
    | nil => simp [listLtQ] at h
    | cons y ys =>
      unfold listLtQ at h ⊢
      rcases lt_trichotomy x y with hxy | hxy | hxy
      · rw [if_neg (not_lt.2 (le_of_lt hxy)), if_pos hxy]
      · subst hxy
        rw [if_neg (lt_irrefl x), if_neg (lt_irrefl x)] at h ⊢
        exact ih h
      · rw [if_neg (not_lt.2 (le_of_lt hxy)), if_pos hxy] at h
        cases h

/-- Co-transitivity of `listLtQ`: a strict comparison splits at any middle
list. -/
theorem listLtQ_cotrans : ∀ {a c : List ℚ}, listLtQ a c = true →
    ∀ b, listLtQ a b = true ∨ listLtQ b c = true := by
  intro a
  induction a with
  | nil =>
    intro c h b
    cases c with
    | nil => simp [listLtQ] at h
    | cons z zs =>
      cases b with
      | nil => exact Or.inr (by simp [listLtQ])
      | cons y ys => exact Or.inl (by simp [listLtQ])
  | cons x xs ih =>
    intro c h b
    cases c with
    | nil => simp [listLtQ] at h
    | cons z zs =>
      cases b with
      | nil => exact Or.inr (by simp [listLtQ])
      | cons y ys =>
        unfold listLtQ at h ⊢
        rcases lt_trichotomy x y with hxy | hxy | hxy
        · exact Or.inl (by rw [if_pos hxy])
        · subst hxy
          rcases lt_trichotomy x z with hxz | hxz | hxz
          · exact Or.inr (by rw [if_pos hxz])
          · subst hxz
            rw [if_neg (lt_irrefl x), if_neg (lt_irrefl x)] at h
            rcases ih h ys with h1 | h1
            · exact Or.inl (by rw [if_neg (lt_irrefl x), if_neg (lt_irrefl x)]; exact h1)
            · exact Or.inr (by rw [if_neg (lt_irrefl x), if_neg (lt_irrefl x)]; exact h1)
          · rw [if_neg (not_lt.2 (le_of_lt hxz)), if_pos hxz] at h
            cases h
        · rcases lt_trichotomy y z with hyz | hyz | hyz
          · exact Or.inr (by rw [if_pos hyz])
          · subst hyz
            rcases lt_trichotomy x y with h2 | h2 | h2
            · exact absurd h2 (not_lt.2 (le_of_lt hxy))
            · exact absurd h2.symm (ne_of_lt hxy)
            · rw [if_neg (not_lt.2 (le_of_lt hxy)), if_pos hxy] at h
              cases h
          · rcases lt_trichotomy x z with h3 | h3 | h3
            · exact absurd (h3.trans hyz) (lt_irrefl _ ∘ (lt_trans hxy))
            · rw [← h3] at hyz
              exact absurd (hxy.trans hyz) (lt_irrefl _)
            · rw [if_neg (not_lt.2 (le_of_lt h3)), if_pos h3] at h
              cases h

/-- `insertAscBy` preserves sortedness by the key. -/
theorem sorted_insertAscBy (key : ℕ → List ℚ) (a : ℕ) :
    ∀ l, List.Pairwise (fun p q => listLtQ (key q) (key p) = false) l →
      List.Pairwise (fun p q => listLtQ (key q) (key p) = false) (insertAscBy key a l) := by
  intro l
  induction l with
  | nil => intro _; simp [insertAscBy]
  | cons b t ih =>
    intro hs
    rcases List.pairwise_cons.mp hs with ⟨hb, ht⟩
    unfold insertAscBy
    split
    · rename_i hba
      refine List.pairwise_cons.mpr ⟨?_, ih ht⟩
      intro x hx
      rcases List.mem_cons.mp ((insertAscBy_perm key a t).mem_iff.mp hx) with rfl | hxt
      · exact listLtQ_asymm hba
      · exact hb x hxt
    · rename_i hba
      refine List.pairwise_cons.mpr ⟨?_, hs⟩
      intro x hx
      rcases List.mem_cons.mp hx with rfl | hxt
      · simpa using hba
      · rcases Bool.eq_false_or_eq_true (listLtQ (key x) (key a)) with h1 | h1
        · rcases listLtQ_cotrans h1 (key b) with h2 | h2
          · exact absurd (hb x hxt) (by rw [h2]; simp)
          · exact absurd hba (by rw [h2]; simp)
        · exact h1

/-- `sortAscBy` sorts by the key. -/
theorem sorted_sortAscBy (key : ℕ → List ℚ) :
    ∀ l, List.Pairwise (fun p q => listLtQ (key q) (key p) = false) (sortAscBy key l) := by
  intro l
  induction l with
  | nil => simp [sortAscBy]
  | cons b t ih => exact sorted_insertAscBy key b _ ih

/-- `insertDescQ` permutes a cons. -/
theorem insertDescQ_perm (a : ℚ) : ∀ l, List.Perm (insertDescQ a l) (a :: l) := by
  intro l
  induction l with
  | nil => simp [insertDescQ]
  | cons b t ih =>
    unfold insertDescQ
    split
    · exact (List.Perm.cons b ih).trans (List.Perm.swap a b t)
    · exact List.Perm.refl _

/-- `sortDescQ` permutes its input. -/
theorem sortDescQ_perm : ∀ l : List ℚ, List.Perm (sortDescQ l) l := by
  intro l
  induction l with
  | nil => exact List.Perm.refl _
  | cons b t ih =>
    unfold sortDescQ
    exact (insertDescQ_perm b _).trans (List.Perm.cons b ih)

/-- `insertDescQ` preserves descending sortedness. -/
theorem sorted_insertDescQ (a : ℚ) :
    ∀ l, List.Pairwise (fun p q : ℚ => q ≤ p) l →
      List.Pairwise (fun p q : ℚ => q ≤ p) (insertDescQ a l) := by
  intro l
  induction l with
  | nil => intro _; simp [insertDescQ]
  | cons b t ih =>
    intro hs
    rcases List.pairwise_cons.mp hs with ⟨hb, ht⟩
    unfold insertDescQ
    split
    · rename_i hab
      refine List.pairwise_cons.mpr ⟨?_, ih ht⟩
      intro x hx
      rcases List.mem_cons.mp ((insertDescQ_perm a t).mem_iff.mp hx) with rfl | hxt
      · exact le_of_lt hab
      · exact hb x hxt
    · rename_i hab
      refine List.pairwise_cons.mpr ⟨?_, hs⟩
      intro x hx
      rcases List.mem_cons.mp hx with rfl | hxt
      · exact not_lt.mp hab
      · exact le_trans (hb x hxt) (not_lt.mp hab)

/-- `sortDescQ` sorts descending. -/
theorem sorted_sortDescQ :
    ∀ l : List ℚ, List.Pairwise (fun p q : ℚ => q ≤ p) (sortDescQ l) := by
  intro l
  induction l with
  | nil => simp [sortDescQ]
  | cons b t ih => exact sorted_insertDescQ b _ ih

/-- `sortDescQ` on a two-element list. -/
theorem sortDescQ_pair (x y : ℚ) :
    sortDescQ [x, y] = if x < y then [y, x] else [x, y] := by
  by_cases h : x < y
  · simp [sortDescQ, insertDescQ, h]
  · simp [sortDescQ, insertDescQ, h]

/-- A two-element descending tuple `[V, U]` is lexicographically below the
descending sort of a four-element list that contains `U`, is bounded by `V`,
and has `V` as an element. -/
theorem listLt_two_four {V U : ℚ} {L : List ℚ} (hlen : L.length = 4)
    (hV : V ∈ L) (hU : U ∈ L) (hbound : ∀ x ∈ L, x ≤ V) (hUlt : U < V) :
    listLtQ [V, U] (sortDescQ L) = true := by
  have hperm := sortDescQ_perm L
  have hsorted := sorted_sortDescQ L
  have hlen' : (sortDescQ L).length = 4 := by rw [hperm.length_eq, hlen]
  match hs : sortDescQ L with
  | [] => rw [hs] at hlen'; cases hlen'
  | h1 :: t =>
    rw [hs] at hperm hsorted hlen'
    have hmax : h1 = V := by
      have hh1 : h1 ∈ L := hperm.mem_iff.mp (List.mem_cons_self _ _)
      have hVmem : V ∈ h1 :: t := hperm.mem_iff.mpr hV
      rcases List.mem_cons.mp hVmem with rfl | hVt
      · rfl
      · exact le_antisymm (hbound h1 hh1)
          ((List.pairwise_cons.mp hsorted).1 V hVt)
    subst hmax
    have hUmem : U ∈ h1 :: t := hperm.mem_iff.mpr hU
    have hUt : U ∈ t := by
      rcases List.mem_cons.mp hUmem with rfl | hUt
      · exact absurd rfl (ne_of_lt hUlt)
      · exact hUt
    match ht : t, hUt, hsorted, hlen' with
    | [], hUt, hsorted, hlen' => exact absurd hUt (List.not_mem_nil _)
    | h2 :: t2, hUt, hsorted, hlen' =>
      have hUh2 : U ≤ h2 := by
        rcases List.mem_cons.mp hUt with rfl | hUt2
        · exact le_refl _
        · exact (List.pairwise_cons.mp (List.pairwise_cons.mp hsorted).2).1 U hUt2
      have ht2ne : t2 ≠ [] := by
        intro h
        rw [h] at hlen'
        simp at hlen'
      unfold listLtQ
      rw [if_neg (lt_irrefl _), if_neg (lt_irrefl _)]
      unfold listLtQ
      rcases lt_or_eq_of_le hUh2 with h | h
      · rw [if_pos h]
      · subst h
        rw [if_neg (lt_irrefl _), if_neg (lt_irrefl _)]
        match t2, ht2ne with
        | z :: zs, _ => rfl

/-- In a non-empty lower star, the head of the sorted list is a 1-cell: every
face in a lower star is preceded by one of its own boundary edges. -/
theorem Mesh.lowerStar_head_dim (hW : 0 < m.sizeX) (hH : 0 < m.sizeY) {v : ℕ}
    (hv : v < m.size) {delta : ℕ} {rest : List ℕ}
    (h : m.lower_star v = delta :: rest) : m.dim delta = 1 := by
  have hdmem : delta ∈ m.lower_star v := by rw [h]; exact List.mem_cons_self _ _
  have hl : m.vleft v < m.size := vleft_lt hW hH v hv
  have htp : m.vtop v < m.size := vtop_lt hW hH v hv
  rcases lowerStar_dim hW hH hv hdmem with ⟨hd, _⟩ | ⟨hd, _⟩
  · exact hd
  have hsorted :
      List.Pairwise (fun p q => listLtQ (m.extvalue q) (m.extvalue p) = false)
        (m.lower_star v) := by
    unfold lower_star
    exact sorted_sortAscBy m.extvalue _
  rw [h] at hsorted
  have hmin : ∀ x ∈ rest, listLtQ (m.extvalue x) (m.extvalue delta) = false :=
    (List.pairwise_cons.mp hsorted).1
  -- pick a boundary edge of the face `delta` inside the lower star with
  -- smaller extended value
  have hexf : ∃ e, e ∈ m.lower_star v ∧ e ≠ delta ∧
      listLtQ (m.extvalue e) (m.extvalue delta) = true := by
    rcases mem_lower_star.mp hdmem with
      ⟨⟨⟨h1, h2⟩, h3⟩, rfl⟩ | ⟨⟨⟨h1, h2⟩, h3⟩, rfl⟩ | ⟨⟨⟨h1, h2⟩, h3⟩, rfl⟩ |
      ⟨⟨⟨h1, h2⟩, h3⟩, rfl⟩ | ⟨h1, rfl⟩ | ⟨h1, rfl⟩ | ⟨h1, rfl⟩ | ⟨h1, rfl⟩
    · -- frightbottom: use eright
      refine ⟨m.eright v,
        mem_lower_star.mpr (Or.inr (Or.inr (Or.inr (Or.inr (Or.inr (Or.inl ⟨h1, rfl⟩)))))),
        ?_, ?_⟩
      · intro heq
        have := congrArg m.dim heq
        rw [dim_edge (by unfold eright; omega) (by unfold eright; omega),
          dim_face (by unfold frightbottom; omega)] at this
        cases this
      · unfold extvalue
        rw [verts_eright hW hH hv, verts_frightbottom hW hH hv]
        simp only [List.map_cons, List.map_nil]
        rw [sortDescQ_pair, if_neg (not_lt.2 (le_of_lt h1))]
        apply listLt_two_four (by simp) (by simp) (by simp) _ h1
        intro x hx
        simp only [List.mem_cons, List.not_mem_nil, or_false] at hx
        rcases hx with rfl | rfl | rfl | rfl
        · exact le_refl _
        · exact le_of_lt h1
        · rw [← vright_vbottom hW hH v hv]
          exact le_of_lt h3
        · exact le_of_lt h2
    · -- fleftbottom: use ebottom
      refine ⟨m.ebottom v,
        mem_lower_star.mpr (Or.inr (Or.inr (Or.inr (Or.inr (Or.inl ⟨h2, rfl⟩))))),
        ?_, ?_⟩
      · intro heq
        have := congrArg m.dim heq
        rw [dim_edge (by unfold ebottom; omega) (by unfold ebottom; omega),
          dim_face (by unfold fleftbottom; omega)] at this
        cases this
      · unfold extvalue
        rw [verts_ebottom hW hH hv, verts_fleftbottom hW hH hv]
        simp only [List.map_cons, List.map_nil]
        rw [sortDescQ_pair, if_neg (not_lt.2 (le_of_lt h2))]
        apply listLt_two_four (by simp) (by simp) (by simp) _ h2
        intro x hx
        simp only [List.mem_cons, List.not_mem_nil, or_false] at hx
        rcases hx with rfl | rfl | rfl | rfl
        · exact le_of_lt h1
        · exact le_refl _
        · exact le_of_lt h2
        · rw [← vleft_vbottom hW hH v hv]
          exact le_of_lt h3
    · -- frighttop: use eright
      refine ⟨m.eright v,
        mem_lower_star.mpr (Or.inr (Or.inr (Or.inr (Or.inr (Or.inr (Or.inl ⟨h1, rfl⟩)))))),
        ?_, ?_⟩
      · intro heq
        have := congrArg m.dim heq
        rw [dim_edge (by unfold eright; omega) (by unfold eright; omega),
          dim_face (by unfold frighttop; omega)] at this
        cases this
      · unfold extvalue
        rw [verts_eright hW hH hv, verts_frighttop hW hH hv]
        simp only [List.map_cons, List.map_nil]
        rw [sortDescQ_pair, if_neg (not_lt.2 (le_of_lt h1))]
        apply listLt_two_four (by simp) (by simp) (by simp) _ h1
        intro x hx
        simp only [List.mem_cons, List.not_mem_nil, or_false] at hx
        rcases hx with rfl | rfl | rfl | rfl
        · exact le_of_lt h2
        · rw [← vright_vtop hW hH v hv]
          exact le_of_lt h3
        · exact le_of_lt h1
        · exact le_refl _
    · -- flefttop: use eleft
      refine ⟨m.eleft v,
        mem_lower_star.mpr
          (Or.inr (Or.inr (Or.inr (Or.inr (Or.inr (Or.inr (Or.inr ⟨h1, rfl⟩))))))),
        ?_, ?_⟩
      · intro heq
        have := congrArg m.dim heq
        rw [dim_edge (by unfold eleft; omega) (by unfold eleft; omega),
          dim_face (by unfold flefttop; omega)] at this
        cases this
      · unfold extvalue
        rw [verts_eleft hW hH hv, verts_flefttop hW hH hv]
        simp only [List.map_cons, List.map_nil]
        rw [sortDescQ_pair, if_pos h1]
        apply listLt_two_four (by simp) (by simp) (by simp) _ h1
        intro x hx
        simp only [List.mem_cons, List.not_mem_nil, or_false] at hx
        rcases hx with rfl | rfl | rfl | rfl
        · rw [← vleft_vtop hW hH v hv]
          exact le_of_lt h3
        · exact le_of_lt h2
        · exact le_refl _
        · exact le_of_lt h1
    · rw [dim_edge (by unfold ebottom; omega) (by unfold ebottom; omega)] at hd
      cases hd
    · rw [dim_edge (by unfold eright; omega) (by unfold eright; omega)] at hd
      cases hd
    · rw [dim_edge (by unfold etop; omega) (by unfold etop; omega)] at hd
      cases hd
    · rw [dim_edge (by unfold eleft; omega) (by unfold eleft; omega)] at hd
      cases hd
  rcases hexf with ⟨e, hemem, hene, helt⟩
  rw [h] at hemem
  rcases List.mem_cons.mp hemem with rfl | het
  · exact absurd rfl hene
  · exact absurd helt (by rw [hmin e het]; simp)

/-- If a shifted residue is a fixed point, the modulus is 1. -/
theorem Mesh.mod_pred_eq_self {x W : ℕ} (hx : x < W) (h : (x + W - 1) % W = x) :
    W = 1 := by
  by_contra hW
  have hW2 : 2 ≤ W := by omega
  by_cases h0 : x = 0
  · rw [h0] at h
    rw [Nat.zero_add, Nat.mod_eq_of_lt (by omega)] at h
    omega
  · have hsplit : x + W - 1 = x - 1 + W := by omega
    rw [hsplit, Nat.add_mod_right, Nat.mod_eq_of_lt (by omega)] at h
    omega

/-- A conditional append preserves `Nodup` when the new element is fresh. -/
theorem Mesh.nodup_ite_append {l : List ℕ} {x : ℕ} {P : Prop} [Decidable P]
    (hl : l.Nodup) (hx : P → x ∉ l) : (if P then l ++ [x] else l).Nodup := by
  split
  · rename_i h
    rw [List.nodup_append]
    exact ⟨hl, List.nodup_singleton x, by simpa using hx h⟩
  · exact hl

/-- `vtop` keeps `coordx` and shifts `coordy`. -/
theorem Mesh.coordy_vtop (hW : 0 < m.sizeX) (hH : 0 < m.sizeY) {w : ℕ} (hw : w < m.size) :
    m.coordy (m.vtop w) = (m.coordy w + m.sizeY - 1) % m.sizeY ∧
    m.coordx (m.vtop w) = m.coordx w := by
  rcases coord_decomp w hw with ⟨hdec, hx, hy⟩
  rw [vtop_eq hW hH w hw, coordy_mk _ _ hx, coordx_mk _ _ hx]
  exact ⟨rfl, rfl⟩

/-- `vleft` keeps `coordy`. -/
theorem Mesh.coordy_vleft (hW : 0 < m.sizeX) (hH : 0 < m.sizeY) {w : ℕ} (hw : w < m.size) :
    m.coordy (m.vleft w) = m.coordy w := by
  rcases coord_decomp w hw with ⟨hdec, hx, hy⟩
  rw [vleft_eq hW, coordy_mk _ _ (Nat.mod_lt _ hW)]

/-- The lower-star list contains no duplicates. -/
theorem Mesh.lowerStar_nodup (hW : 0 < m.sizeX) (hH : 0 < m.sizeY) {v : ℕ}
    (hv : v < m.size) : (m.lower_star v).Nodup := by
  have hl : m.vleft v < m.size := vleft_lt hW hH v hv
  have htp : m.vtop v < m.size := vtop_lt hW hH v hv
  have htl : m.vtop (m.vleft v) < m.size := vtop_lt hW hH _ hl
  have hVne : ∀ {a : ℕ}, m.value a < m.value v → a ≠ v := by
    intro a hlt heq
    rw [heq] at hlt
    exact absurd hlt (lt_irrefl _)
  unfold lower_star
  apply (sortAscBy_perm m.extvalue _).nodup_iff.mpr
  apply nodup_ite_append
  apply nodup_ite_append
  apply nodup_ite_append
  apply nodup_ite_append
  apply nodup_ite_append
  apply nodup_ite_append
  apply nodup_ite_append
  apply nodup_ite_append
  · exact List.nodup_nil
  -- eleft fresh in []
  · intro _ hmem
    exact absurd hmem (List.not_mem_nil _)
  -- etop fresh
  · intro hg hmem
    simp only [mem_ite_append, List.not_mem_nil, or_false, Bool.and_eq_true, decide_eq_true_eq] at hmem
    rcases hmem with ⟨_, heq⟩
    unfold etop eleft at heq
    omega
  -- eright fresh
  · intro hg hmem
    simp only [mem_ite_append, List.not_mem_nil, or_false, Bool.and_eq_true, decide_eq_true_eq] at hmem
    rcases hmem with ⟨_, heq⟩ | ⟨hgl, heq⟩
    · unfold eright etop at heq
      omega
    · unfold eright eleft at heq
      have hveq : m.vleft v = v := by omega
      rw [hveq] at hgl
      exact absurd hgl (lt_irrefl _)
  -- ebottom fresh
  · intro hg hmem
    simp only [mem_ite_append, List.not_mem_nil, or_false, Bool.and_eq_true, decide_eq_true_eq] at hmem
    rcases hmem with ⟨_, heq⟩ | ⟨hgt, heq⟩ | ⟨_, heq⟩
    · unfold ebottom eright at heq
      omega
    · unfold ebottom etop at heq
      have hvv : m.vtop v = v := by omega
      rw [hvv] at hgt
      exact absurd hgt (lt_irrefl _)
    · unfold ebottom eleft at heq
      omega
  -- flefttop fresh among the edges
  · intro hg hmem
    simp only [mem_ite_append, List.not_mem_nil, or_false, Bool.and_eq_true, decide_eq_true_eq] at hmem
    rcases hmem with ⟨_, heq⟩ | ⟨_, heq⟩ | ⟨_, heq⟩ | ⟨_, heq⟩ <;>
      [skip; skip; skip; skip]
    · unfold flefttop ebottom at heq
      omega
    · unfold flefttop eright at heq
      omega
    · unfold flefttop etop at heq
      omega
    · unfold flefttop eleft at heq
      omega
  -- frighttop fresh
  · intro hg hmem
    simp only [mem_ite_append, List.not_mem_nil, or_false, Bool.and_eq_true, decide_eq_true_eq] at hmem
    rcases hmem with ⟨hgl, heq⟩ | ⟨_, heq⟩ | ⟨_, heq⟩ | ⟨_, heq⟩ | ⟨_, heq⟩
    · -- frighttop = flefttop
      unfold frighttop flefttop at heq
      have h1 : m.vtop v = m.vtop (m.vleft v) := by omega
      have h2 : v = m.vleft v := by
        have := congrArg m.vbottom h1
        rwa [vbottom_vtop hW hH v hv, vbottom_vtop hW hH _ hl] at this
      rcases hgl with ⟨⟨hleft, _⟩, _⟩
      rw [← h2] at hleft
      exact absurd hleft (lt_irrefl _)
    · unfold frighttop ebottom at heq
      omega
    · unfold frighttop eright at heq
      omega
    · unfold frighttop etop at heq
      omega
    · unfold frighttop eleft at heq
      omega
  -- fleftbottom fresh
  · intro hg hmem
    simp only [mem_ite_append, List.not_mem_nil, or_false, Bool.and_eq_true, decide_eq_true_eq] at hmem
    simp only [Bool.and_eq_true, decide_eq_true_eq] at hg
    rcases hg with ⟨⟨hgleft, hgbot⟩, _⟩
    rcases hmem with ⟨hgt, heq⟩ | ⟨hlt, heq⟩ | ⟨_, heq⟩ | ⟨_, heq⟩ | ⟨_, heq⟩ | ⟨_, heq⟩
    · -- fleftbottom = frighttop : vleft v = vtop v
      unfold fleftbottom frighttop at heq
      have h1 : m.vleft v = m.vtop v := by omega
      have h2 : m.coordy (m.vleft v) = m.coordy (m.vtop v) := by rw [h1]
      rw [coordy_vleft hW hH hv, (coordy_vtop hW hH hv).1] at h2
      have hH1 : m.sizeY = 1 :=
        mod_pred_eq_self (coord_decomp v hv).2.2 h2.symm
      have hfix : m.vtop v = v := (vtop_fix_iff hW hH v hv).mpr hH1
      rcases hgt with ⟨⟨_, htopg⟩, _⟩
      rw [hfix] at htopg
      exact absurd htopg (lt_irrefl _)
    · -- fleftbottom = flefttop : vleft v = vtop (vleft v)
      unfold fleftbottom flefttop at heq
      have h1 : m.vleft v = m.vtop (m.vleft v) := by omega
      have hH1 : m.sizeY = 1 := (vtop_fix_iff hW hH _ hl).mp h1.symm
      rcases hlt with ⟨⟨_, htopg⟩, _⟩
      have hfix : m.vtop v = v := (vtop_fix_iff hW hH v hv).mpr hH1
      rw [hfix] at htopg
      exact absurd htopg (lt_irrefl _)
    · unfold fleftbottom ebottom at heq
      omega
    · unfold fleftbottom eright at heq
      omega
    · unfold fleftbottom etop at heq
      omega
    · unfold fleftbottom eleft at heq
      omega
  -- frightbottom fresh
  · intro hg hmem
    simp only [mem_ite_append, List.not_mem_nil, or_false, Bool.and_eq_true, decide_eq_true_eq] at hmem
    simp only [Bool.and_eq_true, decide_eq_true_eq] at hg
    rcases hg with ⟨⟨hgright, hgbot⟩, _⟩
    rcases hmem with ⟨hlb, heq⟩ | ⟨hrt, heq⟩ | ⟨hlt, heq⟩ |
      ⟨_, heq⟩ | ⟨_, heq⟩ | ⟨_, heq⟩ | ⟨_, heq⟩
    · -- frightbottom = fleftbottom : v = vleft v
      unfold frightbottom fleftbottom at heq
      have h1 : v = m.vleft v := by omega
      rcases hlb with ⟨⟨hleftg, _⟩, _⟩
      rw [← h1] at hleftg
      exact absurd hleftg (lt_irrefl _)
    · -- frightbottom = frighttop : v = vtop v
      unfold frightbottom frighttop at heq
      have h1 : v = m.vtop v := by omega
      rcases hrt with ⟨⟨_, htopg⟩, _⟩
      rw [← h1] at htopg
      exact absurd htopg (lt_irrefl _)
    · -- frightbottom = flefttop : v = vtop (vleft v)
      unfold frightbottom flefttop at heq
      have h1 : v = m.vtop (m.vleft v) := by omega
      have h2 : m.coordy v = m.coordy (m.vtop (m.vleft v)) := by rw [← h1]
      rw [(coordy_vtop hW hH hl).1, coordy_vleft hW hH hv] at h2
      have hH1 : m.sizeY = 1 :=
        mod_pred_eq_self (coord_decomp v hv).2.2 h2.symm
      rcases hlt with ⟨⟨_, htopg⟩, _⟩
      have hfix : m.vtop v = v := (vtop_fix_iff hW hH v hv).mpr hH1
      rw [hfix] at htopg
      exact absurd htopg (lt_irrefl _)
    · unfold frightbottom ebottom at heq
      omega
    · unfold frightbottom eright at heq
      omega
    · unfold frightbottom etop at heq
      omega
    · unfold frightbottom eleft at heq
      omega

/-- `vbottom` is the identity exactly on height-1 grids. -/
theorem Mesh.vbottom_fix_iff (hW : 0 < m.sizeX) (hH : 0 < m.sizeY) (idx : ℕ)
    (hidx : idx < m.size) : m.vbottom idx = idx ↔ m.sizeY = 1 := by
  constructor
  · intro h
    have h2 : m.vtop (m.vbottom idx) = m.vtop idx := congrArg m.vtop h
    rw [vtop_vbottom hW hH idx hidx] at h2
    exact (vtop_fix_iff hW hH idx hidx).mp h2.symm
  · intro h
    have h2 := (vtop_fix_iff hW hH idx hidx).mpr h
    calc m.vbottom idx = m.vbottom (m.vtop idx) := by rw [h2]
    _ = idx := vbottom_vtop hW hH idx hidx

/-- `vright` keeps `coordy`; `coordx` steps right. -/
theorem Mesh.coordy_vright (hW : 0 < m.sizeX) (hH : 0 < m.sizeY) {w : ℕ} (hw : w < m.size) :
    m.coordy (m.vright w) = m.coordy w ∧
    m.coordx (m.vright w) = (m.coordx w + 1) % m.sizeX := by
  rw [vright_eq hW, coordy_mk _ _ (Nat.mod_lt _ hW), coordx_mk _ _ (Nat.mod_lt _ hW)]
  exact ⟨rfl, rfl⟩

/-- `vbottom` keeps `coordx`; `coordy` steps down. -/
theorem Mesh.coordx_vbottom (hW : 0 < m.sizeX) (hH : 0 < m.sizeY) {w : ℕ} (hw : w < m.size) :
    m.coordx (m.vbottom w) = m.coordx w ∧
    m.coordy (m.vbottom w) = (m.coordy w + 1) % m.sizeY := by
  rcases coord_decomp w hw with ⟨hdec, hx, hy⟩
  rw [vbottom_eq hW hH w hw, coordx_mk _ _ hx, coordy_mk _ _ hx]
  exact ⟨rfl, rfl⟩

/-- `vleft` keeps `coordy`; `coordx` steps left. -/
theorem Mesh.coordx_vleft (hW : 0 < m.sizeX) (hH : 0 < m.sizeY) {w : ℕ} (hw : w < m.size) :
    m.coordx (m.vleft w) = (m.coordx w + m.sizeX - 1) % m.sizeX := by
  rw [vleft_eq hW, coordx_mk _ _ (Nat.mod_lt _ hW)]

/-- The facets of a face are edges. -/
theorem Mesh.facets_face_dim (hW : 0 < m.sizeX) (hH : 0 < m.sizeY) {t f : ℕ}
    (ht : t < m.size) (hf : f ∈ m.facets (3 * m.size + t)) :
    m.size ≤ f ∧ f < 3 * m.size ∧ m.dim f = 1 := by
  have hb : m.vbottom t < m.size := vbottom_lt hW hH t ht
  have hr : m.vright t < m.size := vright_lt hW hH t ht
  rw [facets_face ht] at hf
  simp only [List.mem_cons, List.not_mem_nil, or_false] at hf
  rcases hf with rfl | rfl | rfl | rfl <;>
    exact ⟨by omega, by omega, dim_edge (by omega) (by omega)⟩

/-- The vertices of an edge are vertices (ids below `N`). -/
theorem Mesh.facets_edge_lt (hW : 0 < m.sizeX) (hH : 0 < m.sizeY) {e f : ℕ}
    (he1 : m.size ≤ e) (he2 : e < 3 * m.size) (hf : f ∈ m.facets e) :
    f < m.size := by
  by_cases hcase : e < 2 * m.size
  · have ht : e - m.size < m.size := by omega
    have : e = m.size + (e - m.size) := by omega
    rw [this, facets_edgeH ht] at hf
    simp only [List.mem_cons, List.not_mem_nil, or_false] at hf
    rcases hf with rfl | rfl
    · omega
    · exact vright_lt hW hH _ ht
  · have ht : e - 2 * m.size < m.size := by omega
    have : e = 2 * m.size + (e - 2 * m.size) := by omega
    rw [this, facets_edgeV ht] at hf
    simp only [List.mem_cons, List.not_mem_nil, or_false] at hf
    rcases hf with rfl | rfl
    · omega
    · exact vbottom_lt hW hH _ ht

/-- An edge of a lower star has no unpaired facets there: its facets are
vertices, and lower stars contain no vertices. -/
theorem Mesh.lowerStar_edge_unpaired_facets (hW : 0 < m.sizeX) (hH : 0 < m.sizeY)
    (st : TMState) {v e : ℕ} (hv : v < m.size)
    (he1 : m.size ≤ e) (he2 : e < 3 * m.size) :
    m.unpaired_facets st e (m.lower_star v) = [] := by
  unfold unpaired_facets
  rw [List.filter_eq_nil_iff]
  intro f hf
  have hlt : f < m.size := facets_edge_lt hW hH he1 he2 hf
  simp only [Bool.and_eq_true, decide_eq_true_eq, not_and]
  intro hmem
  exact absurd (lowerStar_range hW hH hv hmem).1 (by omega)

/-- Every boundary edge of a face belongs to one of its two cofacet pairs. -/
theorem Mesh.mem_facets_cofacets (hW : 0 < m.sizeX) (hH : 0 < m.sizeY) {t e : ℕ}
    (ht : t < m.size) (he : e ∈ m.facets (3 * m.size + t)) :
    ∃ a b, m.cofacets e = some (a, b) ∧ (3 * m.size + t = a ∨ 3 * m.size + t = b) := by
  have hb : m.vbottom t < m.size := vbottom_lt hW hH t ht
  have hr : m.vright t < m.size := vright_lt hW hH t ht
  rw [facets_face ht] at he
  simp only [List.mem_cons, List.not_mem_nil, or_false] at he
  rcases he with rfl | rfl | rfl | rfl
  · exact ⟨_, _, cofacets_edgeH ht, Or.inr rfl⟩
  · exact ⟨_, _, cofacets_edgeV ht, Or.inr rfl⟩
  · refine ⟨_, _, cofacets_edgeH hb, Or.inl ?_⟩
    rw [vtop_vbottom hW hH t ht]
  · refine ⟨_, _, cofacets_edgeV hr, Or.inl ?_⟩
    rw [vleft_vright hW hH t ht]

/-- `is_unpaired` after `set_gradient_arrow`: the two newly paired cells stop
being unpaired; nothing else changes. -/
theorem is_unpaired_set_arrow (st : TMState) (s e c : ℕ) :
    (st.set_gradient_arrow s e).is_unpaired c =
      (st.is_unpaired c && decide (c ≠ s) && decide (c ≠ e)) := by
  unfold TMState.is_unpaired TMState.set_gradient_arrow
  by_cases h1 : c = e
  · subst h1
    simp
  · by_cases h2 : c = s
    · subst h2
      simp [h1]
    · simp [h1, h2]

/-- `is_unpaired` after `set_critical`: the marked cell stops being unpaired;
nothing else changes. -/
theorem is_unpaired_set_critical (st : TMState) (x c : ℕ) :
    (st.set_critical x).is_unpaired c = (st.is_unpaired c && decide (c ≠ x)) := by
  unfold TMState.is_unpaired TMState.set_critical
  by_cases h1 : c = x
  · subst h1
    simp
  · simp [h1]

/-- `unpaired_facets` after `set_gradient_arrow` is a filter of the old list. -/
theorem unpaired_facets_set_arrow (m : Mesh) (st : TMState) (s e idx : ℕ)
    (l : List ℕ) :
    m.unpaired_facets (st.set_gradient_arrow s e) idx l =
      (m.unpaired_facets st idx l).filter (fun f => decide (f ≠ s) && decide (f ≠ e)) := by
  unfold Mesh.unpaired_facets
  rw [List.filter_filter]
  apply List.filter_congr
  intro f _
  rw [is_unpaired_set_arrow]
  cases hm : decide (f ∈ l) <;> cases hu : st.is_unpaired f <;>
    cases hs : decide (f ≠ s) <;> cases he : decide (f ≠ e) <;> simp [hm, hu, hs, he]

/-- `unpaired_facets` after `set_critical` is a filter of the old list. -/
theorem unpaired_facets_set_critical (m : Mesh) (st : TMState) (x idx : ℕ)
    (l : List ℕ) :
    m.unpaired_facets (st.set_critical x) idx l =
      (m.unpaired_facets st idx l).filter (fun f => decide (f ≠ x)) := by
  unfold Mesh.unpaired_facets
  rw [List.filter_filter]
  apply List.filter_congr
  intro f _
  rw [is_unpaired_set_critical]
  cases hm : decide (f ∈ l) <;> cases hu : st.is_unpaired f <;>
    cases hx : decide (f ≠ x) <;> simp [hm, hu, hx]

/-- Members of `unpaired_facets` are facets, members of the filter list and
unpaired. -/
theorem mem_unpaired_facets {m : Mesh} {st : TMState} {idx f : ℕ} {l : List ℕ} :
    f ∈ m.unpaired_facets st idx l ↔
      f ∈ m.facets idx ∧ f ∈ l ∧ st.is_unpaired f = true := by
  unfold Mesh.unpaired_facets
  simp [List.mem_filter, and_assoc]

/-- Removing one distinguished element from a duplicate-free list by a
`≠`-filter drops the length by one exactly when the element is present. -/
theorem filter_ne_length {l : List ℕ} (hnd : l.Nodup) (x : ℕ) :
    (l.filter (fun f => decide (f ≠ x))).length =
      l.length - (if x ∈ l then 1 else 0) := by
  induction l with
  | nil => simp
  | cons a t ih =>
    rcases List.nodup_cons.mp hnd with ⟨hax, hnd'⟩
    by_cases h : a = x
    · subst h
      have hfil : List.filter (fun f => decide (f ≠ a)) t = t := by
        rw [List.filter_eq_self]
        intro f hf
        simp only [decide_eq_true_eq]
        intro he
        exact hax (he ▸ hf)
      have h1 : List.filter (fun f => decide (f ≠ a)) (a :: t) = t := by
        rw [List.filter_cons]
        rw [if_neg (by simp)]
        exact hfil
      rw [h1, if_pos (List.mem_cons_self a t), List.length_cons]
      omega
    · have h1 : List.filter (fun f => decide (f ≠ x)) (a :: t) =
          a :: List.filter (fun f => decide (f ≠ x)) t := by
        simp [List.filter_cons, h]
      rw [h1, List.length_cons, ih hnd', List.length_cons]
      have hmem : (x ∈ a :: t) ↔ x ∈ t := by
        simp only [List.mem_cons]
        constructor
        · rintro (rfl | h2)
          · exact absurd rfl h
          · exact h2
        · exact Or.inr
      by_cases hx : x ∈ t
      · rw [if_pos (hmem.mpr hx), if_pos hx]
        have : 1 ≤ t.length := List.length_pos.mpr (List.ne_nil_of_mem hx)
        omega
      · rw [if_neg (fun hc => hx (hmem.mp hc)), if_neg hx]
        omega

/-- `pqPush` membership. -/
theorem mem_pqPush {x y : List ℚ × ℕ} {q : List (List ℚ × ℕ)} :
    x ∈ pqPush y q ↔ x = y ∨ x ∈ q := by
  induction q with
  | nil => simp [pqPush]
  | cons a t ih =>
    unfold pqPush
    split
    · rw [List.mem_cons, ih, List.mem_cons]
      tauto
    · rw [List.mem_cons]

/-- `pqPush` is a permutation of consing. -/
theorem pqPush_perm (y : List ℚ × ℕ) (q : List (List ℚ × ℕ)) :
    (pqPush y q).Perm (y :: q) := by
  induction q with
  | nil => exact List.Perm.refl _
  | cons a t ih =>
    unfold pqPush
    split
    · exact (List.Perm.cons a ih).trans (List.Perm.swap y a t)
    · exact List.Perm.refl _

/-- Folding `pqPush` over a list of cells permutes to the pushed entries
prepended to the original queue. -/
theorem foldl_pqPush_perm (key : ℕ → List ℚ) (l : List ℕ) (q : List (List ℚ × ℕ)) :
    (l.foldl (fun q b => pqPush (key b, b) q) q).Perm
      (l.map (fun b => (key b, b)) ++ q) := by
  induction l generalizing q with
  | nil => simp
  | cons a t ih =>
    simp only [List.foldl_cons, List.map_cons, List.cons_append]
    refine ((ih (pqPush (key a, a) q)).trans ?_)
    refine (List.Perm.append_left _ (pqPush_perm _ _)).trans ?_
    exact List.perm_middle

/-- `vleft` is the identity exactly on width-1 grids. -/
theorem Mesh.vleft_fix_iff (hW : 0 < m.sizeX) (hH : 0 < m.sizeY) (idx : ℕ)
    (hidx : idx < m.size) : m.vleft idx = idx ↔ m.sizeX = 1 := by
  constructor
  · intro h
    have h2 : m.vright (m.vleft idx) = m.vright idx := congrArg m.vright h
    rw [vright_vleft hW hH idx hidx] at h2
    exact (vright_fix_iff hW hH idx hidx).mp h2.symm
  · intro h
    have h2 := (vright_fix_iff hW hH idx hidx).mpr h
    calc m.vleft idx = m.vleft (m.vright idx) := by rw [h2]
    _ = idx := vleft_vright hW hH idx hidx

/-- Two vertices on the same row cannot be each other's vertical neighbour
unless the grid has height 1: `vleft w = vtop w` forces `sizeY = 1`. -/
theorem Mesh.vleft_eq_vtop (hW : 0 < m.sizeX) (hH : 0 < m.sizeY) {w : ℕ}
    (hw : w < m.size) (h : m.vleft w = m.vtop w) : m.sizeY = 1 := by
  have h1 := coordy_vleft hW hH hw
  have h2 := (coordy_vtop hW hH hw).1
  have h3 : m.coordy (m.vleft w) = m.coordy (m.vtop w) := congrArg m.coordy h
  rw [h1, h2] at h3
  exact mod_pred_eq_self (coord_decomp w hw).2.2 h3.symm

/-- `vright w = vtop w` forces `sizeY = 1`. -/
theorem Mesh.vright_eq_vtop (hW : 0 < m.sizeX) (hH : 0 < m.sizeY) {w : ℕ}
    (hw : w < m.size) (h : m.vright w = m.vtop w) : m.sizeY = 1 := by
  have h1 := (coordy_vright hW hH hw).1
  have h2 := (coordy_vtop hW hH hw).1
  have h3 : m.coordy (m.vright w) = m.coordy (m.vtop w) := congrArg m.coordy h
  rw [h1, h2] at h3
  exact mod_pred_eq_self (coord_decomp w hw).2.2 h3.symm

/-- `vbottom w = vleft w` forces `sizeX = 1`. -/
theorem Mesh.vbottom_eq_vleft (hW : 0 < m.sizeX) (hH : 0 < m.sizeY) {w : ℕ}
    (hw : w < m.size) (h : m.vbottom w = m.vleft w) : m.sizeX = 1 := by
  have h1 := (coordx_vbottom hW hH hw).1
  have h2 := coordx_vleft hW hH hw
  have h3 : m.coordx (m.vbottom w) = m.coordx (m.vleft w) := congrArg m.coordx h
  rw [h1, h2] at h3
  exact mod_pred_eq_self (coord_decomp w hw).2.1 h3.symm

/-- `vbottom (vleft w) = w` forces `sizeX = 1`. -/
theorem Mesh.vbottom_vleft_eq (hW : 0 < m.sizeX) (hH : 0 < m.sizeY) {w : ℕ}
    (hw : w < m.size) (h : m.vbottom (m.vleft w) = w) : m.sizeX = 1 := by
  have hl : m.vleft w < m.size := vleft_lt hW hH w hw
  have h1 := (coordx_vbottom hW hH hl).1
  have h2 := coordx_vleft hW hH hw
  have h3 : m.coordx (m.vbottom (m.vleft w)) = m.coordx w := congrArg m.coordx h
  rw [h1, h2] at h3
  exact mod_pred_eq_self (coord_decomp w hw).2.1 h3

/-- `vright (vtop w) = w` forces `sizeY = 1`. -/
theorem Mesh.vright_vtop_eq (hW : 0 < m.sizeX) (hH : 0 < m.sizeY) {w : ℕ}
    (hw : w < m.size) (h : m.vright (m.vtop w) = w) : m.sizeY = 1 := by
  have ht : m.vtop w < m.size := vtop_lt hW hH w hw
  have h1 := (coordy_vright hW hH ht).1
  have h2 := (coordy_vtop hW hH hw).1
  have h3 : m.coordy (m.vright (m.vtop w)) = m.coordy w := congrArg m.coordy h
  rw [h1, h2] at h3
  exact mod_pred_eq_self (coord_decomp w hw).2.2 h3

/-- A face can only enter a lower star on a grid with both sides at least 2:
each face guard contains one horizontal and one vertical edge guard. -/
theorem Mesh.lowerStar_face_nondegenerate (hW : 0 < m.sizeX) (hH : 0 < m.sizeY)
    {v c : ℕ} (hv : v < m.size) (hc : c ∈ m.lower_star v)
    (hdim : 3 * m.size ≤ c) : 2 ≤ m.sizeX ∧ 2 ≤ m.sizeY := by
  have hWne : m.value (m.vleft v) < m.value v ∨ m.value (m.vright v) < m.value v →
      2 ≤ m.sizeX := by
    rintro (h | h)
    · rcases Nat.lt_or_ge m.sizeX 2 with h2 | h2
      · have hx1 : m.sizeX = 1 := by omega
        rw [(vleft_fix_iff hW hH v hv).mpr hx1] at h
        exact absurd h (lt_irrefl _)
      · exact h2
    · rcases Nat.lt_or_ge m.sizeX 2 with h2 | h2
      · have hx1 : m.sizeX = 1 := by omega
        rw [(vright_fix_iff hW hH v hv).mpr hx1] at h
        exact absurd h (lt_irrefl _)
      · exact h2
  have hHne : m.value (m.vtop v) < m.value v ∨ m.value (m.vbottom v) < m.value v →
      2 ≤ m.sizeY := by
    rintro (h | h)
    · rcases Nat.lt_or_ge m.sizeY 2 with h2 | h2
      · have hy1 : m.sizeY = 1 := by omega
        rw [(vtop_fix_iff hW hH v hv).mpr hy1] at h
        exact absurd h (lt_irrefl _)
      · exact h2
    · rcases Nat.lt_or_ge m.sizeY 2 with h2 | h2
      · have hy1 : m.sizeY = 1 := by omega
        rw [(vbottom_fix_iff hW hH v hv).mpr hy1] at h
        exact absurd h (lt_irrefl _)
      · exact h2
  rcases mem_lower_star.mp hc with
    ⟨⟨⟨h1, h2⟩, h3⟩, rfl⟩ | ⟨⟨⟨h1, h2⟩, h3⟩, rfl⟩ | ⟨⟨⟨h1, h2⟩, h3⟩, rfl⟩ |
    ⟨⟨⟨h1, h2⟩, h3⟩, rfl⟩ | ⟨h1, heq⟩ | ⟨h1, heq⟩ | ⟨h1, heq⟩ | ⟨h1, heq⟩
  · exact ⟨hWne (Or.inr h1), hHne (Or.inr h2)⟩
  · exact ⟨hWne (Or.inl h1), hHne (Or.inr h2)⟩
  · exact ⟨hWne (Or.inr h1), hHne (Or.inl h2)⟩
  · exact ⟨hWne (Or.inl h1), hHne (Or.inl h2)⟩
  · exact absurd hdim (by
      unfold ebottom at heq
      have := vbottom_lt hW hH v hv
      omega)
  · exact absurd hdim (by
      unfold eright at heq
      omega)
  · exact absurd hdim (by
      unfold etop at heq
      have := vtop_lt hW hH v hv
      omega)
  · exact absurd hdim (by
      unfold eleft at heq
      have := vleft_lt hW hH v hv
      omega)

/-- The facets of an edge in the lower star of `v` are two distinct vertices,
one of which is `v`. -/
theorem Mesh.lowerStar_edge_facets (hW : 0 < m.sizeX) (hH : 0 < m.sizeY)
    {v e : ℕ} (hv : v < m.size) (he : e ∈ m.lower_star v) (hd : e < 3 * m.size) :
    ∃ a, a ≠ v ∧ (m.facets e = [v, a] ∨ m.facets e = [a, v]) := by
  have hVne : ∀ {a : ℕ}, m.value a < m.value v → a ≠ v := by
    intro a hlt heq
    rw [heq] at hlt
    exact absurd hlt (lt_irrefl _)
  have hl : m.vleft v < m.size := vleft_lt hW hH v hv
  have htp : m.vtop v < m.size := vtop_lt hW hH v hv
  rcases mem_lower_star.mp he with
    ⟨_, rfl⟩ | ⟨_, rfl⟩ | ⟨_, rfl⟩ | ⟨_, rfl⟩ |
    ⟨h1, rfl⟩ | ⟨h1, rfl⟩ | ⟨h1, rfl⟩ | ⟨h1, rfl⟩
  · exact absurd hd (by unfold frightbottom; omega)
  · exact absurd hd (by unfold fleftbottom; omega)
  · exact absurd hd (by unfold frighttop; omega)
  · exact absurd hd (by unfold flefttop; omega)
  · refine ⟨m.vbottom v, hVne h1, Or.inl ?_⟩
    unfold ebottom facets
    rw [if_neg (by rw [dim_edge (by omega) (by omega)]; omega)]
    have h2 : (m.size * 2 + v) = 2 * m.size + v := by ring_nf
    rw [h2, verts_edgeV hv]
  · refine ⟨m.vright v, hVne h1, Or.inl ?_⟩
    unfold eright facets
    rw [if_neg (by rw [dim_edge (by omega) (by omega)]; omega)]
    rw [verts_edgeH hv]
  · refine ⟨m.vtop v, hVne h1, Or.inr ?_⟩
    unfold etop facets
    rw [if_neg (by rw [dim_edge (by omega) (by omega)]; omega)]
    have h2 : (m.size * 2 + m.vtop v) = 2 * m.size + m.vtop v := by ring_nf
    rw [h2, verts_edgeV htp, vbottom_vtop hW hH v hv]
  · refine ⟨m.vleft v, hVne h1, Or.inr ?_⟩
    unfold eleft facets
    rw [if_neg (by rw [dim_edge (by omega) (by omega)]; omega)]
    rw [verts_edgeH hl, vright_vleft hW hH v hv]

/-- An element of a lower star in the horizontal-edge range is the left or
right edge of the star's vertex. -/
theorem Mesh.lowerStar_edgeH_form (hW : 0 < m.sizeX) (hH : 0 < m.sizeY) {v c : ℕ}
    (hv : v < m.size) (hc : c ∈ m.lower_star v)
    (h1 : m.size ≤ c) (h2 : c < 2 * m.size) :
    c = m.size + v ∨ c = m.size + m.vleft v := by
  have hl : m.vleft v < m.size := vleft_lt hW hH v hv
  have htp : m.vtop v < m.size := vtop_lt hW hH v hv
  have htl : m.vtop (m.vleft v) < m.size := vtop_lt hW hH _ hl
  rcases mem_lower_star.mp hc with
    ⟨_, rfl⟩ | ⟨_, rfl⟩ | ⟨_, rfl⟩ | ⟨_, rfl⟩ |
    ⟨_, rfl⟩ | ⟨_, rfl⟩ | ⟨_, rfl⟩ | ⟨_, rfl⟩
  · exact absurd h2 (by unfold frightbottom; omega)
  · exact absurd h2 (by unfold fleftbottom; omega)
  · exact absurd h2 (by unfold frighttop; omega)
  · exact absurd h2 (by unfold flefttop; omega)
  · exact absurd h2 (by unfold ebottom; omega)
  · exact Or.inl rfl
  · exact absurd h2 (by unfold etop; omega)
  · exact Or.inr rfl

/-- An element of a lower star in the vertical-edge range is the bottom or
top edge of the star's vertex. -/
theorem Mesh.lowerStar_edgeV_form (hW : 0 < m.sizeX) (hH : 0 < m.sizeY) {v c : ℕ}
    (hv : v < m.size) (hc : c ∈ m.lower_star v)
    (h1 : 2 * m.size ≤ c) (h2 : c < 3 * m.size) :
    c = 2 * m.size + v ∨ c = 2 * m.size + m.vtop v := by
  have hl : m.vleft v < m.size := vleft_lt hW hH v hv
  have htp : m.vtop v < m.size := vtop_lt hW hH v hv
  have htl : m.vtop (m.vleft v) < m.size := vtop_lt hW hH _ hl
  rcases mem_lower_star.mp hc with
    ⟨_, rfl⟩ | ⟨_, rfl⟩ | ⟨_, rfl⟩ | ⟨_, rfl⟩ |
    ⟨_, rfl⟩ | ⟨_, rfl⟩ | ⟨_, rfl⟩ | ⟨_, rfl⟩
  · exact absurd h2 (by unfold frightbottom; omega)
  · exact absurd h2 (by unfold fleftbottom; omega)
  · exact absurd h2 (by unfold frighttop; omega)
  · exact absurd h2 (by unfold flefttop; omega)
  · exact Or.inl (by unfold ebottom; ring)
  · exact absurd h1 (by unfold eright; omega)
  · exact Or.inr (by unfold etop; ring)
  · exact absurd h1 (by unfold eleft; omega)

/-- A face of a lower star has pairwise-distinct facets, exactly two of which
lie in the lower star (the two boundary edges incident to the star's vertex). -/
theorem Mesh.lowerStar_face_two (hW : 0 < m.sizeX) (hH : 0 < m.sizeY) {v F : ℕ}
    (hv : v < m.size) (hF : F ∈ m.lower_star v) (hd : 3 * m.size ≤ F) :
    (m.facets F).Nodup ∧
    ∃ ea eb, ea ≠ eb ∧ ea ∈ m.facets F ∧ eb ∈ m.facets F ∧
      ea ∈ m.lower_star v ∧ eb ∈ m.lower_star v ∧
      ∀ f ∈ m.facets F, f ∈ m.lower_star v → f = ea ∨ f = eb := by
  have hVne : ∀ {a : ℕ}, m.value a < m.value v → a ≠ v := by
    intro a hlt heq
    rw [heq] at hlt
    exact absurd hlt (lt_irrefl _)
  have hl : m.vleft v < m.size := vleft_lt hW hH v hv
  have htp : m.vtop v < m.size := vtop_lt hW hH v hv
  have hb : m.vbottom v < m.size := vbottom_lt hW hH v hv
  have hr : m.vright v < m.size := vright_lt hW hH v hv
  have htl : m.vtop (m.vleft v) < m.size := vtop_lt hW hH _ hl
  have hbl : m.vbottom (m.vleft v) < m.size := vbottom_lt hW hH _ hl
  have hrt : m.vright (m.vtop v) < m.size := vright_lt hW hH _ htp
  rcases mem_lower_star.mp hF with
    ⟨⟨⟨h1, h2⟩, h3⟩, rfl⟩ | ⟨⟨⟨h1, h2⟩, h3⟩, rfl⟩ | ⟨⟨⟨h1, h2⟩, h3⟩, rfl⟩ |
    ⟨⟨⟨h1, h2⟩, h3⟩, rfl⟩ | ⟨h1, heq⟩ | ⟨h1, heq⟩ | ⟨h1, heq⟩ | ⟨h1, heq⟩
  · -- frightbottom: guards right (h1), bottom (h2), rightbottom (h3)
    have hF3 : m.frightbottom v = 3 * m.size + v := by unfold frightbottom; ring
    rw [hF3, facets_face hv]
    constructor
    · refine List.nodup_cons.mpr ⟨?_, List.nodup_cons.mpr ⟨?_, List.nodup_cons.mpr
        ⟨?_, List.nodup_cons.mpr ⟨by simp, List.nodup_nil⟩⟩⟩⟩
      · simp only [List.mem_cons, List.not_mem_nil, or_false]
        push_neg
        refine ⟨by omega, ?_, by omega⟩
        intro he
        exact absurd (by omega : m.vbottom v = v) (hVne h2)
      · simp only [List.mem_cons, List.not_mem_nil, or_false]
        push_neg
        refine ⟨by omega, ?_⟩
        intro he
        exact absurd (by omega : m.vright v = v) (hVne h1)
      · simp only [List.mem_cons, List.not_mem_nil, or_false]
        omega
    · refine ⟨m.size + v, 2 * m.size + v, by omega, by simp, by simp, ?_, ?_, ?_⟩
      · exact mem_lower_star.mpr (Or.inr (Or.inr (Or.inr (Or.inr (Or.inr
          (Or.inl ⟨h1, rfl⟩))))))
      · refine mem_lower_star.mpr (Or.inr (Or.inr (Or.inr (Or.inr
          (Or.inl ⟨h2, ?_⟩)))))
        unfold ebottom
        ring
      · intro f hf hfls
        simp only [List.mem_cons, List.not_mem_nil, or_false] at hf
        rcases hf with rfl | rfl | rfl | rfl
        · exact Or.inl rfl
        · exact Or.inr rfl
        · exfalso
          rcases lowerStar_edgeH_form hW hH hv hfls (by omega) (by omega) with
            he | he
          · exact absurd (by omega : m.vbottom v = v) (hVne h2)
          · have hW1 : m.sizeX = 1 :=
              vbottom_eq_vleft hW hH hv (by omega : m.vbottom v = m.vleft v)
            exact absurd ((vright_fix_iff hW hH v hv).mpr hW1) (hVne h1)
        · exfalso
          rcases lowerStar_edgeV_form hW hH hv hfls (by omega) (by omega) with
            he | he
          · exact absurd (by omega : m.vright v = v) (hVne h1)
          · have hH1 : m.sizeY = 1 :=
              vright_eq_vtop hW hH hv (by omega : m.vright v = m.vtop v)
            exact absurd ((vbottom_fix_iff hW hH v hv).mpr hH1) (hVne h2)
  · -- fleftbottom: guards left (h1), bottom (h2), leftbottom (h3)
    have hF3 : m.fleftbottom v = 3 * m.size + m.vleft v := by unfold fleftbottom; ring
    rw [hF3, facets_face hl]
    have hvr : m.vright (m.vleft v) = v := vright_vleft hW hH v hv
    rw [hvr]
    have hHne : m.sizeY ≠ 1 := by
      intro hH1
      exact absurd ((vbottom_fix_iff hW hH v hv).mpr hH1) (hVne h2)
    constructor
    · refine List.nodup_cons.mpr ⟨?_, List.nodup_cons.mpr ⟨?_, List.nodup_cons.mpr
        ⟨?_, List.nodup_cons.mpr ⟨by simp, List.nodup_nil⟩⟩⟩⟩
      · simp only [List.mem_cons, List.not_mem_nil, or_false]
        push_neg
        refine ⟨by omega, ?_, by omega⟩
        intro he
        have heq : m.vbottom (m.vleft v) = m.vleft v := by omega
        exact hHne ((vbottom_fix_iff hW hH _ hl).mp heq)
      · simp only [List.mem_cons, List.not_mem_nil, or_false]
        push_neg
        refine ⟨by omega, ?_⟩
        intro he
        exact absurd (by omega : m.vleft v = v) (hVne h1)
      · simp only [List.mem_cons, List.not_mem_nil, or_false]
        omega
    · refine ⟨m.size + m.vleft v, 2 * m.size + v, by omega, by simp, by simp, ?_, ?_, ?_⟩
      · exact mem_lower_star.mpr (Or.inr (Or.inr (Or.inr (Or.inr (Or.inr (Or.inr
          (Or.inr ⟨h1, rfl⟩)))))))
      · refine mem_lower_star.mpr (Or.inr (Or.inr (Or.inr (Or.inr
          (Or.inl ⟨h2, ?_⟩)))))
        unfold ebottom
        ring
      · intro f hf hfls
        simp only [List.mem_cons, List.not_mem_nil, or_false] at hf
        rcases hf with rfl | rfl | rfl | rfl
        · exact Or.inl rfl
        · exfalso
          rcases lowerStar_edgeV_form hW hH hv hfls (by omega) (by omega) with
            he | he
          · exact absurd (by omega : m.vleft v = v) (hVne h1)
          · exact hHne (vleft_eq_vtop hW hH hv (by omega : m.vleft v = m.vtop v))
        · exfalso
          rcases lowerStar_edgeH_form hW hH hv hfls (by omega) (by omega) with
            he | he
          · have hW1 : m.sizeX = 1 :=
              vbottom_vleft_eq hW hH hv (by omega : m.vbottom (m.vleft v) = v)
            exact absurd ((vleft_fix_iff hW hH v hv).mpr hW1) (hVne h1)
          · have heq : m.vbottom (m.vleft v) = m.vleft v := by omega
            exact hHne ((vbottom_fix_iff hW hH _ hl).mp heq)
        · exact Or.inr rfl
  · -- frighttop: guards right (h1), top (h2), righttop (h3)
    have hF3 : m.frighttop v = 3 * m.size + m.vtop v := by unfold frighttop; ring
    rw [hF3, facets_face htp]
    have hvb : m.vbottom (m.vtop v) = v := vbottom_vtop hW hH v hv
    rw [hvb]
    have hWne : m.sizeX ≠ 1 := by
      intro hW1
      exact absurd ((vright_fix_iff hW hH v hv).mpr hW1) (hVne h1)
    constructor
    · refine List.nodup_cons.mpr ⟨?_, List.nodup_cons.mpr ⟨?_, List.nodup_cons.mpr
        ⟨?_, List.nodup_cons.mpr ⟨by simp, List.nodup_nil⟩⟩⟩⟩
      · simp only [List.mem_cons, List.not_mem_nil, or_false]
        push_neg
        refine ⟨by omega, ?_, by omega⟩
        intro he
        exact absurd (by omega : m.vtop v = v) (hVne h2)
      · simp only [List.mem_cons, List.not_mem_nil, or_false]
        push_neg
        refine ⟨by omega, ?_⟩
        intro he
        have heq : m.vright (m.vtop v) = m.vtop v := by omega
        exact hWne ((vright_fix_iff hW hH _ htp).mp heq)
      · simp only [List.mem_cons, List.not_mem_nil, or_false]
        omega
    · refine ⟨2 * m.size + m.vtop v, m.size + v, by omega, by simp, by simp, ?_, ?_, ?_⟩
      · refine mem_lower_star.mpr (Or.inr (Or.inr (Or.inr (Or.inr (Or.inr (Or.inr
          (Or.inl ⟨h2, ?_⟩)))))))
        unfold etop
        ring
      · exact mem_lower_star.mpr (Or.inr (Or.inr (Or.inr (Or.inr (Or.inr
          (Or.inl ⟨h1, rfl⟩))))))
      · intro f hf hfls
        simp only [List.mem_cons, List.not_mem_nil, or_false] at hf
        rcases hf with rfl | rfl | rfl | rfl
        · exfalso
          rcases lowerStar_edgeH_form hW hH hv hfls (by omega) (by omega) with
            he | he
          · exact absurd (by omega : m.vtop v = v) (hVne h2)
          · have hH1 : m.sizeY = 1 :=
              vleft_eq_vtop hW hH hv (by omega : m.vleft v = m.vtop v)
            exact absurd ((vtop_fix_iff hW hH v hv).mpr hH1) (hVne h2)
        · exact Or.inl rfl
        · exact Or.inr rfl
        · exfalso
          rcases lowerStar_edgeV_form hW hH hv hfls (by omega) (by omega) with
            he | he
          · have hH1 : m.sizeY = 1 :=
              vright_vtop_eq hW hH hv (by omega : m.vright (m.vtop v) = v)
            exact absurd ((vtop_fix_iff hW hH v hv).mpr hH1) (hVne h2)
          · have heq : m.vright (m.vtop v) = m.vtop v := by omega
            exact hWne ((vright_fix_iff hW hH _ htp).mp heq)
  · -- flefttop: guards left (h1), top (h2), lefttop (h3)
    have hF3 : m.flefttop v = 3 * m.size + m.vtop (m.vleft v) := by
      unfold flefttop
      ring
    rw [hF3, facets_face htl]
    have hvb : m.vbottom (m.vtop (m.vleft v)) = m.vleft v := vbottom_vtop hW hH _ hl
    have hvr : m.vright (m.vtop (m.vleft v)) = m.vtop v := by
      rw [vright_vtop hW hH _ hl, vright_vleft hW hH v hv]
    rw [hvb, hvr]
    have hHne : m.sizeY ≠ 1 := by
      intro hH1
      exact absurd ((vtop_fix_iff hW hH v hv).mpr hH1) (hVne h2)
    have hLne : m.vleft v ≠ v := hVne h1
    have htlv : m.vtop (m.vleft v) ≠ v := by
      intro he
      have h4 : m.vbottom (m.vtop (m.vleft v)) = m.vbottom v := congrArg m.vbottom he
      rw [hvb] at h4
      have hW1 : m.sizeX = 1 := vbottom_eq_vleft hW hH hv h4.symm
      exact hLne ((vleft_fix_iff hW hH v hv).mpr hW1)
    have htll : m.vtop (m.vleft v) ≠ m.vleft v := by
      intro he
      exact hHne ((vtop_fix_iff hW hH _ hl).mp he)
    have htltp : m.vtop (m.vleft v) ≠ m.vtop v := by
      intro he
      have h4 : m.vbottom (m.vtop (m.vleft v)) = m.vbottom (m.vtop v) :=
        congrArg m.vbottom he
      rw [hvb, vbottom_vtop hW hH v hv] at h4
      exact hLne h4
    constructor
    · refine List.nodup_cons.mpr ⟨?_, List.nodup_cons.mpr ⟨?_, List.nodup_cons.mpr
        ⟨?_, List.nodup_cons.mpr ⟨by simp, List.nodup_nil⟩⟩⟩⟩
      · simp only [List.mem_cons, List.not_mem_nil, or_false]
        push_neg
        refine ⟨by omega, ?_, by omega⟩
        intro he
        exact htll (by omega)
      · simp only [List.mem_cons, List.not_mem_nil, or_false]
        push_neg
        refine ⟨by omega, ?_⟩
        intro he
        exact htltp (by omega)
      · simp only [List.mem_cons, List.not_mem_nil, or_false]
        omega
    · refine ⟨m.size + m.vleft v, 2 * m.size + m.vtop v, by omega, by simp, by simp,
        ?_, ?_, ?_⟩
      · exact mem_lower_star.mpr (Or.inr (Or.inr (Or.inr (Or.inr (Or.inr (Or.inr
          (Or.inr ⟨h1, rfl⟩)))))))
      · refine mem_lower_star.mpr (Or.inr (Or.inr (Or.inr (Or.inr (Or.inr (Or.inr
          (Or.inl ⟨h2, ?_⟩)))))))
        unfold etop
        ring
      · intro f hf hfls
        simp only [List.mem_cons, List.not_mem_nil, or_false] at hf
        rcases hf with rfl | rfl | rfl | rfl
        · exfalso
          rcases lowerStar_edgeH_form hW hH hv hfls (by omega) (by omega) with
            he | he
          · exact htlv (by omega)
          · exact htll (by omega)
        · exfalso
          rcases lowerStar_edgeV_form hW hH hv hfls (by omega) (by omega) with
            he | he
          · exact htlv (by omega)
          · exact htltp (by omega)
        · exact Or.inl rfl
        · exact Or.inr rfl
  · exact absurd hd (by rw [heq]; unfold ebottom; omega)
  · exact absurd hd (by rw [heq]; unfold eright; omega)
  · exact absurd hd (by rw [heq]; unfold etop; omega)
  · exact absurd hd (by rw [heq]; unfold eleft; omega)

/-- A conjunct `≠ y` in a filter is redundant when `y` is not in the list. -/
theorem filter_two_ne {l : List ℕ} (x y : ℕ) (hy : y ∉ l) :
    l.filter (fun f => decide (f ≠ x) && decide (f ≠ y)) =
      l.filter (fun f => decide (f ≠ x)) := by
  apply List.filter_congr
  intro f hf
  have hne : f ≠ y := fun he => hy (he ▸ hf)
  simp [hne]

/-- The cells of a queue after a `pqPush` fold: the pushed cells prepended
(up to permutation). -/
theorem foldl_pqPush_map_snd (key : ℕ → List ℚ) (l : List ℕ)
    (q : List (List ℚ × ℕ)) :
    ((l.foldl (fun q b => pqPush (key b, b) q) q).map Prod.snd).Perm
      (l ++ q.map Prod.snd) := by
  have h1 := (foldl_pqPush_perm key l q).map Prod.snd
  rw [List.map_append, List.map_map] at h1
  have h2 : l.map (Prod.snd ∘ fun b => (key b, b)) = l := by
    rw [show (Prod.snd ∘ fun b => (key b, b)) = id from rfl, List.map_id]
  rw [h2] at h1
  exact h1

/-- `unpaired_facets` lists are duplicate-free whenever the facet list is. -/
theorem Mesh.unpaired_facets_nodup {st : TMState} {idx : ℕ} {l : List ℕ}
    (h : (m.facets idx).Nodup) : (m.unpaired_facets st idx l).Nodup :=
  h.filter _

/-- Monotonicity: a gradient arrow never lengthens an `unpaired_facets` list. -/
theorem Mesh.unpaired_facets_arrow_le (st : TMState) (s e idx : ℕ) (l : List ℕ) :
    (m.unpaired_facets (st.set_gradient_arrow s e) idx l).length ≤
      (m.unpaired_facets st idx l).length := by
  rw [unpaired_facets_set_arrow]
  exact List.length_filter_le _ _

/-- Monotonicity: a critical mark never lengthens an `unpaired_facets` list. -/
theorem Mesh.unpaired_facets_critical_le (st : TMState) (x idx : ℕ) (l : List ℕ) :
    (m.unpaired_facets (st.set_critical x) idx l).length ≤
      (m.unpaired_facets st idx l).length := by
  rw [unpaired_facets_set_critical]
  exact List.length_filter_le _ _

/-- `is_unpaired` is untouched by an arrow between two other cells. -/
theorem is_unpaired_arrow_other (st : TMState) {s e c : ℕ} (hs : c ≠ s)
    (he : c ≠ e) :
    (st.set_gradient_arrow s e).is_unpaired c = st.is_unpaired c := by
  rw [is_unpaired_set_arrow]
  simp [hs, he]

/-- `is_unpaired` is untouched by marking another cell critical. -/
theorem is_unpaired_critical_other (st : TMState) {x c : ℕ} (hx : c ≠ x) :
    (st.set_critical x).is_unpaired c = st.is_unpaired c := by
  rw [is_unpaired_set_critical]
  simp [hx]

/-- Unfolding `is_unpaired = true`. -/
theorem is_unpaired_true_iff {st : TMState} {c : ℕ} :
    st.is_unpaired c = true ↔ st.V c = none ∧ st.crit c = false := by
  unfold TMState.is_unpaired
  cases hv : st.V c <;> cases hc : st.crit c <;> simp

/-- The lower cell of a fresh arrow is not unpaired. -/
theorem arrow_start_not_unpaired (st : TMState) (s e : ℕ) :
    (st.set_gradient_arrow s e).is_unpaired s = false := by
  rw [is_unpaired_set_arrow]
  simp

/-- The upper cell of a fresh arrow is not unpaired. -/
theorem arrow_end_not_unpaired (st : TMState) (s e : ℕ) :
    (st.set_gradient_arrow s e).is_unpaired e = false := by
  rw [is_unpaired_set_arrow]
  simp

/-- A freshly marked critical cell is not unpaired. -/
theorem critical_not_unpaired (st : TMState) (x : ℕ) :
    (st.set_critical x).is_unpaired x = false := by
  rw [is_unpaired_set_critical]
  simp

/-- Projecting a queue filtered on cells commutes with taking the cells. -/
theorem map_snd_filter_ne (q : List (List ℚ × ℕ)) (y : ℕ) :
    (q.filter (fun x => decide (x.2 ≠ y))).map Prod.snd =
      (q.map Prod.snd).filter (fun c => decide (c ≠ y)) := by
  induction q with
  | nil => rfl
  | cons a t ih =>
    rw [List.filter_cons, List.map_cons, List.filter_cons]
    by_cases h : a.2 = y
    · rw [if_neg (by simp [h]), if_neg (by simp [h]), ih]
    · rw [if_pos (by simp [h]), if_pos (by simp [h]), List.map_cons, ih]

/-- A cell of a lower star with a facet in the edge range is a face. -/
theorem Mesh.mem_facets_ge_face (hW : 0 < m.sizeX) (hH : 0 < m.sizeY) {v c f : ℕ}
    (hv : v < m.size) (hcL : c ∈ m.lower_star v) (hf : f ∈ m.facets c)
    (hfge : m.size ≤ f) : 3 * m.size ≤ c := by
  by_contra hc3
  have hr := lowerStar_range hW hH hv hcL
  exact absurd (facets_edge_lt hW hH hr.1 (by omega) hf) (by omega)

/-- The facets of a face of a lower star lie in the edge range. -/
theorem Mesh.face_facets_range (hW : 0 < m.sizeX) (hH : 0 < m.sizeY) {v c f : ℕ}
    (hv : v < m.size) (hcL : c ∈ m.lower_star v) (hc3 : 3 * m.size ≤ c)
    (hf : f ∈ m.facets c) : m.size ≤ f ∧ f < 3 * m.size := by
  have hr := lowerStar_range hW hH hv hcL
  have hc : c = 3 * m.size + (c - 3 * m.size) := by omega
  rw [hc] at hf
  have := facets_face_dim hW hH (by omega : c - 3 * m.size < m.size) hf
  exact ⟨this.1, this.2.1⟩

/-- The unpaired-facet list of a face of a lower star is duplicate-free. -/
theorem Mesh.face_uf_nodup (hW : 0 < m.sizeX) (hH : 0 < m.sizeY) {v c : ℕ}
    (hv : v < m.size) (hcL : c ∈ m.lower_star v) (hc3 : 3 * m.size ≤ c)
    (st : TMState) : (m.unpaired_facets st c (m.lower_star v)).Nodup :=
  unpaired_facets_nodup (lowerStar_face_two hW hH hv hcL hc3).1

/-- For a face of the star, an arrow whose upper cell is a face filters
exactly the lower cell out of the unpaired-facet list. -/
theorem Mesh.face_cnt_arrow (hW : 0 < m.sizeX) (hH : 0 < m.sizeY) {v c s e : ℕ}
    (hv : v < m.size) (hcL : c ∈ m.lower_star v) (hc3 : 3 * m.size ≤ c)
    (he : 3 * m.size ≤ e) (st : TMState) :
    m.unpaired_facets (st.set_gradient_arrow s e) c (m.lower_star v) =
      (m.unpaired_facets st c (m.lower_star v)).filter (fun f => decide (f ≠ s)) := by
  rw [unpaired_facets_set_arrow]
  apply filter_two_ne
  intro hmem
  have hf := (mem_unpaired_facets.mp hmem).1
  exact absurd (face_facets_range hW hH hv hcL hc3 hf).2 (by omega)

/-- At loop exit (both queues empty) every star cell is resolved: an
unpaired cell would either be queued or be a face both of whose remaining
unpaired facets are unpaired star edges, which would themselves be queued. -/
theorem Mesh.LInv_exit {m : Mesh} (hW : 0 < m.sizeX) (hH : 0 < m.sizeY) {v : ℕ}
    (hv : v < m.size) {st₀ st : TMState}
    (h : LInv m v st₀ st [] []) : StarPost m v st₀ st := by
  refine ⟨h.g, h.frameV, h.frameC, ?_, h.starv⟩
  intro c hc
  rcases Bool.eq_false_or_eq_true (st.is_unpaired c) with hb | hb
  case inr => exact hb
  exfalso
  rcases h.cov c hc hb with h1 | h1 | h1
  · simp at h1
  · simp at h1
  have hrange := lowerStar_range hW hH hv hc
  have hc3 : 3 * m.size ≤ c := by
    by_contra hlt
    rw [lowerStar_edge_unpaired_facets hW hH st hv hrange.1 (by omega)] at h1
    simp at h1
  have hpos : 0 < (m.unpaired_facets st c (m.lower_star v)).length := by omega
  obtain ⟨f, hf⟩ := List.exists_mem_of_length_pos hpos
  obtain ⟨hffac, hfL, hfu⟩ := mem_unpaired_facets.mp hf
  have hfr := face_facets_range hW hH hv hc hc3 hffac
  rcases h.cov f hfL hfu with h2 | h2 | h2
  · simp at h2
  · simp at h2
  rw [lowerStar_edge_unpaired_facets hW hH st hv hfr.1 hfr.2] at h2
  simp at h2

/-- Requeue branch of the loop: the popped `pq_one` face has no unpaired
facets left and moves to `pq_zero`. -/
theorem Mesh.LInv_requeue {m : Mesh} {v : ℕ} {st₀ st : TMState}
    {alpha : List ℚ × ℕ} {pq0 pq1r : List (List ℚ × ℕ)}
    (h : LInv m v st₀ st pq0 (alpha :: pq1r))
    (huf : m.unpaired_facets st alpha.2 (m.lower_star v) = []) :
    LInv m v st₀ st (pqPush alpha pq0) pq1r := by
  obtain ⟨halm, half, halu, halc, halk⟩ := h.q1p alpha (List.mem_cons_self _ _)
  have hperm : ((pqPush alpha pq0).map Prod.snd).Perm (alpha.2 :: pq0.map Prod.snd) :=
    (pqPush_perm alpha pq0).map Prod.snd
  refine ⟨h.g, h.frameV, h.frameC, h.starv, ?_, ?_, ?_, ?_, h.npCnt⟩
  · intro x hx
    exact h.q1p x (List.mem_cons_of_mem _ hx)
  · intro x hx
    rcases mem_pqPush.mp hx with rfl | hx'
    · exact ⟨halm, halu, by rw [huf]; rfl, halk⟩
    · exact h.q0p x hx'
  · have hbig : ((pqPush alpha pq0).map Prod.snd ++ pq1r.map Prod.snd).Perm
        (pq0.map Prod.snd ++ (alpha :: pq1r).map Prod.snd) := by
      refine (hperm.append (List.Perm.refl _)).trans ?_
      rw [List.map_cons]
      exact (List.perm_middle).symm.trans (List.Perm.refl _)
    exact hbig.nodup_iff.mpr h.qnd
  · intro c hc hu
    rcases h.cov c hc hu with h1 | h1 | h1
    · exact Or.inl (hperm.mem_iff.mpr (List.mem_cons_of_mem _ h1))
    · rw [List.map_cons, List.mem_cons] at h1
      rcases h1 with rfl | h1
      · exact Or.inl (hperm.mem_iff.mpr (List.mem_cons_self _ _))
      · exact Or.inr (Or.inl h1)
    · exact Or.inr (Or.inr h1)

/-- Unfolding the `V` field after `set_gradient_arrow`. -/
theorem set_arrow_V (st : TMState) (s e c : ℕ) :
    (st.set_gradient_arrow s e).V c =
      if c = e then some s else if c = s then some e else st.V c := rfl

/-- Pairing branch of the loop: the popped `pq_one` face `alpha` is paired
with its single remaining unpaired facet `pair`; `pair`'s entry leaves
`pq_zero`, and every face that thereby drops to exactly one unpaired facet
(it must have `pair` among its facets) is pushed onto `pq_one`. -/
theorem Mesh.LInv_pair {m : Mesh} (hW : 0 < m.sizeX) (hH : 0 < m.sizeY) {v : ℕ}
    (hv : v < m.size) {st₀ st : TMState} {alpha : List ℚ × ℕ}
    {pq0 pq1r : List (List ℚ × ℕ)} {pair : ℕ} {rest : List ℕ}
    (h : LInv m v st₀ st pq0 (alpha :: pq1r))
    (huf : m.unpaired_facets st alpha.2 (m.lower_star v) = pair :: rest) :
    LInv m v st₀ (st.set_gradient_arrow pair alpha.2)
      (pq0.filter (fun x => decide (x.2 ≠ pair)))
      (((m.lower_star v).filter (fun beta =>
          decide ((m.unpaired_facets (st.set_gradient_arrow pair alpha.2) beta
            (m.lower_star v)).length = 1) &&
          decide (pair ∈ m.facets beta))).foldl
        (fun q beta => pqPush (m.extvalue beta, beta) q) pq1r) := by
  obtain ⟨halm, half, halu, halc, halk⟩ := h.q1p alpha (List.mem_cons_self _ _)
  have hNpos : 0 < m.size := by
    unfold size
    exact Nat.mul_pos hW hH
  have hral := lowerStar_range hW hH hv halm
  have hrest : rest = [] := by
    have h2 := halc
    rw [huf] at h2
    simp only [List.length_cons] at h2
    exact List.length_eq_zero.mp (by omega)
  subst hrest
  have hpmem : pair ∈ m.unpaired_facets st alpha.2 (m.lower_star v) := by
    rw [huf]
    exact List.mem_cons_self _ _
  obtain ⟨hpfac, hpL, hpu⟩ := mem_unpaired_facets.mp hpmem
  have hpr : m.size ≤ pair ∧ pair < 3 * m.size :=
    face_facets_range hW hH hv halm half hpfac
  have hpal : pair ≠ alpha.2 := by omega
  have hdimp : m.dim pair = 1 := dim_edge hpr.1 hpr.2
  have hdima : m.dim alpha.2 = 2 := dim_face half
  obtain ⟨hVp, hCp⟩ := is_unpaired_true_iff.mp hpu
  obtain ⟨hVa, hCa⟩ := is_unpaired_true_iff.mp halu
  have hqnd := h.qnd
  rw [List.map_cons] at hqnd
  have hnd0 : (pq0.map Prod.snd).Nodup := (List.nodup_append.mp hqnd).1
  have hnd1 : (alpha.2 :: pq1r.map Prod.snd).Nodup := (List.nodup_append.mp hqnd).2.1
  have hdisj : (pq0.map Prod.snd).Disjoint (alpha.2 :: pq1r.map Prod.snd) :=
    (List.nodup_append.mp hqnd).2.2
  have hal_nin : alpha.2 ∉ pq1r.map Prod.snd := (List.nodup_cons.mp hnd1).1
  have hnd1r : (pq1r.map Prod.snd).Nodup := (List.nodup_cons.mp hnd1).2
  have hufa' : m.unpaired_facets (st.set_gradient_arrow pair alpha.2) alpha.2
      (m.lower_star v) = [] := by
    rw [unpaired_facets_set_arrow, huf]
    simp
  have hnp' : ∀ c ∈ m.lower_star v,
      (st.set_gradient_arrow pair alpha.2).is_unpaired c = false →
      (m.unpaired_facets (st.set_gradient_arrow pair alpha.2) c
        (m.lower_star v)).length = 0 := by
    intro c hc hcu
    by_cases hc1 : c = alpha.2
    · subst hc1
      rw [hufa']
      rfl
    by_cases hc2 : c = pair
    · subst hc2
      rw [lowerStar_edge_unpaired_facets hW hH _ hv hpr.1 hpr.2]
      rfl
    · rw [is_unpaired_arrow_other st hc2 hc1] at hcu
      have h0 := h.npCnt c hc hcu
      have hle := @unpaired_facets_arrow_le m st pair alpha.2 c (m.lower_star v)
      omega
  have hbetaface : ∀ beta ∈ m.lower_star v, pair ∈ m.facets beta →
      3 * m.size ≤ beta :=
    fun beta hb hp => mem_facets_ge_face hW hH hv hb hp hpr.1
  have hdrop : ∀ c ∈ m.lower_star v, 3 * m.size ≤ c →
      m.unpaired_facets (st.set_gradient_arrow pair alpha.2) c (m.lower_star v) =
        (m.unpaired_facets st c (m.lower_star v)).filter
          (fun f => decide (f ≠ pair)) :=
    fun c hc h3 => face_cnt_arrow hW hH hv hc h3 half st
  have hdropmem : ∀ c ∈ m.lower_star v, 3 * m.size ≤ c → pair ∈ m.facets c →
      (m.unpaired_facets st c (m.lower_star v)).length =
        (m.unpaired_facets (st.set_gradient_arrow pair alpha.2) c
          (m.lower_star v)).length + 1 := by
    intro c hc h3 hpfc
    have hmem : pair ∈ m.unpaired_facets st c (m.lower_star v) :=
      mem_unpaired_facets.mpr ⟨hpfc, hpL, hpu⟩
    have hpos : 0 < (m.unpaired_facets st c (m.lower_star v)).length :=
      List.length_pos.mpr (List.ne_nil_of_mem hmem)
    have heq : (m.unpaired_facets (st.set_gradient_arrow pair alpha.2) c
        (m.lower_star v)).length =
        (m.unpaired_facets st c (m.lower_star v)).length - 1 := by
      rw [hdrop c hc h3, filter_ne_length (face_uf_nodup hW hH hv hc h3 st) pair,
        if_pos hmem]
    omega
  have hdropnot : ∀ c ∈ m.lower_star v, 3 * m.size ≤ c → pair ∉ m.facets c →
      (m.unpaired_facets (st.set_gradient_arrow pair alpha.2) c
        (m.lower_star v)).length =
        (m.unpaired_facets st c (m.lower_star v)).length := by
    intro c hc h3 hpfc
    have hnm : pair ∉ m.unpaired_facets st c (m.lower_star v) :=
      fun hm => hpfc (mem_unpaired_facets.mp hm).1
    rw [hdrop c hc h3, filter_ne_length (face_uf_nodup hW hH hv hc h3 st) pair,
      if_neg hnm]
    omega
  have hg' : GInv m (st.set_gradient_arrow pair alpha.2) := by
    obtain ⟨hi2, hcv, hcm, hcn, hcr, hvr, hvd, hvs⟩ := h.g
    refine ⟨?_, ?_, hcm, hcn, hcr, ?_, ?_, ?_⟩
    · intro a b hab
      rw [set_arrow_V] at hab
      by_cases ha1 : a = alpha.2
      · subst ha1
        rw [if_pos rfl] at hab
        have hb : pair = b := Option.some.inj hab
        subst hb
        refine ⟨?_, Or.inr (by rw [hdimp, hdima])⟩
        rw [set_arrow_V, if_neg hpal, if_pos rfl]
      · by_cases ha2 : a = pair
        · subst ha2
          rw [if_neg ha1, if_pos rfl] at hab
          have hb : alpha.2 = b := Option.some.inj hab
          subst hb
          refine ⟨?_, Or.inl (by rw [hdimp, hdima])⟩
          rw [set_arrow_V, if_pos rfl]
        · rw [if_neg ha1, if_neg ha2] at hab
          obtain ⟨hba, hdims⟩ := hi2 a b hab
          have hb1 : b ≠ alpha.2 := fun he => by
            rw [he, hVa] at hba
            exact Option.noConfusion hba
          have hb2 : b ≠ pair := fun he => by
            rw [he, hVp] at hba
            exact Option.noConfusion hba
          refine ⟨?_, hdims⟩
          rw [set_arrow_V, if_neg hb1, if_neg hb2]
          exact hba
    · intro c hcrit
      have hcc : st.crit c = true := hcrit
      have hc1 : c ≠ alpha.2 := fun he => by
        rw [he, hCa] at hcc
        exact Bool.noConfusion hcc
      have hc2 : c ≠ pair := fun he => by
        rw [he, hCp] at hcc
        exact Bool.noConfusion hcc
      rw [set_arrow_V, if_neg hc1, if_neg hc2]
      exact hcv c hcc
    · intro a b hab
      rw [set_arrow_V] at hab
      by_cases ha1 : a = alpha.2
      · subst ha1
        rw [if_pos rfl] at hab
        have hb : pair = b := Option.some.inj hab
        subst hb
        omega
      · by_cases ha2 : a = pair
        · subst ha2
          rw [if_neg ha1, if_pos rfl] at hab
          have hb : alpha.2 = b := Option.some.inj hab
          subst hb
          omega
        · rw [if_neg ha1, if_neg ha2] at hab
          exact hvr a b hab
    · intro a b hab hd0
      rw [set_arrow_V] at hab
      by_cases ha1 : a = alpha.2
      · exfalso
        rw [ha1, hdima] at hd0
        omega
      · by_cases ha2 : a = pair
        · exfalso
          rw [ha2, hdimp] at hd0
          omega
        · rw [if_neg ha1, if_neg ha2] at hab
          exact hvd a b hab hd0
    · intro a b hab hdab
      rw [set_arrow_V] at hab
      by_cases ha1 : a = alpha.2
      · exfalso
        subst ha1
        rw [if_pos rfl] at hab
        have hb : pair = b := Option.some.inj hab
        subst hb
        rw [hdima, hdimp] at hdab
        omega
      · by_cases ha2 : a = pair
        · subst ha2
          rw [if_neg ha1, if_pos rfl] at hab
          have hb : alpha.2 = b := Option.some.inj hab
          subst hb
          exact hpfac
        · rw [if_neg ha1, if_neg ha2] at hab
          exact hvs a b hab hdab
  have hmem_beta : ∀ beta ∈ (m.lower_star v).filter (fun beta =>
      decide ((m.unpaired_facets (st.set_gradient_arrow pair alpha.2) beta
        (m.lower_star v)).length = 1) &&
      decide (pair ∈ m.facets beta)),
      beta ∈ m.lower_star v ∧
      (m.unpaired_facets (st.set_gradient_arrow pair alpha.2) beta
        (m.lower_star v)).length = 1 ∧
      pair ∈ m.facets beta := by
    intro beta hb
    have h2 := List.mem_filter.mp hb
    have h3 := h2.2
    simp only [Bool.and_eq_true, decide_eq_true_eq] at h3
    exact ⟨h2.1, h3.1, h3.2⟩
  refine ⟨hg', ?_, h.frameC, ?_, ?_, ?_, ?_, ?_, hnp'⟩
  · intro c hcL hcv2
    have hc1 : c ≠ alpha.2 := fun he => hcL (he ▸ halm)
    have hc2 : c ≠ pair := fun he => hcL (he ▸ hpL)
    rw [set_arrow_V, if_neg hc1, if_neg hc2]
    exact h.frameV c hcL hcv2
  · rw [is_unpaired_arrow_other st (by omega) (by omega)]
    exact h.starv
  · intro x hx
    have hx' := (foldl_pqPush_perm m.extvalue _ pq1r).mem_iff.mp hx
    rw [List.mem_append] at hx'
    rcases hx' with hx' | hx'
    · obtain ⟨beta, hbmem, rfl⟩ := List.mem_map.mp hx'
      obtain ⟨hbL, hbcnt, hbpf⟩ := hmem_beta beta hbmem
      have hb3 : 3 * m.size ≤ beta := hbetaface beta hbL hbpf
      refine ⟨hbL, hb3, ?_, ?_, rfl⟩
      · rcases Bool.eq_false_or_eq_true
          ((st.set_gradient_arrow pair alpha.2).is_unpaired beta) with hb | hb
        · exact hb
        · have h0 := hnp' beta hbL hb
          omega
      · show (m.unpaired_facets (st.set_gradient_arrow pair alpha.2) beta
          (m.lower_star v)).length ≤ 1
        omega
    · obtain ⟨hm1, hf1, hu1, hc1, hk1⟩ := h.q1p x (List.mem_cons_of_mem _ hx')
      have hxal : x.2 ≠ alpha.2 := fun he => hal_nin (by
        rw [← he]
        exact List.mem_map_of_mem Prod.snd hx')
      have hxp : x.2 ≠ pair := by omega
      refine ⟨hm1, hf1, ?_, ?_, hk1⟩
      · rw [is_unpaired_arrow_other st hxp hxal]
        exact hu1
      · have hle := @unpaired_facets_arrow_le m st pair alpha.2 x.2 (m.lower_star v)
        omega
  · intro x hx
    have hx2 := List.mem_filter.mp hx
    obtain ⟨hm0, hu0, hc0, hk0⟩ := h.q0p x hx2.1
    have hxp : x.2 ≠ pair := by
      have h3 := hx2.2
      simp only [decide_eq_true_eq] at h3
      exact h3
    have hxal : x.2 ≠ alpha.2 := by
      intro he
      exact hdisj (List.mem_map_of_mem Prod.snd hx2.1)
        (by rw [he]; exact List.mem_cons_self _ _)
    refine ⟨hm0, ?_, ?_, hk0⟩
    · rw [is_unpaired_arrow_other st hxp hxal]
      exact hu0
    · have hle := @unpaired_facets_arrow_le m st pair alpha.2 x.2 (m.lower_star v)
      omega
  · rw [map_snd_filter_ne]
    have hp2 := foldl_pqPush_map_snd m.extvalue ((m.lower_star v).filter
      (fun beta =>
        decide ((m.unpaired_facets (st.set_gradient_arrow pair alpha.2) beta
          (m.lower_star v)).length = 1) &&
        decide (pair ∈ m.facets beta))) pq1r
    have hbig := List.Perm.append
      (List.Perm.refl ((pq0.map Prod.snd).filter (fun c => decide (c ≠ pair)))) hp2
    refine hbig.nodup_iff.mpr ?_
    rw [List.nodup_append]
    refine ⟨hnd0.filter _, ?_, ?_⟩
    · rw [List.nodup_append]
      refine ⟨(lowerStar_nodup hW hH hv).filter _, hnd1r, ?_⟩
      intro c hcb hcr
      obtain ⟨hbL, hbcnt, hbpf⟩ := hmem_beta c hcb
      obtain ⟨x, hx1, rfl⟩ := List.mem_map.mp hcr
      obtain ⟨_, _, hcle, _⟩ := h.q1p x (List.mem_cons_of_mem _ hx1)
      have h4 := hdropmem x.2 hbL (hbetaface x.2 hbL hbpf) hbpf
      omega
    · intro c hc0 hcB
      have hc0' := List.mem_filter.mp hc0
      rw [List.mem_append] at hcB
      rcases hcB with hcb | hcr
      · obtain ⟨x, hx1, hx2⟩ := List.mem_map.mp hc0'.1
        obtain ⟨_, _, hcnt0, _⟩ := h.q0p x hx1
        rw [hx2] at hcnt0
        obtain ⟨hbL, hbcnt, hbpf⟩ := hmem_beta c hcb
        have hle := @unpaired_facets_arrow_le m st pair alpha.2 c (m.lower_star v)
        omega
      · exact hdisj hc0'.1 (List.mem_cons_of_mem _ hcr)
  · intro c hc hcu
    have hcp : c ≠ pair := fun he => by
      rw [he, arrow_start_not_unpaired] at hcu
      exact Bool.noConfusion hcu
    have hca : c ≠ alpha.2 := fun he => by
      rw [he, arrow_end_not_unpaired] at hcu
      exact Bool.noConfusion hcu
    have hcu0 : st.is_unpaired c = true := by
      rw [← is_unpaired_arrow_other st hcp hca]
      exact hcu
    rcases h.cov c hc hcu0 with h1 | h1 | h1
    · left
      rw [map_snd_filter_ne]
      exact List.mem_filter.mpr ⟨h1, by simp [hcp]⟩
    · rw [List.map_cons, List.mem_cons] at h1
      rcases h1 with rfl | h1
      · exact absurd rfl hca
      · refine Or.inr (Or.inl ?_)
        exact (foldl_pqPush_map_snd m.extvalue _ pq1r).mem_iff.mpr
          (List.mem_append.mpr (Or.inr h1))
    · have hc3 : 3 * m.size ≤ c := by
        by_contra hlt
        have hrange := lowerStar_range hW hH hv hc
        rw [lowerStar_edge_unpaired_facets hW hH st hv hrange.1 (by omega)] at h1
        simp at h1
      by_cases hpf : pair ∈ m.facets c
      · refine Or.inr (Or.inl ?_)
        have hcnt' := hdropmem c hc hc3 hpf
        have hone : (m.unpaired_facets (st.set_gradient_arrow pair alpha.2) c
            (m.lower_star v)).length = 1 := by omega
        have hcb : c ∈ (m.lower_star v).filter (fun beta =>
            decide ((m.unpaired_facets (st.set_gradient_arrow pair alpha.2) beta
              (m.lower_star v)).length = 1) &&
            decide (pair ∈ m.facets beta)) :=
          List.mem_filter.mpr ⟨hc, by simp [hone, hpf]⟩
        exact (foldl_pqPush_map_snd m.extvalue _ pq1r).mem_iff.mpr
          (List.mem_append.mpr (Or.inl hcb))
      · refine Or.inr (Or.inr ?_)
        rw [hdropnot c hc hc3 hpf]
        exact h1

/-- Unfolding the fields after `set_critical`. -/
theorem set_critical_crit (st : TMState) (x c : ℕ) :
    (st.set_critical x).crit c = if c = x then true else st.crit c := rfl

/-- `set_critical` does not touch `V`. -/
theorem set_critical_V (st : TMState) (x c : ℕ) :
    (st.set_critical x).V c = st.V c := rfl

/-- `set_critical` appends to `cr_cells`. -/
theorem set_critical_crCells (st : TMState) (x : ℕ) :
    (st.set_critical x).crCells = st.crCells ++ [x] := rfl

/-- Critical branch of the loop: with `pq_one` empty, the popped `pq_zero`
cell `gamma` is marked critical, and every star face that thereby drops to
exactly one unpaired facet (it must have `gamma` among its facets) is pushed
onto a fresh `pq_one`. -/
theorem Mesh.LInv_gamma {m : Mesh} (hW : 0 < m.sizeX) (hH : 0 < m.sizeY) {v : ℕ}
    (hv : v < m.size) {st₀ st : TMState} {gamma : List ℚ × ℕ}
    {pq0r : List (List ℚ × ℕ)}
    (h : LInv m v st₀ st (gamma :: pq0r) []) :
    LInv m v st₀ (st.set_critical gamma.2) pq0r
      (((m.lower_star v).filter (fun a =>
          decide (gamma.2 ∈ m.facets a) &&
          decide ((m.unpaired_facets (st.set_critical gamma.2) a
            (m.lower_star v)).length = 1))).foldl
        (fun q a => pqPush (m.extvalue a, a) q) []) := by
  obtain ⟨hgm, hgu, hgc, hgk⟩ := h.q0p gamma (List.mem_cons_self _ _)
  have hNpos : 0 < m.size := by
    unfold size
    exact Nat.mul_pos hW hH
  have hrg := lowerStar_range hW hH hv hgm
  obtain ⟨hVg, hCg⟩ := is_unpaired_true_iff.mp hgu
  have hqnd := h.qnd
  rw [List.map_cons] at hqnd
  simp only [List.map_nil, List.append_nil] at hqnd
  have hg_nin : gamma.2 ∉ pq0r.map Prod.snd := (List.nodup_cons.mp hqnd).1
  have hnd0r : (pq0r.map Prod.snd).Nodup := (List.nodup_cons.mp hqnd).2
  have hnp' : ∀ c ∈ m.lower_star v,
      (st.set_critical gamma.2).is_unpaired c = false →
      (m.unpaired_facets (st.set_critical gamma.2) c
        (m.lower_star v)).length = 0 := by
    intro c hc hcu
    by_cases hc1 : c = gamma.2
    · subst hc1
      have hle := @unpaired_facets_critical_le m st gamma.2 gamma.2 (m.lower_star v)
      omega
    · rw [is_unpaired_critical_other st hc1] at hcu
      have h0 := h.npCnt c hc hcu
      have hle := @unpaired_facets_critical_le m st gamma.2 c (m.lower_star v)
      omega
  have hmem_push : ∀ a ∈ (m.lower_star v).filter (fun a =>
      decide (gamma.2 ∈ m.facets a) &&
      decide ((m.unpaired_facets (st.set_critical gamma.2) a
        (m.lower_star v)).length = 1)),
      a ∈ m.lower_star v ∧ gamma.2 ∈ m.facets a ∧
      (m.unpaired_facets (st.set_critical gamma.2) a
        (m.lower_star v)).length = 1 := by
    intro a ha
    have h2 := List.mem_filter.mp ha
    have h3 := h2.2
    simp only [Bool.and_eq_true, decide_eq_true_eq] at h3
    exact ⟨h2.1, h3.1, h3.2⟩
  have hg' : GInv m (st.set_critical gamma.2) := by
    obtain ⟨hi2, hcv, hcm, hcn, hcr, hvr, hvd, hvs⟩ := h.g
    refine ⟨fun a b hab => hi2 a b hab, ?_, ?_, ?_, ?_,
      fun a b hab => hvr a b hab, fun a b hab => hvd a b hab,
      fun a b hab => hvs a b hab⟩
    · intro c hcc
      rw [set_critical_crit] at hcc
      rw [set_critical_V]
      by_cases hc1 : c = gamma.2
      · subst hc1
        exact hVg
      · rw [if_neg hc1] at hcc
        exact hcv c hcc
    · intro c
      rw [set_critical_crCells, set_critical_crit, List.mem_append,
        List.mem_singleton]
      by_cases hc1 : c = gamma.2
      · subst hc1
        simp
      · rw [if_neg hc1]
        simp only [hc1, or_false]
        exact hcm c
    · rw [set_critical_crCells, List.nodup_append]
      refine ⟨hcn, List.nodup_singleton _, ?_⟩
      intro c hc1 hc2
      rw [List.mem_singleton] at hc2
      subst hc2
      rw [(hcm gamma.2).mp hc1] at hCg
      exact Bool.noConfusion hCg
    · intro c hcc
      rw [set_critical_crit] at hcc
      by_cases hc1 : c = gamma.2
      · subst hc1
        omega
      · rw [if_neg hc1] at hcc
        exact hcr c hcc
  refine ⟨hg', fun c h1 h2 => h.frameV c h1 h2, ?_, ?_, ?_, ?_, ?_, ?_, hnp'⟩
  · intro c hcL hcv2
    have hc1 : c ≠ gamma.2 := fun he => hcL (he ▸ hgm)
    rw [set_critical_crit, if_neg hc1]
    exact h.frameC c hcL hcv2
  · rw [is_unpaired_critical_other st (by omega)]
    exact h.starv
  · intro x hx
    have hx' := (foldl_pqPush_perm m.extvalue _ []).mem_iff.mp hx
    rw [List.mem_append] at hx'
    rcases hx' with hx' | hx'
    · obtain ⟨a, hamem, rfl⟩ := List.mem_map.mp hx'
      obtain ⟨haL, hagf, hacnt⟩ := hmem_push a hamem
      have ha3 : 3 * m.size ≤ a := mem_facets_ge_face hW hH hv haL hagf hrg.1
      refine ⟨haL, ha3, ?_, ?_, rfl⟩
      · rcases Bool.eq_false_or_eq_true
          ((st.set_critical gamma.2).is_unpaired a) with hb | hb
        · exact hb
        · have h0 := hnp' a haL hb
          omega
      · show (m.unpaired_facets (st.set_critical gamma.2) a
          (m.lower_star v)).length ≤ 1
        omega
    · simp at hx'
  · intro x hx
    obtain ⟨hm0, hu0, hc0, hk0⟩ := h.q0p x (List.mem_cons_of_mem _ hx)
    have hxg : x.2 ≠ gamma.2 := by
      intro he
      exact hg_nin (he ▸ List.mem_map_of_mem Prod.snd hx)
    refine ⟨hm0, ?_, ?_, hk0⟩
    · rw [is_unpaired_critical_other st hxg]
      exact hu0
    · have hle := @unpaired_facets_critical_le m st gamma.2 x.2 (m.lower_star v)
      omega
  · have hp2 := foldl_pqPush_map_snd m.extvalue ((m.lower_star v).filter
      (fun a => decide (gamma.2 ∈ m.facets a) &&
        decide ((m.unpaired_facets (st.set_critical gamma.2) a
          (m.lower_star v)).length = 1))) []
    rw [List.map_nil, List.append_nil] at hp2
    have hbig := List.Perm.append (List.Perm.refl (pq0r.map Prod.snd)) hp2
    refine hbig.nodup_iff.mpr ?_
    rw [List.nodup_append]
    refine ⟨hnd0r, (lowerStar_nodup hW hH hv).filter _, ?_⟩
    intro c hc0 hcp
    obtain ⟨x, hx1, rfl⟩ := List.mem_map.mp hc0
    obtain ⟨_, _, hcnt0, _⟩ := h.q0p x (List.mem_cons_of_mem _ hx1)
    obtain ⟨haL, hagf, hacnt⟩ := hmem_push x.2 hcp
    have hle := @unpaired_facets_critical_le m st gamma.2 x.2 (m.lower_star v)
    omega
  · intro c hc hcu
    have hcg : c ≠ gamma.2 := fun he => by
      rw [he, critical_not_unpaired] at hcu
      exact Bool.noConfusion hcu
    have hcu0 : st.is_unpaired c = true := by
      rw [← is_unpaired_critical_other st hcg]
      exact hcu
    rcases h.cov c hc hcu0 with h1 | h1 | h1
    · rw [List.map_cons, List.mem_cons] at h1
      rcases h1 with h1 | h1
      · exact absurd h1 hcg
      · exact Or.inl h1
    · simp at h1
    · have hc3 : 3 * m.size ≤ c := by
        by_contra hlt
        have hrange := lowerStar_range hW hH hv hc
        rw [lowerStar_edge_unpaired_facets hW hH st hv hrange.1 (by omega)] at h1
        simp at h1
      have hdropg : m.unpaired_facets (st.set_critical gamma.2) c
          (m.lower_star v) =
          (m.unpaired_facets st c (m.lower_star v)).filter
            (fun f => decide (f ≠ gamma.2)) :=
        unpaired_facets_set_critical m st gamma.2 c (m.lower_star v)
      by_cases hgf : gamma.2 ∈ m.facets c
      · refine Or.inr (Or.inl ?_)
        have hmem : gamma.2 ∈ m.unpaired_facets st c (m.lower_star v) :=
          mem_unpaired_facets.mpr ⟨hgf, hgm, hgu⟩
        have heq : (m.unpaired_facets (st.set_critical gamma.2) c
            (m.lower_star v)).length =
            (m.unpaired_facets st c (m.lower_star v)).length - 1 := by
          rw [hdropg, filter_ne_length (face_uf_nodup hW hH hv hc hc3 st) gamma.2,
            if_pos hmem]
        have hone : (m.unpaired_facets (st.set_critical gamma.2) c
            (m.lower_star v)).length = 1 := by omega
        have hcb : c ∈ (m.lower_star v).filter (fun a =>
            decide (gamma.2 ∈ m.facets a) &&
            decide ((m.unpaired_facets (st.set_critical gamma.2) a
              (m.lower_star v)).length = 1)) :=
          List.mem_filter.mpr ⟨hc, by simp [hone, hgf]⟩
        have hp2 := foldl_pqPush_map_snd m.extvalue ((m.lower_star v).filter
          (fun a => decide (gamma.2 ∈ m.facets a) &&
            decide ((m.unpaired_facets (st.set_critical gamma.2) a
              (m.lower_star v)).length = 1))) []
        rw [List.map_nil, List.append_nil] at hp2
        exact hp2.mem_iff.mpr hcb
      · refine Or.inr (Or.inr ?_)
        have hnm : gamma.2 ∉ m.unpaired_facets st c (m.lower_star v) :=
          fun hm => hgf (mem_unpaired_facets.mp hm).1
        rw [hdropg, filter_ne_length (face_uf_nodup hW hH hv hc hc3 st) gamma.2,
          if_neg hnm]
        omega

/-- The inner loop of `_process_star` preserves the loop invariant and, on
normal termination, establishes the star postcondition. -/
theorem Mesh.gradLoop_post {m : Mesh} (hW : 0 < m.sizeX) (hH : 0 < m.sizeY) {v : ℕ}
    (hv : v < m.size) :
    ∀ (fuel : ℕ) (pq0 pq1 : List (List ℚ × ℕ)) (st st' st₀ : TMState),
      LInv m v st₀ st pq0 pq1 →
      gradLoop m (m.lower_star v) fuel pq0 pq1 st = some st' →
      StarPost m v st₀ st' := by
  intro fuel
  induction fuel with
  | zero =>
    intro pq0 pq1 st st' st₀ _ hrun
    rw [gradLoop] at hrun
    exact Option.noConfusion hrun
  | succ fuel ih =>
    intro pq0 pq1 st st' st₀ hinv hrun
    cases pq1 with
    | cons alpha pq1r =>
      rw [gradLoop] at hrun
      dsimp only at hrun
      cases huf : m.unpaired_facets st alpha.2 (m.lower_star v) with
      | nil =>
        rw [huf] at hrun
        dsimp only at hrun
        exact ih _ _ _ _ _ (LInv_requeue hinv huf) hrun
      | cons pair rest =>
        rw [huf] at hrun
        dsimp only at hrun
        exact ih _ _ _ _ _ (LInv_pair hW hH hv hinv huf) hrun
    | nil =>
      cases pq0 with
      | cons gamma pq0r =>
        rw [gradLoop] at hrun
        exact ih _ _ _ _ _ (LInv_gamma hW hH hv hinv) hrun
      | nil =>
        rw [gradLoop] at hrun
        have hst := Option.some.inj hrun
        subst hst
        exact LInv_exit hW hH hv hinv

/-- The symmetric redundancy lemma: the first `≠` conjunct is redundant when
its element is not in the list. -/
theorem filter_two_ne' {l : List ℕ} (x y : ℕ) (hx : x ∉ l) :
    l.filter (fun f => decide (f ≠ x) && decide (f ≠ y)) =
      l.filter (fun f => decide (f ≠ y)) := by
  apply List.filter_congr
  intro f hf
  have hne : f ≠ x := fun he => hx (he ▸ hf)
  simp [hne]

/-- Dimension 1 characterises the edge id range. -/
theorem Mesh.dim_eq_one_iff {c : ℕ} : m.dim c = 1 ↔ m.size ≤ c ∧ c < 3 * m.size := by
  unfold dim
  by_cases h1 : c < m.size
  · rw [if_pos h1]
    constructor
    · intro h
      exact absurd h (by omega)
    · intro h
      omega
  · rw [if_neg h1]
    by_cases h2 : c < 3 * m.size
    · rw [if_pos h2]
      constructor
      · intro _
        omega
      · intro _
        rfl
    · rw [if_neg h2]
      constructor
      · intro h
        exact absurd h (by omega)
      · intro h
        omega

/-- The facets of a non-face are its vertices. -/
theorem Mesh.facets_eq_verts {c : ℕ} (h : m.dim c ≠ 2) : m.facets c = m.verts c := by
  unfold facets
  rw [if_neg h]

/-- The two cofacets of an edge: both faces, distinct on a grid with both
sides at least 2, and each has the edge among its facets. -/
theorem Mesh.cofacets_ne (hW : 0 < m.sizeX) (hH : 0 < m.sizeY) {e f1 f2 : ℕ}
    (he1 : m.size ≤ e) (he2 : e < 3 * m.size)
    (hcf : m.cofacets e = some (f1, f2)) :
    3 * m.size ≤ f1 ∧ 3 * m.size ≤ f2 ∧
    e ∈ m.facets f1 ∧ e ∈ m.facets f2 ∧
    (2 ≤ m.sizeX → 2 ≤ m.sizeY → f1 ≠ f2) := by
  have hd1 : m.dim e = 1 := dim_eq_one_iff.mpr ⟨he1, he2⟩
  unfold cofacets at hcf
  rw [if_neg (by rw [hd1]; omega)] at hcf
  by_cases hcase : e < 2 * m.size
  · rw [if_pos hcase] at hcf
    have hpair := Prod.mk.injEq _ _ _ _ ▸ Option.some.inj hcf
    obtain ⟨hf1, hf2⟩ : 3 * m.size + m.vtop (e - m.size) = f1 ∧
        3 * m.size + (e - m.size) = f2 := Prod.mk.inj (Option.some.inj hcf)
    have ht : e - m.size < m.size := by omega
    have htt : m.vtop (e - m.size) < m.size := vtop_lt hW hH _ ht
    refine ⟨by omega, by omega, ?_, ?_, ?_⟩
    · rw [← hf1, facets_face htt, vbottom_vtop hW hH _ ht]
      have he' : m.size + (e - m.size) = e := by omega
      rw [he']
      simp
    · rw [← hf2, facets_face ht]
      have he' : m.size + (e - m.size) = e := by omega
      rw [he']
      simp
    · intro hW2 hH2 hff
      rw [← hf1, ← hf2] at hff
      have : m.vtop (e - m.size) = e - m.size := by omega
      rw [vtop_fix_iff hW hH _ ht] at this
      omega
  · rw [if_neg hcase] at hcf
    obtain ⟨hf1, hf2⟩ : 3 * m.size + m.vleft (e - 2 * m.size) = f1 ∧
        3 * m.size + (e - 2 * m.size) = f2 := Prod.mk.inj (Option.some.inj hcf)
    have ht : e - 2 * m.size < m.size := by omega
    have htt : m.vleft (e - 2 * m.size) < m.size := vleft_lt hW hH _ ht
    refine ⟨by omega, by omega, ?_, ?_, ?_⟩
    · rw [← hf1, facets_face htt, vright_vleft hW hH _ ht]
      have he' : 2 * m.size + (e - 2 * m.size) = e := by omega
      rw [he']
      simp
    · rw [← hf2, facets_face ht]
      have he' : 2 * m.size + (e - 2 * m.size) = e := by omega
      rw [he']
      simp
    · intro hW2 hH2 hff
      rw [← hf1, ← hf2] at hff
      have : m.vleft (e - 2 * m.size) = e - 2 * m.size := by omega
      rw [vleft_fix_iff hW hH _ ht] at this
      omega

/-- Filtering a two-element list is duplicate-free as soon as the two
elements are distinct whenever both pass the filter. -/
theorem nodup_filter_pair {p : ℕ → Bool} {a b : ℕ}
    (h : p a = true → p b = true → a ≠ b) : ([a, b].filter p).Nodup := by
  rcases Bool.eq_false_or_eq_true (p a) with h1 | h1 <;>
    rcases Bool.eq_false_or_eq_true (p b) with h2 | h2
  · simp [List.filter_cons, h1, h2, h h1 h2]
  · simp [List.filter_cons, h1, h2]
  · simp [List.filter_cons, h1, h2]
  · simp [List.filter_cons, h1, h2]

/-- `_process_star(v)` started in a state whose lower star of `v` is fully
unpaired establishes the star postcondition. -/
theorem Mesh.processStar_post {m : Mesh} (hW : 0 < m.sizeX) (hH : 0 < m.sizeY)
    {v : ℕ} (hv : v < m.size) {fuel : ℕ} {st₀ st' : TMState}
    (hg : GInv m st₀)
    (hentryv : st₀.is_unpaired v = true)
    (hentry : ∀ c ∈ m.lower_star v, st₀.is_unpaired c = true)
    (hrun : processStar m fuel st₀ v = some st') :
    StarPost m v st₀ st' := by
  obtain ⟨hVv, hCv⟩ := is_unpaired_true_iff.mp hentryv
  have hNpos : 0 < m.size := by
    unfold size
    exact Nat.mul_pos hW hH
  rw [processStar] at hrun
  dsimp only at hrun
  split at hrun
  · -- empty lower star: the vertex is marked critical
    rename_i heq
    have hst := Option.some.inj hrun
    subst hst
    refine ⟨?_, fun c _ _ => rfl, ?_, ?_, critical_not_unpaired st₀ v⟩
    · obtain ⟨hi2, hcv, hcm, hcn, hcr, hvr, hvd, hvs⟩ := hg
      refine ⟨fun a b hab => hi2 a b hab, ?_, ?_, ?_, ?_,
        fun a b hab => hvr a b hab, fun a b hab => hvd a b hab,
        fun a b hab => hvs a b hab⟩
      · intro c hcc
        rw [set_critical_crit] at hcc
        rw [set_critical_V]
        by_cases hc1 : c = v
        · subst hc1
          exact hVv
        · rw [if_neg hc1] at hcc
          exact hcv c hcc
      · intro c
        rw [set_critical_crCells, set_critical_crit, List.mem_append,
          List.mem_singleton]
        by_cases hc1 : c = v
        · subst hc1
          simp
        · rw [if_neg hc1]
          simp only [hc1, or_false]
          exact hcm c
      · rw [set_critical_crCells, List.nodup_append]
        refine ⟨hcn, List.nodup_singleton _, ?_⟩
        intro c hc1 hc2
        rw [List.mem_singleton] at hc2
        rw [hc2] at hc1
        rw [(hcm v).mp hc1] at hCv
        exact Bool.noConfusion hCv
      · intro c hcc
        rw [set_critical_crit] at hcc
        by_cases hc1 : c = v
        · subst hc1
          omega
        · rw [if_neg hc1] at hcc
          exact hcr c hcc
    · intro c hcL hcv2
      rw [set_critical_crit, if_neg hcv2]
    · intro c hc
      rw [heq] at hc
      exact absurd hc (List.not_mem_nil c)
  · -- non-empty lower star
    rename_i delta rest heq
    have hdL : delta ∈ m.lower_star v := by
      rw [heq]
      exact List.mem_cons_self _ _
    have hddim : m.dim delta = 1 := lowerStar_head_dim hW hH hv heq
    have hdr : m.size ≤ delta ∧ delta < 3 * m.size := dim_eq_one_iff.mp hddim
    have hLnd : (m.lower_star v).Nodup := lowerStar_nodup hW hH hv
    have hdnr : delta ∉ rest := by
      have h2 := hLnd
      rw [heq] at h2
      exact (List.nodup_cons.mp h2).1
    have hrnd : rest.Nodup := by
      have h2 := hLnd
      rw [heq] at h2
      exact (List.nodup_cons.mp h2).2
    have hrL : ∀ c ∈ rest, c ∈ m.lower_star v := fun c hc => by
      rw [heq]
      exact List.mem_cons_of_mem _ hc
    obtain ⟨hVd, hCd⟩ := is_unpaired_true_iff.mp (hentry delta hdL)
    have hvd_ne : v ≠ delta := by omega
    have hupres : ∀ c, c ≠ v → c ≠ delta →
        (st₀.set_gradient_arrow v delta).is_unpaired c = st₀.is_unpaired c :=
      fun c h1 h2 => is_unpaired_arrow_other st₀ h1 h2
    split at hrun
    · exact Option.noConfusion hrun
    rename_i f1 f2 hcfEq
    have hcof := cofacets_ne hW hH hdr.1 hdr.2 hcfEq
    have hg1 : GInv m (st₀.set_gradient_arrow v delta) := by
      obtain ⟨hi2, hcv, hcm, hcn, hcr, hvr, hvd, hvs⟩ := hg
      refine ⟨?_, ?_, hcm, hcn, hcr, ?_, ?_, ?_⟩
      · intro a b hab
        rw [set_arrow_V] at hab
        by_cases ha1 : a = delta
        · subst ha1
          rw [if_pos rfl] at hab
          have hb : v = b := Option.some.inj hab
          subst hb
          refine ⟨?_, Or.inr ?_⟩
          · rw [set_arrow_V, if_neg hvd_ne, if_pos rfl]
          · rw [dim_vertex hv, hddim]
        · by_cases ha2 : a = v
          · subst ha2
            rw [if_neg ha1, if_pos rfl] at hab
            have hb : delta = b := Option.some.inj hab
            subst hb
            refine ⟨?_, Or.inl ?_⟩
            · rw [set_arrow_V, if_pos rfl]
            · rw [dim_vertex hv, hddim]
          · rw [if_neg ha1, if_neg ha2] at hab
            obtain ⟨hba, hdims⟩ := hi2 a b hab
            have hb1 : b ≠ delta := fun he => by
              rw [he, hVd] at hba
              exact Option.noConfusion hba
            have hb2 : b ≠ v := fun he => by
              rw [he, hVv] at hba
              exact Option.noConfusion hba
            refine ⟨?_, hdims⟩
            rw [set_arrow_V, if_neg hb1, if_neg hb2]
            exact hba
      · intro c hcc
        have hcc' : st₀.crit c = true := hcc
        have hc1 : c ≠ delta := fun he => by
          rw [he, hCd] at hcc'
          exact Bool.noConfusion hcc'
        have hc2 : c ≠ v := fun he => by
          rw [he, hCv] at hcc'
          exact Bool.noConfusion hcc'
        rw [set_arrow_V, if_neg hc1, if_neg hc2]
        exact hcv c hcc'
      · intro a b hab
        rw [set_arrow_V] at hab
        by_cases ha1 : a = delta
        · subst ha1
          rw [if_pos rfl] at hab
          have hb : v = b := Option.some.inj hab
          subst hb
          omega
        · by_cases ha2 : a = v
          · subst ha2
            rw [if_neg ha1, if_pos rfl] at hab
            have hb : delta = b := Option.some.inj hab
            subst hb
            omega
          · rw [if_neg ha1, if_neg ha2] at hab
            exact hvr a b hab
      · intro a b hab hd0
        rw [set_arrow_V] at hab
        by_cases ha1 : a = delta
        · exfalso
          rw [ha1, hddim] at hd0
          omega
        · by_cases ha2 : a = v
          · subst ha2
            rw [if_neg ha1, if_pos rfl] at hab
            have hb : delta = b := Option.some.inj hab
            subst hb
            exact hdL
          · rw [if_neg ha1, if_neg ha2] at hab
            exact hvd a b hab hd0
      · intro a b hab hdab
        rw [set_arrow_V] at hab
        by_cases ha1 : a = delta
        · exfalso
          subst ha1
          rw [if_pos rfl] at hab
          have hb : v = b := Option.some.inj hab
          subst hb
          rw [hddim, dim_vertex hv] at hdab
          omega
        · by_cases ha2 : a = v
          · subst ha2
            rw [if_neg ha1, if_pos rfl] at hab
            have hb : delta = b := Option.some.inj hab
            subst hb
            rw [facets_eq_verts (by rw [hddim]; omega)]
            exact (lowerStar_maxvert hW hH hv hdL).1
          · rw [if_neg ha1, if_neg ha2] at hab
            exact hvs a b hab hdab
    have hufeq1 : ∀ c ∈ m.lower_star v, 3 * m.size ≤ c →
        m.unpaired_facets (st₀.set_gradient_arrow v delta) c (m.lower_star v) =
          (m.unpaired_facets st₀ c (m.lower_star v)).filter
            (fun f => decide (f ≠ delta)) := by
      intro c hc h3
      rw [unpaired_facets_set_arrow]
      apply filter_two_ne'
      intro hmem
      have hf := (mem_unpaired_facets.mp hmem).1
      have h4 := face_facets_range hW hH hv hc h3 hf
      omega
    have hufeq0 : ∀ c ∈ m.lower_star v, 3 * m.size ≤ c →
        m.unpaired_facets st₀ c (m.lower_star v) =
          (m.facets c).filter (fun f => decide (f ∈ m.lower_star v)) := by
      intro c hc h3
      unfold unpaired_facets
      apply List.filter_congr
      intro f hf
      by_cases hfL : f ∈ m.lower_star v
      · simp [hfL, hentry f hfL]
      · simp [hfL]
    have hcnt2 : ∀ c ∈ m.lower_star v, 3 * m.size ≤ c →
        (m.unpaired_facets st₀ c (m.lower_star v)).length = 2 := by
      intro c hc h3
      obtain ⟨hfnd, ea, eb, hne, heaf, hebf, heaL, hebL, hexcl⟩ :=
        lowerStar_face_two hW hH hv hc h3
      rw [hufeq0 c hc h3]
      have hnd : ((m.facets c).filter
          (fun f => decide (f ∈ m.lower_star v))).Nodup := hfnd.filter _
      have hperm : ((m.facets c).filter
          (fun f => decide (f ∈ m.lower_star v))).Perm [ea, eb] := by
        rw [List.perm_ext_iff_of_nodup hnd (by simp [hne])]
        intro f
        simp only [List.mem_filter, decide_eq_true_eq, List.mem_cons,
          List.not_mem_nil, or_false]
        constructor
        · rintro ⟨h1, h2⟩
          exact hexcl f h1 h2
        · rintro (rfl | rfl)
          · exact ⟨heaf, heaL⟩
          · exact ⟨hebf, hebL⟩
      rw [hperm.length_eq]
      rfl
    have hq0perm := foldl_pqPush_map_snd m.extvalue
      (rest.filter (fun c => decide (m.dim c = 1))) []
    rw [List.map_nil, List.append_nil] at hq0perm
    have hq1perm := foldl_pqPush_map_snd m.extvalue ([f1, f2].filter (fun f =>
      decide (f ∈ m.lower_star v) &&
      decide ((m.unpaired_facets (st₀.set_gradient_arrow v delta) f
        (m.lower_star v)).length = 1))) []
    rw [List.map_nil, List.append_nil] at hq1perm
    refine gradLoop_post hW hH hv fuel _ _ _ _ st₀ ?_ hrun
    refine ⟨hg1, ?_, fun c _ _ => rfl, arrow_start_not_unpaired st₀ v delta,
      ?_, ?_, ?_, ?_, ?_⟩
    · intro c hcL hcv2
      have hc1 : c ≠ delta := fun he => hcL (he ▸ hdL)
      rw [set_arrow_V, if_neg hc1, if_neg hcv2]
    · intro x hx
      have hx2 := (foldl_pqPush_perm m.extvalue _ []).mem_iff.mp hx
      rw [List.mem_append] at hx2
      rcases hx2 with hx2 | hx2
      · obtain ⟨f, hfmem, rfl⟩ := List.mem_map.mp hx2
        have h3 := List.mem_filter.mp hfmem
        have h4 := h3.2
        simp only [Bool.and_eq_true, decide_eq_true_eq] at h4
        obtain ⟨hfL, hfcnt⟩ := h4
        have hf3 : 3 * m.size ≤ f := by
          rcases List.mem_cons.mp h3.1 with rfl | h5
          · exact hcof.1
          · rw [List.mem_singleton] at h5
            subst h5
            exact hcof.2.1
        refine ⟨hfL, hf3, ?_, ?_, rfl⟩
        · rw [hupres f (by omega) (by omega)]
          exact hentry f hfL
        · show (m.unpaired_facets (st₀.set_gradient_arrow v delta) f
            (m.lower_star v)).length ≤ 1
          omega
      · simp at hx2
    · intro x hx
      have hx2 := (foldl_pqPush_perm m.extvalue _ []).mem_iff.mp hx
      rw [List.mem_append] at hx2
      rcases hx2 with hx2 | hx2
      · obtain ⟨c, hcmem, rfl⟩ := List.mem_map.mp hx2
        have h3 := List.mem_filter.mp hcmem
        have hdim := h3.2
        simp only [decide_eq_true_eq] at hdim
        have hcr := dim_eq_one_iff.mp hdim
        have hcL := hrL c h3.1
        refine ⟨hcL, ?_, ?_, rfl⟩
        · rw [hupres c (by omega) (fun he => hdnr (he ▸ h3.1))]
          exact hentry c hcL
        · show (m.unpaired_facets (st₀.set_gradient_arrow v delta) c
            (m.lower_star v)).length = 0
          rw [lowerStar_edge_unpaired_facets hW hH _ hv hcr.1 hcr.2]
          rfl
      · simp at hx2
    · have hbig := List.Perm.append hq0perm hq1perm
      refine hbig.nodup_iff.mpr ?_
      rw [List.nodup_append]
      refine ⟨hrnd.filter _, ?_, ?_⟩
      · apply nodup_filter_pair
        intro h1 _
        simp only [Bool.and_eq_true, decide_eq_true_eq] at h1
        have hnd := lowerStar_face_nondegenerate hW hH hv h1.1 hcof.1
        exact hcof.2.2.2.2 hnd.1 hnd.2
      · intro c hc0 hc1
        have h3 := List.mem_filter.mp hc0
        have hdim := h3.2
        simp only [decide_eq_true_eq] at hdim
        have hcr := dim_eq_one_iff.mp hdim
        have h5 := (List.mem_filter.mp hc1).1
        rcases List.mem_cons.mp h5 with rfl | h5
        · have := hcof.1
          omega
        · rw [List.mem_singleton] at h5
          subst h5
          have := hcof.2.1
          omega
    · intro c hc hcu
      have hcv2 : c ≠ v := by
        intro he
        rw [he, arrow_start_not_unpaired] at hcu
        exact Bool.noConfusion hcu
      have hcd : c ≠ delta := by
        intro he
        rw [he, arrow_end_not_unpaired] at hcu
        exact Bool.noConfusion hcu
      have hcrest : c ∈ rest := by
        have h2 := hc
        rw [heq] at h2
        rcases List.mem_cons.mp h2 with h1 | h1
        · exact absurd h1 hcd
        · exact h1
      have hrange := lowerStar_range hW hH hv hc
      by_cases h3 : 3 * m.size ≤ c
      · have hdrop := hufeq1 c hc h3
        have h2c := hcnt2 c hc h3
        have hnd := face_uf_nodup hW hH hv hc h3 st₀
        by_cases hdm : delta ∈ m.unpaired_facets st₀ c (m.lower_star v)
        · refine Or.inr (Or.inl ?_)
          have hlen : (m.unpaired_facets (st₀.set_gradient_arrow v delta) c
              (m.lower_star v)).length = 1 := by
            rw [hdrop, filter_ne_length hnd delta, if_pos hdm, h2c]
          have hdf : delta ∈ m.facets c := (mem_unpaired_facets.mp hdm).1
          have hceq : 3 * m.size + (c - 3 * m.size) = c := by omega
          obtain ⟨a, b, hab, hor⟩ := mem_facets_cofacets hW hH
            (show c - 3 * m.size < m.size by omega)
            (by rw [hceq]; exact hdf)
          rw [hcfEq] at hab
          obtain ⟨haf, hbf⟩ := Prod.mk.inj (Option.some.inj hab)
          rw [hceq] at hor
          refine hq1perm.mem_iff.mpr (List.mem_filter.mpr ⟨?_, ?_⟩)
          · rcases hor with rfl | rfl
            · rw [haf]
              exact List.mem_cons_self _ _
            · rw [hbf]
              exact List.mem_cons_of_mem _ (List.mem_singleton.mpr rfl)
          · simp [hc, hlen]
        · refine Or.inr (Or.inr ?_)
          rw [hdrop, filter_ne_length hnd delta, if_neg hdm]
          omega
      · refine Or.inl ?_
        have hdim : m.dim c = 1 := dim_eq_one_iff.mpr ⟨hrange.1, by omega⟩
        exact hq0perm.mem_iff.mpr (List.mem_filter.mpr ⟨hcrest, by simp [hdim]⟩)
    · intro c hc hcu
      by_cases hcd : c = delta
      · rw [hcd]
        rw [lowerStar_edge_unpaired_facets hW hH _ hv hdr.1 hdr.2]
        rfl
      · by_cases hcv2 : c = v
        · have h2 := lowerStar_range hW hH hv hc
          omega
        · rw [hupres c hcv2 hcd, hentry c hc] at hcu
          exact Bool.noConfusion hcu

/-- An indexed invariant rule for `foldlM` over `List.range`. -/
theorem foldlM_range_inv {β : Type} (P : ℕ → β → Prop) (f : β → ℕ → Option β) :
    ∀ (n : ℕ) (b : β), P 0 b →
      (∀ k b' r, k < n → P k b' → f b' k = some r → P (k + 1) r) →
      ∀ r, (List.range n).foldlM f b = some r → P n r := by
  intro n
  induction n with
  | zero =>
    intro b hb _ r hr
    simp only [List.range_zero, List.foldlM_nil] at hr
    cases hr
    exact hb
  | succ n ih =>
    intro b hb hstep r hr
    rw [List.range_succ, List.foldlM_append] at hr
    cases hmid : (List.range n).foldlM f b with
    | none =>
      rw [hmid] at hr
      exact Option.noConfusion hr
    | some mid =>
      rw [hmid] at hr
      have hPn : P n mid :=
        ih b hb (fun k b' r hk => hstep k b' r (by omega)) mid hmid
      simp only [List.foldlM_cons, List.foldlM_nil, Option.bind_eq_bind,
        Option.some_bind] at hr
      cases hfm : f mid n with
      | none =>
        rw [hfm] at hr
        exact Option.noConfusion hr
      | some r' =>
        rw [hfm] at hr
        simp only [Option.some_bind] at hr
        have : r' = r := Option.some.inj hr
        subst this
        exact hstep n mid r' (by omega) hPn hfm

/-- `is_unpaired` only depends on the cell's own `V` and `crit` entries. -/
theorem is_unpaired_congr {s s' : TMState} {c : ℕ} (hV : s'.V c = s.V c)
    (hC : s'.crit c = s.crit c) : s'.is_unpaired c = s.is_unpaired c := by
  unfold TMState.is_unpaired
  rw [hV, hC]

/-- One star step of the fold preserves the whole-fold invariant. -/
theorem Mesh.FoldInv_step {m : Mesh} (hW : 0 < m.sizeX) (hH : 0 < m.sizeY)
    {k : ℕ} (hk : k < m.size) {fuel : ℕ} {s s' : TMState}
    (h : FoldInv m k s) (hrun : processStar m fuel s k = some s') :
    FoldInv m (k + 1) s' := by
  have hentryv : s.is_unpaired k = true := by
    have h2 := h.untouched k (fun u hu => ⟨fun hm => by
      have := lowerStar_range hW hH (by omega : u < m.size) hm
      omega, by omega⟩)
    rw [is_unpaired_true_iff]
    exact h2
  have hentry : ∀ c ∈ m.lower_star k, s.is_unpaired c = true := by
    intro c hc
    have hcr := lowerStar_range hW hH hk hc
    have h2 := h.untouched c (fun u hu => ⟨fun hm =>
      lowerStar_disjoint hW hH (by omega : u < m.size) hk (by omega) hm hc,
      by omega⟩)
    rw [is_unpaired_true_iff]
    exact h2
  have post := processStar_post hW hH hk h.g hentryv hentry hrun
  refine ⟨post.g, ?_, ?_, ?_⟩
  · intro u hu
    by_cases huk : u = k
    · rw [huk]
      exact post.resolvedV
    · have hunL : u ∉ m.lower_star k := fun hm => by
        have := lowerStar_range hW hH hk hm
        omega
      rw [is_unpaired_congr (post.frameV u hunL huk) (post.frameC u hunL huk)]
      exact h.vres u (by omega)
  · intro u hu c hc
    by_cases hcL : c ∈ m.lower_star k
    · exact post.resolved c hcL
    · have hck : c ≠ k := by
        have := lowerStar_range hW hH (by omega : u < m.size) hc
        omega
      rw [is_unpaired_congr (post.frameV c hcL hck) (post.frameC c hcL hck)]
      by_cases huk : u = k
      · exact absurd (huk ▸ hc) hcL
      · exact h.sres u (by omega) c hc
  · intro c hcond
    have hcondk := hcond k (by omega)
    rw [post.frameV c hcondk.1 hcondk.2, post.frameC c hcondk.1 hcondk.2]
    exact h.untouched c (fun u hu => hcond u (by omega))

/-- What `cmp_discrete_gradient` guarantees on success: a well-formed
gradient state in which every vertex and every lower-star cell is resolved,
and cells belonging to no lower star are left untouched. -/
theorem Mesh.cmpDiscreteGradient_post {m : Mesh} (hW : 0 < m.sizeX)
    (hH : 0 < m.sizeY) {fuel : ℕ} {st stres : TMState}
    (hrun : cmpDiscreteGradient m fuel st = some stres) :
    GInv m stres ∧ (∀ u < m.size, stres.is_unpaired u = false) ∧
    (∀ u < m.size, ∀ c ∈ m.lower_star u, stres.is_unpaired c = false) ∧
    (∀ c, (∀ u < m.size, c ∉ m.lower_star u ∧ c ≠ u) →
      stres.V c = none ∧ stres.crit c = false) := by
  unfold cmpDiscreteGradient at hrun
  dsimp only at hrun
  cases hmid : (List.range m.size).foldlM
      (fun s idx => processStar m fuel s idx)
      { st with V := fun _ => none, crit := fun _ => false, crCells := [] } with
  | none =>
    rw [hmid] at hrun
    exact Option.noConfusion hrun
  | some mid =>
    rw [hmid] at hrun
    simp only [Option.map_some'] at hrun
    have hstres := Option.some.inj hrun
    have hbase : FoldInv m 0
        { st with V := fun _ => none, crit := fun _ => false, crCells := [] } := by
      refine ⟨⟨?_, ?_, ?_, ?_, ?_, ?_, ?_, ?_⟩, ?_, ?_, ?_⟩
      · intro a b hab
        exact Option.noConfusion hab
      · intro c hc
        exact Bool.noConfusion hc
      · intro c
        constructor
        · intro hc
          exact absurd hc (List.not_mem_nil c)
        · intro hc
          exact Bool.noConfusion hc
      · exact List.nodup_nil
      · intro c hc
        exact Bool.noConfusion hc
      · intro a b hab
        exact Option.noConfusion hab
      · intro a b hab
        exact Option.noConfusion hab
      · intro a b hab
        exact Option.noConfusion hab
      · intro u hu
        omega
      · intro u hu
        omega
      · intro c _
        exact ⟨rfl, rfl⟩
    have hfold := foldlM_range_inv (fun k s => FoldInv m k s)
      (fun s idx => processStar m fuel s idx) m.size _ hbase
      (fun k b' r hk hP hf => FoldInv_step hW hH hk hP hf) mid hmid
    subst hstres
    obtain ⟨hgmid, hvres, hsres, hunt⟩ := hfold
    obtain ⟨hi2, hcv, hcm, hcn, hcr, hvr, hvd, hvs⟩ := hgmid
    refine ⟨⟨fun a b hab => hi2 a b hab, fun c hc => hcv c hc, ?_, ?_,
      fun c hc => hcr c hc, fun a b hab => hvr a b hab,
      fun a b hab => hvd a b hab, fun a b hab => hvs a b hab⟩,
      fun u hu => hvres u hu, fun u hu c hc => hsres u hu c hc,
      fun c hc => hunt c hc⟩
    · intro c
      show c ∈ sortAscBy m.extvalue mid.crCells ↔ mid.crit c = true
      rw [mem_sortAscBy]
      exact hcm c
    · show (sortAscBy m.extvalue mid.crCells).Nodup
      exact (sortAscBy_perm m.extvalue mid.crCells).nodup_iff.mpr hcn

/-- C2 ("confirmed"): after `cmp_discrete_gradient` on a field with
pairwise-distinct vertex values, `V` is a partial involution pairing cells
of consecutive dimension: for every cell `c` in `[0, 4N)` with
`V[c] ≠ None`, `V[V[c]] = c` and `|dim(V[c]) − dim(c)| = 1`. -/
theorem C2_gradient_involution (m : Mesh) (hW : 0 < m.sizeX)
    (hH : 0 < m.sizeY)
    (hdist : ∀ u < m.size, ∀ w < m.size, m.value u = m.value w → u = w)
    {fuel : ℕ} {st stres : TMState}
    (hrun : cmpDiscreteGradient m fuel st = some stres) :
    ∀ c < 4 * m.size, ∀ b, stres.V c = some b →
      stres.V b = some c ∧ ((m.dim b : ℤ) - (m.dim c : ℤ)).natAbs = 1 := by
  obtain ⟨hg, _, _, _⟩ := Mesh.cmpDiscreteGradient_post hW hH hrun
  intro c _ b hab
  obtain ⟨hba, hdims⟩ := hg.inv2 c b hab
  refine ⟨hba, ?_⟩
  rcases hdims with h1 | h1 <;> omega

/-- Witness for `C2_gradient_involution` on the concrete 2×2 grid. -/
theorem C2_witness :
    ((0 < mesh22.sizeX ∧ 0 < mesh22.sizeY) ∧
     (∀ u < mesh22.size, ∀ w < mesh22.size,
        mesh22.value u = mesh22.value w → u = w)) ∧
    (∀ c < 4 * mesh22.size, ∀ b, st22grad.V c = some b →
      st22grad.V b = some c ∧
      ((mesh22.dim b : ℤ) - (mesh22.dim c : ℤ)).natAbs = 1) :=
  ⟨⟨⟨by decide, by decide⟩, by decide⟩,
   C2_gradient_involution mesh22 (by decide) (by decide) (by decide)
     (optEqSomeGetD _ TMState.init (by decide))⟩

/-- On a grid of width at least 2 with pairwise-distinct values, every
horizontal edge lies in the lower star of its larger endpoint. -/
theorem Mesh.coverH (hW2 : 2 ≤ m.sizeX) (hH : 0 < m.sizeY)
    (hdist : ∀ u < m.size, ∀ w < m.size, m.value u = m.value w → u = w)
    {t : ℕ} (ht : t < m.size) :
    ∃ u < m.size, m.size + t ∈ m.lower_star u := by
  have hW : 0 < m.sizeX := by omega
  have hr : m.vright t < m.size := vright_lt hW hH t ht
  have hne : t ≠ m.vright t := by
    intro he
    have h2 := (vright_fix_iff hW hH t ht).mp he.symm
    omega
  have hvne : m.value t ≠ m.value (m.vright t) :=
    fun he => hne (hdist t ht (m.vright t) hr he)
  rcases lt_or_gt_of_ne hvne with h1 | h1
  · refine ⟨m.vright t, hr, ?_⟩
    refine mem_lower_star.mpr (Or.inr (Or.inr (Or.inr (Or.inr (Or.inr (Or.inr
      (Or.inr ⟨?_, ?_⟩)))))))
    · rw [vleft_vright hW hH t ht]
      exact h1
    · unfold eleft
      rw [vleft_vright hW hH t ht]
  · refine ⟨t, ht, ?_⟩
    exact mem_lower_star.mpr (Or.inr (Or.inr (Or.inr (Or.inr (Or.inr
      (Or.inl ⟨h1, rfl⟩))))))

/-- On a grid of height at least 2 with pairwise-distinct values, every
vertical edge lies in the lower star of its larger endpoint. -/
theorem Mesh.coverV (hW : 0 < m.sizeX) (hH2 : 2 ≤ m.sizeY)
    (hdist : ∀ u < m.size, ∀ w < m.size, m.value u = m.value w → u = w)
    {t : ℕ} (ht : t < m.size) :
    ∃ u < m.size, 2 * m.size + t ∈ m.lower_star u := by
  have hH : 0 < m.sizeY := by omega
  have hb : m.vbottom t < m.size := vbottom_lt hW hH t ht
  have hne : t ≠ m.vbottom t := by
    intro he
    have h2 := (vbottom_fix_iff hW hH t ht).mp he.symm
    omega
  have hvne : m.value t ≠ m.value (m.vbottom t) :=
    fun he => hne (hdist t ht (m.vbottom t) hb he)
  rcases lt_or_gt_of_ne hvne with h1 | h1
  · refine ⟨m.vbottom t, hb, ?_⟩
    refine mem_lower_star.mpr (Or.inr (Or.inr (Or.inr (Or.inr (Or.inr (Or.inr
      (Or.inl ⟨?_, ?_⟩)))))))
    · rw [vtop_vbottom hW hH t ht]
      exact h1
    · unfold etop
      rw [vtop_vbottom hW hH t ht]
      ring
  · refine ⟨t, ht, ?_⟩
    refine mem_lower_star.mpr (Or.inr (Or.inr (Or.inr (Or.inr
      (Or.inl ⟨h1, ?_⟩)))))
    unfold ebottom
    ring

/-- On a grid with both sides at least 2 and pairwise-distinct values, every
face lies in the lower star of its largest vertex. -/
theorem Mesh.coverF (hW2 : 2 ≤ m.sizeX) (hH2 : 2 ≤ m.sizeY)
    (hdist : ∀ u < m.size, ∀ w < m.size, m.value u = m.value w → u = w)
    {t : ℕ} (ht : t < m.size) :
    ∃ u < m.size, 3 * m.size + t ∈ m.lower_star u := by
  have hW : 0 < m.sizeX := by omega
  have hH : 0 < m.sizeY := by omega
  have hr : m.vright t < m.size := vright_lt hW hH t ht
  have hb : m.vbottom t < m.size := vbottom_lt hW hH t ht
  have hrb : m.vright (m.vbottom t) < m.size := vright_lt hW hH _ hb
  -- structural identities around the face
  have id1 : m.vleft (m.vright t) = t := vleft_vright hW hH t ht
  have id2 : m.vtop (m.vbottom t) = t := vtop_vbottom hW hH t ht
  have id3 : m.vbottom (m.vright t) = m.vright (m.vbottom t) :=
    (vright_vbottom hW hH t ht).symm
  have id4 : m.vleft (m.vright (m.vbottom t)) = m.vbottom t :=
    vleft_vright hW hH _ hb
  have id5 : m.vtop (m.vright (m.vbottom t)) = m.vright t := by
    rw [← vright_vtop hW hH _ hb, id2]
  -- pairwise distinctness of the four vertices
  have htr : t ≠ m.vright t := by
    intro he
    have h2 := (vright_fix_iff hW hH t ht).mp he.symm
    omega
  have htb : t ≠ m.vbottom t := by
    intro he
    have h2 := (vbottom_fix_iff hW hH t ht).mp he.symm
    omega
  have htrb : t ≠ m.vright (m.vbottom t) := by
    intro he
    have h2 : m.vleft (m.vright (m.vbottom t)) = m.vleft t := congrArg m.vleft he.symm
    rw [id4] at h2
    have h3 := vbottom_eq_vleft hW hH ht h2
    omega
  have hrb2 : m.vright t ≠ m.vbottom t := by
    intro he
    have h2 : m.vtop (m.vright t) = m.vtop (m.vbottom t) := congrArg m.vtop he
    rw [id2, ← vright_vtop hW hH t ht] at h2
    have h3 := vright_vtop_eq hW hH ht h2
    omega
  have hrrb : m.vright t ≠ m.vright (m.vbottom t) := by
    intro he
    rw [← id3] at he
    have h2 := (vbottom_fix_iff hW hH _ hr).mp he.symm
    omega
  have hbrb : m.vbottom t ≠ m.vright (m.vbottom t) := by
    intro he
    have h2 := (vright_fix_iff hW hH _ hb).mp he.symm
    omega
  have hvne : ∀ a b : ℕ, a < m.size → b < m.size → a ≠ b →
      m.value a ≠ m.value b :=
    fun a b ha hbb hne he => hne (hdist a ha b hbb he)
  -- the four candidate star memberships
  have goal_t : m.value (m.vright t) < m.value t →
      m.value (m.vbottom t) < m.value t →
      m.value (m.vright (m.vbottom t)) < m.value t →
      ∃ u < m.size, 3 * m.size + t ∈ m.lower_star u := by
    intro h1 h2 h3
    refine ⟨t, ht, mem_lower_star.mpr (Or.inl ⟨⟨⟨h1, h2⟩, h3⟩, ?_⟩)⟩
    unfold frightbottom
    ring
  have goal_r : m.value t < m.value (m.vright t) →
      m.value (m.vbottom t) < m.value (m.vright t) →
      m.value (m.vright (m.vbottom t)) < m.value (m.vright t) →
      ∃ u < m.size, 3 * m.size + t ∈ m.lower_star u := by
    intro h1 h2 h3
    refine ⟨m.vright t, hr, mem_lower_star.mpr (Or.inr (Or.inl
      ⟨⟨⟨?_, ?_⟩, ?_⟩, ?_⟩))⟩
    · rw [id1]
      exact h1
    · rw [id3]
      exact h3
    · rw [id3, id4]
      exact h2
    · unfold fleftbottom
      rw [id1]
      ring
  have goal_b : m.value t < m.value (m.vbottom t) →
      m.value (m.vright t) < m.value (m.vbottom t) →
      m.value (m.vright (m.vbottom t)) < m.value (m.vbottom t) →
      ∃ u < m.size, 3 * m.size + t ∈ m.lower_star u := by
    intro h1 h2 h3
    refine ⟨m.vbottom t, hb, mem_lower_star.mpr (Or.inr (Or.inr (Or.inl
      ⟨⟨⟨?_, ?_⟩, ?_⟩, ?_⟩)))⟩
    · exact h3
    · rw [id2]
      exact h1
    · rw [id2]
      exact h2
    · unfold frighttop
      rw [id2]
      ring
  have goal_rb : m.value t < m.value (m.vright (m.vbottom t)) →
      m.value (m.vright t) < m.value (m.vright (m.vbottom t)) →
      m.value (m.vbottom t) < m.value (m.vright (m.vbottom t)) →
      ∃ u < m.size, 3 * m.size + t ∈ m.lower_star u := by
    intro h1 h2 h3
    refine ⟨m.vright (m.vbottom t), hrb, mem_lower_star.mpr (Or.inr (Or.inr
      (Or.inr (Or.inl ⟨⟨⟨?_, ?_⟩, ?_⟩, ?_⟩))))⟩
    · rw [id4]
      exact h3
    · rw [id5]
      exact h2
    · rw [id5, id1]
      exact h1
    · unfold flefttop
      rw [id4, id2]
      ring
  -- select the maximum of the four vertex values
  rcases lt_or_gt_of_ne (hvne t (m.vright t) ht hr htr) with hA | hA
  · -- value t < value r
    rcases lt_or_gt_of_ne (hvne (m.vright t) (m.vbottom t) hr hb hrb2) with
      hB | hB
    · -- r < b
      rcases lt_or_gt_of_ne (hvne (m.vbottom t) (m.vright (m.vbottom t))
        hb hrb hbrb) with hC | hC
      · exact goal_rb (hA.trans (hB.trans hC)) (hB.trans hC) hC
      · exact goal_b (hA.trans hB) hB hC
    · -- b < r
      rcases lt_or_gt_of_ne (hvne (m.vright t) (m.vright (m.vbottom t))
        hr hrb hrrb) with hC | hC
      · exact goal_rb (hA.trans hC) hC (hB.trans hC)
      · exact goal_r hA hB hC
  · -- value r < value t
    rcases lt_or_gt_of_ne (hvne t (m.vbottom t) ht hb htb) with hB | hB
    · -- t < b
      rcases lt_or_gt_of_ne (hvne (m.vbottom t) (m.vright (m.vbottom t))
        hb hrb hbrb) with hC | hC
      · exact goal_rb (hB.trans hC) ((hA.trans hB).trans hC) hC
      · exact goal_b hB (hA.trans hB) hC
    · -- b < t
      rcases lt_or_gt_of_ne (hvne t (m.vright (m.vbottom t)) ht hrb htrb) with
        hC | hC
      · exact goal_rb hC (hA.trans hC) (hB.trans hC)
      · exact goal_t hA hB hC

/-- Full coverage: on a grid with both sides at least 2 and pairwise-distinct
values, every edge and face lies in some lower star. -/
theorem Mesh.coverage (hW2 : 2 ≤ m.sizeX) (hH2 : 2 ≤ m.sizeY)
    (hdist : ∀ u < m.size, ∀ w < m.size, m.value u = m.value w → u = w)
    {c : ℕ} (hc1 : m.size ≤ c) (hc2 : c < 4 * m.size) :
    ∃ u < m.size, c ∈ m.lower_star u := by
  have hW : 0 < m.sizeX := by omega
  have hH : 0 < m.sizeY := by omega
  by_cases h1 : c < 2 * m.size
  · have := coverH hW2 hH hdist (show c - m.size < m.size by omega)
    rw [show m.size + (c - m.size) = c by omega] at this
    exact this
  · by_cases h2 : c < 3 * m.size
    · have := coverV hW hH2 hdist (show c - 2 * m.size < m.size by omega)
      rw [show 2 * m.size + (c - 2 * m.size) = c by omega] at this
      exact this
    · have := coverF hW2 hH2 hdist (show c - 3 * m.size < m.size by omega)
      rw [show 3 * m.size + (c - 3 * m.size) = c by omega] at this
      exact this

/-- C3 amended: the original claim fails on degenerate (width- or height-1)
grids, where some edges and faces belong to no lower star and stay unpaired
but unmarked.  On a grid with both sides at least 2 and pairwise-distinct
vertex values, after a successful `cmp_discrete_gradient` a cell of the
complex is marked critical exactly when it is unpaired: for every cell `c`
in `[0, 4N)`, `cr_id[c]` is true if and only if `V[c]` is `None`. -/
theorem C3_amended (m : Mesh) (hW2 : 2 ≤ m.sizeX) (hH2 : 2 ≤ m.sizeY)
    (hdist : ∀ u < m.size, ∀ w < m.size, m.value u = m.value w → u = w)
    {fuel : ℕ} {st stres : TMState}
    (hrun : cmpDiscreteGradient m fuel st = some stres) :
    ∀ c < 4 * m.size, (stres.crit c = true ↔ stres.V c = none) := by
  have hW : 0 < m.sizeX := by omega
  have hH : 0 < m.sizeY := by omega
  obtain ⟨hg, hvres, hsres, _⟩ := Mesh.cmpDiscreteGradient_post hW hH hrun
  intro c hc
  constructor
  · exact hg.critV c
  · intro hV
    rcases Bool.eq_false_or_eq_true (stres.crit c) with hcrit | hcrit
    · exact hcrit
    · exfalso
      have hup : stres.is_unpaired c = true := is_unpaired_true_iff.mpr ⟨hV, hcrit⟩
      by_cases hcN : c < m.size
      · rw [hvres c hcN] at hup
        exact Bool.noConfusion hup
      · obtain ⟨u, hu, hmem⟩ := Mesh.coverage hW2 hH2 hdist (by omega) hc
        rw [hsres u hu c hmem] at hup
        exact Bool.noConfusion hup

/-- Witness for `C3_amended` on the concrete 2×2 grid. -/
theorem C3_amended_witness :
    ((2 ≤ mesh22.sizeX ∧ 2 ≤ mesh22.sizeY) ∧
     (∀ u < mesh22.size, ∀ w < mesh22.size,
        mesh22.value u = mesh22.value w → u = w)) ∧
    (∀ c < 4 * mesh22.size, (st22grad.crit c = true ↔ st22grad.V c = none)) :=
  ⟨⟨⟨by decide, by decide⟩, by decide⟩,
   C3_amended mesh22 (by decide) (by decide) (by decide)
     (optEqSomeGetD _ TMState.init (by decide))⟩

/-- Dimension 0 characterises the vertex id range. -/
theorem Mesh.dim_eq_zero_iff {c : ℕ} : m.dim c = 0 ↔ c < m.size := by
  unfold dim
  by_cases h1 : c < m.size
  · rw [if_pos h1]
    simp [h1]
  · rw [if_neg h1]
    by_cases h2 : c < 3 * m.size
    · rw [if_pos h2]
      simp [h1]
    · rw [if_neg h2]
      simp [h1]

/-- Dimension 2 characterises the face id range (upwards). -/
theorem Mesh.dim_eq_two_iff {c : ℕ} : m.dim c = 2 ↔ 3 * m.size ≤ c := by
  unfold dim
  by_cases h1 : c < m.size
  · rw [if_pos h1]
    constructor
    · intro h
      exact absurd h (by omega)
    · intro h
      omega
  · rw [if_neg h1]
    by_cases h2 : c < 3 * m.size
    · rw [if_pos h2]
      constructor
      · intro h
        exact absurd h (by omega)
      · intro h
        omega
    · rw [if_neg h2]
      constructor
      · intro _
        omega
      · intro _
        rfl

/-- Every cell has dimension 0, 1 or 2. -/
theorem Mesh.dim_cases (c : ℕ) : m.dim c = 0 ∨ m.dim c = 1 ∨ m.dim c = 2 := by
  unfold dim
  split
  · exact Or.inl rfl
  · split
    · exact Or.inr (Or.inl rfl)
    · exact Or.inr (Or.inr rfl)

/-- Splitting a signed count over the cells satisfying a predicate into the
per-dimension cardinalities. -/
theorem Mesh.sum_sgn_split (P : ℕ → Prop) [DecidablePred P] :
    ∑ c ∈ (Finset.range (4 * m.size)).filter P, m.sgn c =
      (((Finset.range (4 * m.size)).filter
          (fun c => P c ∧ m.dim c = 0)).card : ℤ) -
      (((Finset.range (4 * m.size)).filter
          (fun c => P c ∧ m.dim c = 1)).card : ℤ) +
      (((Finset.range (4 * m.size)).filter
          (fun c => P c ∧ m.dim c = 2)).card : ℤ) := by
  have d01 : Disjoint ((Finset.range (4 * m.size)).filter
      (fun c => P c ∧ m.dim c = 0))
      ((Finset.range (4 * m.size)).filter (fun c => P c ∧ m.dim c = 1)) := by
    rw [Finset.disjoint_left]
    intro c h1 h2
    have e1 := (Finset.mem_filter.mp h1).2.2
    have e2 := (Finset.mem_filter.mp h2).2.2
    omega
  have d012 : Disjoint ((Finset.range (4 * m.size)).filter
        (fun c => P c ∧ m.dim c = 0) ∪
      (Finset.range (4 * m.size)).filter (fun c => P c ∧ m.dim c = 1))
      ((Finset.range (4 * m.size)).filter (fun c => P c ∧ m.dim c = 2)) := by
    rw [Finset.disjoint_left]
    intro c h1 h2
    have e2 := (Finset.mem_filter.mp h2).2.2
    rcases Finset.mem_union.mp h1 with h1 | h1
    · have e1 := (Finset.mem_filter.mp h1).2.2
      omega
    · have e1 := (Finset.mem_filter.mp h1).2.2
      omega
  have hsplit : (Finset.range (4 * m.size)).filter P =
      ((Finset.range (4 * m.size)).filter (fun c => P c ∧ m.dim c = 0) ∪
       (Finset.range (4 * m.size)).filter (fun c => P c ∧ m.dim c = 1)) ∪
      (Finset.range (4 * m.size)).filter (fun c => P c ∧ m.dim c = 2) := by
    ext c
    simp only [Finset.mem_union, Finset.mem_filter]
    constructor
    · rintro ⟨hc, hp⟩
      rcases @dim_cases m c with h | h | h
      · exact Or.inl (Or.inl ⟨hc, hp, h⟩)
      · exact Or.inl (Or.inr ⟨hc, hp, h⟩)
      · exact Or.inr ⟨hc, hp, h⟩
    · rintro ((⟨hc, hp, _⟩ | ⟨hc, hp, _⟩) | ⟨hc, hp, _⟩) <;> exact ⟨hc, hp⟩
  rw [hsplit, Finset.sum_union d012, Finset.sum_union d01]
  have e0 : ∑ c ∈ (Finset.range (4 * m.size)).filter
      (fun c => P c ∧ m.dim c = 0), m.sgn c =
      (((Finset.range (4 * m.size)).filter
        (fun c => P c ∧ m.dim c = 0)).card : ℤ) := by
    rw [Finset.sum_congr rfl (fun c hc => show m.sgn c = 1 from by
      have h := (Finset.mem_filter.mp hc).2.2
      unfold sgn
      rw [if_neg (by omega)])]
    rw [Finset.sum_const, nsmul_eq_mul, mul_one]
  have e1 : ∑ c ∈ (Finset.range (4 * m.size)).filter
      (fun c => P c ∧ m.dim c = 1), m.sgn c =
      -(((Finset.range (4 * m.size)).filter
        (fun c => P c ∧ m.dim c = 1)).card : ℤ) := by
    rw [Finset.sum_congr rfl (fun c hc => show m.sgn c = -1 from by
      have h := (Finset.mem_filter.mp hc).2.2
      unfold sgn
      rw [if_pos h])]
    rw [Finset.sum_const, nsmul_eq_mul, mul_neg_one]
  have e2 : ∑ c ∈ (Finset.range (4 * m.size)).filter
      (fun c => P c ∧ m.dim c = 2), m.sgn c =
      (((Finset.range (4 * m.size)).filter
        (fun c => P c ∧ m.dim c = 2)).card : ℤ) := by
    rw [Finset.sum_congr rfl (fun c hc => show m.sgn c = 1 from by
      have h := (Finset.mem_filter.mp hc).2.2
      unfold sgn
      rw [if_neg (by omega)])]
    rw [Finset.sum_const, nsmul_eq_mul, mul_one]
  rw [e0, e1, e2]
  ring

/-- The signed count over all cells of the complex vanishes. -/
theorem Mesh.sum_sgn_total :
    ∑ c ∈ Finset.range (4 * m.size), m.sgn c = 0 := by
  have h1 : (Finset.range (4 * m.size)).filter (fun c => True) =
      Finset.range (4 * m.size) := Finset.filter_true_of_mem (fun _ _ => trivial)
  have h2 := @sum_sgn_split m (fun _ => True) _
  rw [h1] at h2
  rw [h2]
  have c0 : (Finset.range (4 * m.size)).filter
      (fun c => True ∧ m.dim c = 0) = Finset.range m.size := by
    ext c
    rw [Finset.mem_filter, Finset.mem_range, Finset.mem_range, true_and,
      dim_eq_zero_iff]
    omega
  have c1 : (Finset.range (4 * m.size)).filter
      (fun c => True ∧ m.dim c = 1) = Finset.Ico m.size (3 * m.size) := by
    ext c
    rw [Finset.mem_filter, Finset.mem_range, Finset.mem_Ico, true_and,
      dim_eq_one_iff]
    omega
  have c2 : (Finset.range (4 * m.size)).filter
      (fun c => True ∧ m.dim c = 2) = Finset.Ico (3 * m.size) (4 * m.size) := by
    ext c
    rw [Finset.mem_filter, Finset.mem_range, Finset.mem_Ico, true_and,
      dim_eq_two_iff]
    omega
  rw [c0, c1, c2, Finset.card_range, Nat.card_Ico, Nat.card_Ico]
  push_cast
  ring_nf
  omega

/-- `cp` counts as finite-set cardinalities over the cell range. -/
theorem Mesh.cp_length_card {st : TMState}
    (hnd : st.crCells.Nodup) (hmem : ∀ c, c ∈ st.crCells ↔ st.crit c = true)
    (hrange : ∀ c, st.crit c = true → c < 4 * m.size) (d : ℕ) :
    (m.cp st d).length = ((Finset.range (4 * m.size)).filter
      (fun c => st.crit c = true ∧ m.dim c = d)).card := by
  unfold cp
  rw [← List.toFinset_card_of_nodup (hnd.filter _)]
  congr 1
  ext c
  simp only [List.mem_toFinset, List.mem_filter, Finset.mem_filter,
    Finset.mem_range, decide_eq_true_eq]
  constructor
  · rintro ⟨h1, h2⟩
    exact ⟨hrange c ((hmem c).mp h1), (hmem c).mp h1, h2⟩
  · rintro ⟨h1, h2, h3⟩
    exact ⟨(hmem c).mpr h2, h3⟩

/-- The signed count over the paired cells vanishes: the gradient involution
pairs them up with opposite signs. -/
theorem Mesh.sum_sgn_paired {st : TMState} (hg : GInv m st) :
    ∑ c ∈ (Finset.range (4 * m.size)).filter
      (fun c => (st.V c).isSome = true), m.sgn c = 0 := by
  have hsgn_pair : ∀ a b, st.V a = some b → m.sgn a + m.sgn b = 0 := by
    intro a b hab
    obtain ⟨_, hdims⟩ := hg.inv2 a b hab
    rcases @dim_cases m a with h0 | h0 | h0 <;>
      rcases @dim_cases m b with h1 | h1 | h1 <;>
      unfold sgn <;> rw [h0, h1] <;> first
        | (exfalso; omega)
        | norm_num
  refine Finset.sum_involution (fun a _ => (st.V a).getD 0) ?_ ?_ ?_ ?_
  · intro a ha
    have hs := (Finset.mem_filter.mp ha).2
    obtain ⟨b, hb⟩ := Option.isSome_iff_exists.mp hs
    show m.sgn a + m.sgn ((st.V a).getD 0) = 0
    rw [hb]
    exact hsgn_pair a b hb
  · intro a ha h0
    have hs := (Finset.mem_filter.mp ha).2
    obtain ⟨b, hb⟩ := Option.isSome_iff_exists.mp hs
    show (st.V a).getD 0 ≠ a
    rw [hb]
    intro heq
    have hba : b = a := heq
    rw [hba] at hb
    obtain ⟨_, hdims⟩ := hg.inv2 a a hb
    omega
  · intro a ha
    have hs := (Finset.mem_filter.mp ha).2
    obtain ⟨b, hb⟩ := Option.isSome_iff_exists.mp hs
    show (st.V a).getD 0 ∈ (Finset.range (4 * m.size)).filter
      (fun c => (st.V c).isSome = true)
    rw [hb]
    rw [Finset.mem_filter, Finset.mem_range]
    obtain ⟨hba, _⟩ := hg.inv2 a b hb
    refine ⟨(hg.vrange a b hb).2, ?_⟩
    show (st.V ((some b).getD 0)).isSome = true
    rw [show ((some b).getD 0) = b from rfl, hba]
    rfl
  · intro a ha
    have hs := (Finset.mem_filter.mp ha).2
    obtain ⟨b, hb⟩ := Option.isSome_iff_exists.mp hs
    obtain ⟨hba, _⟩ := hg.inv2 a b hb
    show (st.V ((st.V a).getD 0)).getD 0 = a
    rw [hb]
    show (st.V b).getD 0 = a
    rw [hba]
    rfl

/-- Partition of the signed total into paired, critical and free cells. -/
theorem Mesh.sum_sgn_partition {st : TMState} (hg : GInv m st) :
    (0 : ℤ) = (∑ c ∈ (Finset.range (4 * m.size)).filter
        (fun c => st.crit c = true), m.sgn c) +
      (∑ c ∈ (Finset.range (4 * m.size)).filter
        (fun c => st.V c = none ∧ st.crit c = false), m.sgn c) := by
  have htotal := @sum_sgn_total m
  have hsplit1 := Finset.sum_filter_add_sum_filter_not
    (Finset.range (4 * m.size)) (fun c => (st.V c).isSome = true) m.sgn
  have hpaired := sum_sgn_paired hg
  have hsplit2 := Finset.sum_filter_add_sum_filter_not
    ((Finset.range (4 * m.size)).filter (fun c => ¬ (st.V c).isSome = true))
    (fun c => st.crit c = true) m.sgn
  have hcriteq : ((Finset.range (4 * m.size)).filter
      (fun c => ¬ (st.V c).isSome = true)).filter
      (fun c => st.crit c = true) =
      (Finset.range (4 * m.size)).filter (fun c => st.crit c = true) := by
    rw [Finset.filter_filter]
    apply Finset.filter_congr
    intro c _
    constructor
    · rintro ⟨_, h2⟩
      exact h2
    · intro h2
      refine ⟨?_, h2⟩
      rw [hg.critV c h2]
      simp
  have hfreeeq : ((Finset.range (4 * m.size)).filter
      (fun c => ¬ (st.V c).isSome = true)).filter
      (fun c => ¬ st.crit c = true) =
      (Finset.range (4 * m.size)).filter
        (fun c => st.V c = none ∧ st.crit c = false) := by
    rw [Finset.filter_filter]
    apply Finset.filter_congr
    intro c _
    rw [Option.not_isSome_iff_eq_none, Bool.not_eq_true]
  rw [hcriteq, hfreeeq] at hsplit2
  rw [hpaired] at hsplit1
  omega

/-- On a width-1 grid, no horizontal edge belongs to any lower star. -/
theorem Mesh.lowerStar_no_edgeH_W1 (hW1 : m.sizeX = 1) (hH : 0 < m.sizeY)
    {v c : ℕ} (hv : v < m.size) (hc : c ∈ m.lower_star v)
    (h1 : m.size ≤ c) (h2 : c < 2 * m.size) : False := by
  have hW : 0 < m.sizeX := by omega
  have hl : m.vleft v < m.size := vleft_lt hW hH v hv
  have htp : m.vtop v < m.size := vtop_lt hW hH v hv
  have htl : m.vtop (m.vleft v) < m.size := vtop_lt hW hH _ hl
  rcases mem_lower_star.mp hc with
    ⟨_, rfl⟩ | ⟨_, rfl⟩ | ⟨_, rfl⟩ | ⟨_, rfl⟩ |
    ⟨hg, rfl⟩ | ⟨hg, rfl⟩ | ⟨hg, rfl⟩ | ⟨hg, rfl⟩
  · exact absurd h2 (by unfold frightbottom; omega)
  · exact absurd h2 (by unfold fleftbottom; omega)
  · exact absurd h2 (by unfold frighttop; omega)
  · exact absurd h2 (by unfold flefttop; omega)
  · exact absurd h2 (by unfold ebottom; omega)
  · rw [(vright_fix_iff hW hH v hv).mpr hW1] at hg
    exact absurd hg (lt_irrefl _)
  · exact absurd h2 (by unfold etop; omega)
  · rw [(vleft_fix_iff hW hH v hv).mpr hW1] at hg
    exact absurd hg (lt_irrefl _)

/-- On a height-1 grid, no vertical edge belongs to any lower star. -/
theorem Mesh.lowerStar_no_edgeV_H1 (hW : 0 < m.sizeX) (hH1 : m.sizeY = 1)
    {v c : ℕ} (hv : v < m.size) (hc : c ∈ m.lower_star v)
    (h1 : 2 * m.size ≤ c) (h2 : c < 3 * m.size) : False := by
  have hH : 0 < m.sizeY := by omega
  have hl : m.vleft v < m.size := vleft_lt hW hH v hv
  have htp : m.vtop v < m.size := vtop_lt hW hH v hv
  have htl : m.vtop (m.vleft v) < m.size := vtop_lt hW hH _ hl
  rcases mem_lower_star.mp hc with
    ⟨_, rfl⟩ | ⟨_, rfl⟩ | ⟨_, rfl⟩ | ⟨_, rfl⟩ |
    ⟨hg, rfl⟩ | ⟨hg, rfl⟩ | ⟨hg, rfl⟩ | ⟨hg, rfl⟩
  · exact absurd h2 (by unfold frightbottom; omega)
  · exact absurd h2 (by unfold fleftbottom; omega)
  · exact absurd h2 (by unfold frighttop; omega)
  · exact absurd h2 (by unfold flefttop; omega)
  · rw [(vbottom_fix_iff hW hH v hv).mpr hH1] at hg
    exact absurd hg (lt_irrefl _)
  · exact absurd h1 (by unfold eright; omega)
  · rw [(vtop_fix_iff hW hH v hv).mpr hH1] at hg
    exact absurd hg (lt_irrefl _)
  · exact absurd h1 (by unfold eleft; omega)

/-- C4 amended: the original claim fails on the 1×1 grid, where the single
vertex is critical and the other three cells are untouched, giving
alternating sum 1.  On every torus grid with at least two vertices
(`N ≥ 2`) and pairwise-distinct vertex values, after a successful
`cmp_discrete_gradient` the critical-cell counts satisfy
`len(cp(0)) − len(cp(1)) + len(cp(2)) = 0`: paired cells cancel in pairs of
consecutive dimension, the cells of no lower star (the horizontal edges and
faces when `W = 1`, the vertical edges and faces when `H = 1`, none
otherwise) cancel among themselves, and the full complex has alternating sum
`N − 2N + N = 0`. -/
theorem C4_amended (m : Mesh) (hW : 0 < m.sizeX) (hH : 0 < m.sizeY)
    (hN2 : 2 ≤ m.size)
    (hdist : ∀ u < m.size, ∀ w < m.size, m.value u = m.value w → u = w)
    {fuel : ℕ} {st stres : TMState}
    (hrun : cmpDiscreteGradient m fuel st = some stres) :
    ((m.cp stres 0).length : ℤ) - ((m.cp stres 1).length : ℤ) +
      ((m.cp stres 2).length : ℤ) = 0 := by
  obtain ⟨hg, hvres, hsres, hunt⟩ := Mesh.cmpDiscreteGradient_post hW hH hrun
  have hNpos : 0 < m.size := by omega
  have hfree_ge : ∀ c, c < 4 * m.size → stres.V c = none →
      stres.crit c = false → m.size ≤ c := by
    intro c hc h1 h2
    by_contra hlt
    have hup : stres.is_unpaired c = true := is_unpaired_true_iff.mpr ⟨h1, h2⟩
    rw [hvres c (by omega)] at hup
    exact Bool.noConfusion hup
  have hfree_nostar : ∀ c, stres.V c = none → stres.crit c = false →
      ∀ u < m.size, c ∉ m.lower_star u := by
    intro c h1 h2 u hu hmem
    have hup : stres.is_unpaired c = true := is_unpaired_true_iff.mpr ⟨h1, h2⟩
    rw [hsres u hu c hmem] at hup
    exact Bool.noConfusion hup
  have hfree0 : (∑ c ∈ (Finset.range (4 * m.size)).filter
      (fun c => stres.V c = none ∧ stres.crit c = false), m.sgn c) = 0 := by
    rcases Nat.lt_or_ge m.sizeX 2 with hW2 | hW2
    · have hW1 : m.sizeX = 1 := by omega
      have hHsz : m.size = m.sizeY := by
        unfold Mesh.size
        rw [hW1, one_mul]
      have hH2 : 2 ≤ m.sizeY := by omega
      have hchar : (Finset.range (4 * m.size)).filter
          (fun c => stres.V c = none ∧ stres.crit c = false) =
          Finset.Ico m.size (2 * m.size) ∪
            Finset.Ico (3 * m.size) (4 * m.size) := by
        ext c
        rw [Finset.mem_filter, Finset.mem_range, Finset.mem_union,
          Finset.mem_Ico, Finset.mem_Ico]
        constructor
        · rintro ⟨hc4, h1, h2⟩
          have hge := hfree_ge c hc4 h1 h2
          by_cases hmid : 2 * m.size ≤ c ∧ c < 3 * m.size
          · exfalso
            obtain ⟨u, hu, hmem⟩ := Mesh.coverV hW hH2 hdist
              (show c - 2 * m.size < m.size by omega)
            rw [show 2 * m.size + (c - 2 * m.size) = c from by omega] at hmem
            exact hfree_nostar c h1 h2 u hu hmem
          · omega
        · intro hc
          have hcond : ∀ u < m.size, c ∉ m.lower_star u ∧ c ≠ u := by
            intro u hu
            refine ⟨?_, by omega⟩
            intro hmem
            rcases hc with hc | hc
            · exact Mesh.lowerStar_no_edgeH_W1 hW1 hH (by omega) hmem hc.1 hc.2
            · have hnd := Mesh.lowerStar_face_nondegenerate hW hH
                (by omega) hmem hc.1
              omega
          obtain ⟨h1, h2⟩ := hunt c hcond
          exact ⟨by omega, h1, h2⟩
      have hdisj : Disjoint (Finset.Ico m.size (2 * m.size))
          (Finset.Ico (3 * m.size) (4 * m.size)) := by
        rw [Finset.disjoint_left]
        intro c h1 h2
        rw [Finset.mem_Ico] at h1 h2
        omega
      rw [hchar, Finset.sum_union hdisj]
      have e1 : ∑ c ∈ Finset.Ico m.size (2 * m.size), m.sgn c =
          -(((2 * m.size - m.size : ℕ)) : ℤ) := by
        rw [Finset.sum_congr rfl (fun c hc => show m.sgn c = -1 from by
          rw [Finset.mem_Ico] at hc
          unfold Mesh.sgn
          rw [if_pos (Mesh.dim_eq_one_iff.mpr ⟨hc.1, by omega⟩)])]
        rw [Finset.sum_const, Nat.card_Ico, nsmul_eq_mul, mul_neg_one]
      have e2 : ∑ c ∈ Finset.Ico (3 * m.size) (4 * m.size), m.sgn c =
          (((4 * m.size - 3 * m.size : ℕ)) : ℤ) := by
        rw [Finset.sum_congr rfl (fun c hc => show m.sgn c = 1 from by
          rw [Finset.mem_Ico] at hc
          unfold Mesh.sgn
          rw [if_neg (by rw [Mesh.dim_eq_one_iff]; omega)])]
        rw [Finset.sum_const, Nat.card_Ico, nsmul_eq_mul, mul_one]
      rw [e1, e2]
      omega
    · rcases Nat.lt_or_ge m.sizeY 2 with hH2 | hH2
      · have hH1 : m.sizeY = 1 := by omega
        have hchar : (Finset.range (4 * m.size)).filter
            (fun c => stres.V c = none ∧ stres.crit c = false) =
            Finset.Ico (2 * m.size) (3 * m.size) ∪
              Finset.Ico (3 * m.size) (4 * m.size) := by
          ext c
          rw [Finset.mem_filter, Finset.mem_range, Finset.mem_union,
            Finset.mem_Ico, Finset.mem_Ico]
          constructor
          · rintro ⟨hc4, h1, h2⟩
            have hge := hfree_ge c hc4 h1 h2
            by_cases hmid : m.size ≤ c ∧ c < 2 * m.size
            · exfalso
              obtain ⟨u, hu, hmem⟩ := Mesh.coverH hW2 hH hdist
                (show c - m.size < m.size by omega)
              rw [show m.size + (c - m.size) = c from by omega] at hmem
              exact hfree_nostar c h1 h2 u hu hmem
            · omega
          · intro hc
            have hcond : ∀ u < m.size, c ∉ m.lower_star u ∧ c ≠ u := by
              intro u hu
              refine ⟨?_, by omega⟩
              intro hmem
              rcases hc with hc | hc
              · exact Mesh.lowerStar_no_edgeV_H1 hW hH1 (by omega) hmem hc.1 hc.2
              · have hnd := Mesh.lowerStar_face_nondegenerate hW hH
                  (by omega) hmem hc.1
                omega
            obtain ⟨h1, h2⟩ := hunt c hcond
            exact ⟨by omega, h1, h2⟩
        have hdisj : Disjoint (Finset.Ico (2 * m.size) (3 * m.size))
            (Finset.Ico (3 * m.size) (4 * m.size)) := by
          rw [Finset.disjoint_left]
          intro c h1 h2
          rw [Finset.mem_Ico] at h1 h2
          omega
        rw [hchar, Finset.sum_union hdisj]
        have e1 : ∑ c ∈ Finset.Ico (2 * m.size) (3 * m.size), m.sgn c =
            -(((3 * m.size - 2 * m.size : ℕ)) : ℤ) := by
          rw [Finset.sum_congr rfl (fun c hc => show m.sgn c = -1 from by
            rw [Finset.mem_Ico] at hc
            unfold Mesh.sgn
            rw [if_pos (Mesh.dim_eq_one_iff.mpr ⟨by omega, hc.2⟩)])]
          rw [Finset.sum_const, Nat.card_Ico, nsmul_eq_mul, mul_neg_one]
        have e2 : ∑ c ∈ Finset.Ico (3 * m.size) (4 * m.size), m.sgn c =
            (((4 * m.size - 3 * m.size : ℕ)) : ℤ) := by
          rw [Finset.sum_congr rfl (fun c hc => show m.sgn c = 1 from by
            rw [Finset.mem_Ico] at hc
            unfold Mesh.sgn
            rw [if_neg (by rw [Mesh.dim_eq_one_iff]; omega)])]
          rw [Finset.sum_const, Nat.card_Ico, nsmul_eq_mul, mul_one]
        rw [e1, e2]
        omega
      · have hempty : (Finset.range (4 * m.size)).filter
            (fun c => stres.V c = none ∧ stres.crit c = false) = ∅ := by
          rw [Finset.filter_eq_empty_iff]
          intro c hc
          rw [Finset.mem_range] at hc
          rintro ⟨h1, h2⟩
          have hge := hfree_ge c hc h1 h2
          obtain ⟨u, hu, hmem⟩ := Mesh.coverage hW2 hH2 hdist hge hc
          exact hfree_nostar c h1 h2 u hu hmem
        rw [hempty, Finset.sum_empty]
  have hpart := Mesh.sum_sgn_partition hg
  have hsplit := @Mesh.sum_sgn_split m (fun c => stres.crit c = true) _
  rw [hfree0, add_zero] at hpart
  rw [Mesh.cp_length_card hg.crnd hg.crmem hg.critRange 0,
    Mesh.cp_length_card hg.crnd hg.crmem hg.critRange 1,
    Mesh.cp_length_card hg.crnd hg.crmem hg.critRange 2]
  omega

/-- Witness for `C4_amended` on the concrete 2×2 grid (one minimum, two
saddles, one maximum). -/
theorem C4_amended_witness :
    ((0 < mesh22.sizeX ∧ 0 < mesh22.sizeY ∧ 2 ≤ mesh22.size) ∧
     (∀ u < mesh22.size, ∀ w < mesh22.size,
        mesh22.value u = mesh22.value w → u = w)) ∧
    ((mesh22.cp st22grad 0).length : ℤ) - ((mesh22.cp st22grad 1).length : ℤ) +
      ((mesh22.cp st22grad 2).length : ℤ) = 0 :=
  ⟨⟨⟨by decide, by decide, by decide⟩, by decide⟩,
   C4_amended mesh22 (by decide) (by decide) (by decide) (by decide)
     (optEqSomeGetD _ TMState.init (by decide))⟩

/-- `minNeibCount` adds over a split of the edge list. -/
theorem minNeibCount_append (m : Mesh) (nodes : List ℕ)
    (E new : List (ℕ × ℕ)) (x : ℕ) :
    minNeibCount m ⟨nodes, E ++ new⟩ x =
      minNeibCount m ⟨nodes, E⟩ x + minNeibCount m ⟨nodes, new⟩ x := by
  unfold minNeibCount MGraph.neighbors
  rw [List.filter_append, List.map_append, List.filter_append,
    List.length_append]

/-- Edges rooted at `r` with vertex second endpoints contribute one
0-dimensional neighbour of `r` each. -/
theorem minNeibCount_new_self (m : Mesh) (nodes : List ℕ) (r : ℕ)
    (new : List (ℕ × ℕ)) (h : ∀ e ∈ new, e.1 = r ∧ e.2 < m.size) :
    minNeibCount m ⟨nodes, new⟩ r = new.length := by
  induction new with
  | nil => rfl
  | cons e t ih =>
    obtain ⟨h1, h2⟩ := h e (List.mem_cons_self _ _)
    have ht := ih (fun e he => h e (List.mem_cons_of_mem _ he))
    unfold minNeibCount MGraph.neighbors at ht ⊢
    rw [List.filter_cons, if_pos (by simp [h1]), List.map_cons,
      List.filter_cons, if_pos (by simp [h1, Mesh.dim_eq_zero_iff.mpr h2]),
      List.length_cons, ht]
    rfl

/-- Edges rooted at another cell with vertex second endpoints do not touch
the 0-dimensional neighbour count of an edge or face cell. -/
theorem minNeibCount_new_other1 (m : Mesh) (nodes : List ℕ) (root cidx : ℕ)
    (new : List (ℕ × ℕ)) (h : ∀ e ∈ new, e.1 = root ∧ e.2 < m.size)
    (hne : root ≠ cidx) (hge : m.size ≤ cidx) :
    minNeibCount m ⟨nodes, new⟩ cidx = 0 := by
  induction new with
  | nil => rfl
  | cons e t ih =>
    obtain ⟨h1, h2⟩ := h e (List.mem_cons_self _ _)
    have ht := ih (fun e he => h e (List.mem_cons_of_mem _ he))
    unfold minNeibCount MGraph.neighbors at ht ⊢
    rw [List.filter_cons, if_neg (by simp [h1, hne]; omega)]
    exact ht

/-- Edges rooted at a non-vertex cell other than `cidx` do not touch the
0-dimensional neighbour count of `cidx`. -/
theorem minNeibCount_new_other2 (m : Mesh) (nodes : List ℕ) (root cidx : ℕ)
    (new : List (ℕ × ℕ)) (h : ∀ e ∈ new, e.1 = root)
    (hne : root ≠ cidx) (hdim : m.dim root ≠ 0) :
    minNeibCount m ⟨nodes, new⟩ cidx = 0 := by
  induction new with
  | nil => rfl
  | cons e t ih =>
    have h1 := h e (List.mem_cons_self _ _)
    have ht := ih (fun e he => h e (List.mem_cons_of_mem _ he))
    unfold minNeibCount MGraph.neighbors at ht ⊢
    by_cases h2 : e.2 = cidx
    · rw [List.filter_cons, if_pos (by simp [h2]), List.map_cons,
        List.filter_cons, if_neg (by simp [h1, hne, hdim]), ht]
    · rw [List.filter_cons, if_neg (by simp [h1, hne, h2])]
      exact ht

/-- In a resolved gradient state, every vertex is either critical or paired
upward with a cell of larger id. -/
theorem Mesh.vertex_step (hW : 0 < m.sizeX) (hH : 0 < m.sizeY) {st : TMState}
    (hg : GInv m st) (hres : ∀ u < m.size, st.is_unpaired u = false)
    {f : ℕ} (hf : f < m.size) :
    st.crit f = true ∨ ∃ c, st.V f = some c ∧ f < c := by
  rcases Bool.eq_false_or_eq_true (st.crit f) with hc | hc
  · exact Or.inl hc
  · right
    have hu := hres f hf
    unfold TMState.is_unpaired at hu
    rw [hc] at hu
    simp only [Bool.not_false, Bool.and_true] at hu
    cases hV : st.V f with
    | none =>
      rw [hV] at hu
      exact Bool.noConfusion hu
    | some c =>
      refine ⟨c, rfl, ?_⟩
      have hcL := hg.vdown f c hV (dim_vertex hf)
      have := lowerStar_range hW hH hf hcL
      omega

/-- Binding an option with `some` is the identity. -/
theorem option_bind_some {α : Type} (x : Option α) : x.bind some = x := by
  cases x <;> rfl

/-- Evaluating the BFS facet fold of `msLoop` on the two endpoints of an
edge, one of which is the skipped entry cell. -/
theorem msCellFold_two (m : Mesh) (st : TMState) (r a x : ℕ) (g : MGraph)
    (qr : List ℕ) (hxa : x ≠ a) (l : List ℕ)
    (hl : l = [a, x] ∨ l = [x, a]) :
    l.foldlM (fun (gq : MGraph × List ℕ) face =>
      if face = a then some gq
      else if st.is_critical face then some (gq.1.add_edge r face, gq.2)
      else match st.V face with
           | some c => if face < c then some (gq.1, gq.2 ++ [face]) else some gq
           | none => none) (g, qr) =
    (if st.is_critical x then some (g.add_edge r x, qr)
     else match st.V x with
          | some c => if x < c then some (g, qr ++ [x]) else some (g, qr)
          | none => none) := by
  have hbs := @option_bind_some (MGraph × List ℕ)
  rcases hl with rfl | rfl
  · by_cases hc : st.is_critical x = true
    · simp only [List.foldlM_cons, List.foldlM_nil, Option.bind_eq_bind,
        Option.some_bind, if_neg hxa, hc, eq_self_iff_true, ite_true, Option.pure_def, Bool.false_eq_true, hbs]
    · cases hV : st.V x with
      | none =>
        simp only [List.foldlM_cons, List.foldlM_nil, Option.bind_eq_bind,
          Option.some_bind, if_neg hxa, hc, hV, eq_self_iff_true, ite_true,
          ite_false, Option.pure_def, Bool.false_eq_true, hbs]
      | some c =>
        simp only [List.foldlM_cons, List.foldlM_nil, Option.bind_eq_bind,
          Option.some_bind, if_neg hxa, hc, hV, eq_self_iff_true, ite_true,
          ite_false, Option.pure_def, Bool.false_eq_true, hbs]
  · by_cases hc : st.is_critical x = true
    · simp only [List.foldlM_cons, List.foldlM_nil, Option.bind_eq_bind,
        Option.some_bind, if_neg hxa, hc, eq_self_iff_true, ite_true, Option.pure_def, Bool.false_eq_true, hbs]
    · cases hV : st.V x with
      | none =>
        simp only [List.foldlM_cons, List.foldlM_nil, Option.bind_eq_bind,
          Option.some_bind, if_neg hxa, hc, hV, eq_self_iff_true, ite_true,
          ite_false, Option.pure_def, Bool.false_eq_true, hbs]
      | some c =>
        by_cases hlt : x < c
        · simp only [List.foldlM_cons, List.foldlM_nil, Option.bind_eq_bind,
            Option.some_bind, if_neg hxa, hc, hV, eq_self_iff_true, ite_true,
            ite_false, Option.pure_def, Bool.false_eq_true, if_pos hlt, hbs]
        · simp only [List.foldlM_cons, List.foldlM_nil, Option.bind_eq_bind,
            Option.some_bind, if_neg hxa, hc, hV, eq_self_iff_true, ite_true,
            ite_false, Option.pure_def, Bool.false_eq_true, if_neg hlt, hbs]

/-- The seeding fold of `msCell` on resolved vertices: each facet contributes
one edge to the root or one queue entry. -/
theorem Mesh.seedFold_delta {st : TMState} (hg : GInv m st) (r : ℕ) :
    ∀ (l : List ℕ),
      (∀ f ∈ l, f < m.size ∧ (st.crit f = true ∨ ∃ c, st.V f = some c ∧ f < c)) →
      ∀ (g : MGraph) (q : List ℕ) (gq' : MGraph × List ℕ),
      l.foldlM (fun (gq : MGraph × List ℕ) face =>
        if st.is_critical face then some (gq.1.add_edge r face, gq.2)
        else match st.V face with
             | some c => if face < c then some (gq.1, gq.2 ++ [face]) else some gq
             | none => none) (g, q) = some gq' →
      ∃ new, gq'.1.edges = g.edges ++ new ∧ gq'.1.nodes = g.nodes ∧
        (∀ e ∈ new, e.1 = r ∧ e.2 < m.size) ∧
        new.length + gq'.2.length = q.length + l.length ∧
        (∀ a ∈ gq'.2, a ∈ q ∨ (a < m.size ∧ ∃ c, st.V a = some c)) := by
  intro l
  induction l with
  | nil =>
    intro _ g q gq' hrun
    rw [List.foldlM_nil] at hrun
    have h2 := Option.some.inj hrun
    subst h2
    exact ⟨[], (List.append_nil _).symm, rfl, by simp, by simp, fun a ha => Or.inl ha⟩
  | cons f t ih =>
    intro hcond g q gq' hrun
    obtain ⟨hf1, hf2⟩ := hcond f (List.mem_cons_self _ _)
    have hcond' := fun f hf => hcond f (List.mem_cons_of_mem _ hf)
    simp only [List.foldlM_cons, Option.bind_eq_bind] at hrun
    rcases hf2 with hcrit | ⟨c, hVc, hltc⟩
    · simp only [TMState.is_critical, hcrit, ite_true, Option.some_bind] at hrun
      obtain ⟨new2, he, hn, hprop, hlen, hqp⟩ := ih hcond' _ _ _ hrun
      refine ⟨(r, f) :: new2, ?_, hn, ?_, ?_, hqp⟩
      · rw [he]
        show (g.edges ++ [(r, f)]) ++ new2 = g.edges ++ ((r, f) :: new2)
        rw [List.append_assoc, List.singleton_append]
      · intro e he2
        rcases List.mem_cons.mp he2 with rfl | he2
        · exact ⟨rfl, hf1⟩
        · exact hprop e he2
      · simp only [List.length_cons] at hlen ⊢
        omega
    · have hcf : st.crit f = false := by
        rcases Bool.eq_false_or_eq_true (st.crit f) with hb | hb
        · rw [hg.critV f hb] at hVc
          exact Option.noConfusion hVc
        · exact hb
      simp only [TMState.is_critical, hcf, Bool.false_eq_true, ite_false, hVc,
        if_pos hltc, Option.some_bind] at hrun
      obtain ⟨new2, he, hn, hprop, hlen, hqp⟩ := ih hcond' _ _ _ hrun
      refine ⟨new2, he, hn, hprop, ?_, ?_⟩
      · have hq1 : (q ++ [f]).length = q.length + 1 := by simp
        rw [hq1] at hlen
        rw [List.length_cons]
        omega
      · intro a ha
        rcases hqp a ha with ha2 | ha2
        · rcases List.mem_append.mp ha2 with ha3 | ha3
          · exact Or.inl ha3
          · rw [List.mem_singleton] at ha3
            subst ha3
            exact Or.inr ⟨hf1, c, hVc⟩
        · exact Or.inr ha2

/-- The descending BFS of `cmp_msgraph` from a saddle: on success, exactly
one root edge is added per queue entry, always ending at a vertex. -/
theorem Mesh.msLoop_count (hW : 0 < m.sizeX) (hH : 0 < m.sizeY) {st : TMState}
    (hg : GInv m st) (hres : ∀ u < m.size, st.is_unpaired u = false) (r : ℕ) :
    ∀ (fuel : ℕ) (g : MGraph) (q : List ℕ) (g' : MGraph),
      (∀ a ∈ q, a < m.size ∧ ∃ c, st.V a = some c) →
      msLoop m st r fuel g q = some g' →
      ∃ new, g'.edges = g.edges ++ new ∧ g'.nodes = g.nodes ∧
        (∀ e ∈ new, e.1 = r ∧ e.2 < m.size) ∧ new.length = q.length := by
  intro fuel
  induction fuel with
  | zero =>
    intro g q g' _ hrun
    rw [msLoop.eq_def] at hrun
    exact Option.noConfusion hrun
  | succ fuel ih =>
    intro g q g' hq hrun
    cases q with
    | nil =>
      rw [msLoop.eq_def] at hrun
      have h2 := Option.some.inj hrun
      subst h2
      exact ⟨[], (List.append_nil _).symm, rfl, by simp, rfl⟩
    | cons a qr =>
      rw [msLoop.eq_def] at hrun
      dsimp only at hrun
      obtain ⟨ha, c0, hVa⟩ := hq a (List.mem_cons_self _ _)
      rw [hVa] at hrun
      dsimp only at hrun
      have hdim1 : m.dim c0 = 1 := by
        obtain ⟨_, hdims⟩ := hg.inv2 a c0 hVa
        rw [dim_vertex ha] at hdims
        rcases hdims with h1 | h1 <;> omega
      have hc0L := hg.vdown a c0 hVa (dim_vertex ha)
      have hc0r := dim_eq_one_iff.mp hdim1
      obtain ⟨x, hxa, hfac⟩ := lowerStar_edge_facets hW hH ha hc0L hc0r.2
      have hxlt : x < m.size := by
        refine facets_edge_lt hW hH hc0r.1 hc0r.2 ?_
        rcases hfac with hf | hf <;> rw [hf] <;> simp
      rw [msCellFold_two m st r a x g qr hxa _ hfac] at hrun
      rcases vertex_step hW hH hg hres hxlt with hcx | ⟨cx, hVx, hltx⟩
      · simp only [TMState.is_critical, hcx, ite_true] at hrun
        obtain ⟨new2, he, hn, hprop, hlen⟩ := ih (g.add_edge r x) qr g'
          (fun a' ha' => hq a' (List.mem_cons_of_mem _ ha')) hrun
        refine ⟨(r, x) :: new2, ?_, hn, ?_, ?_⟩
        · rw [he]
          show (g.edges ++ [(r, x)]) ++ new2 = g.edges ++ ((r, x) :: new2)
          rw [List.append_assoc, List.singleton_append]
        · intro e he2
          rcases List.mem_cons.mp he2 with rfl | he2
          · exact ⟨rfl, hxlt⟩
          · exact hprop e he2
        · rw [List.length_cons, List.length_cons, hlen]
      · have hcxf : st.crit x = false := by
          rcases Bool.eq_false_or_eq_true (st.crit x) with hb | hb
          · rw [hg.critV x hb] at hVx
            exact Option.noConfusion hVx
          · exact hb
        simp only [TMState.is_critical, hcxf, Bool.false_eq_true, ite_false,
          hVx, if_pos hltx] at hrun
        have hqinv : ∀ a' ∈ qr ++ [x], a' < m.size ∧ ∃ c, st.V a' = some c := by
          intro a' ha'
          rcases List.mem_append.mp ha' with ha2 | ha2
          · exact hq a' (List.mem_cons_of_mem _ ha2)
          · rw [List.mem_singleton] at ha2
            subst ha2
            exact ⟨hxlt, cx, hVx⟩
        obtain ⟨new2, he, hn, hprop, hlen⟩ := ih g (qr ++ [x]) g' hqinv hrun
        refine ⟨new2, he, hn, hprop, ?_⟩
        have hq1 : (qr ++ [x]).length = qr.length + 1 := by simp
        rw [hq1] at hlen
        rw [List.length_cons, hlen]

/-- Weak delta of the `msLoop` facet fold for arbitrary roots: on success
every added edge is rooted at the BFS root. -/
theorem innerFold_delta_weak (st : TMState) (r a : ℕ) :
    ∀ (l : List ℕ) (g : MGraph) (q : List ℕ) (gq' : MGraph × List ℕ),
      l.foldlM (fun (gq : MGraph × List ℕ) face =>
        if face = a then some gq
        else if st.is_critical face then some (gq.1.add_edge r face, gq.2)
        else match st.V face with
             | some c => if face < c then some (gq.1, gq.2 ++ [face]) else some gq
             | none => none) (g, q) = some gq' →
      ∃ new, gq'.1.edges = g.edges ++ new ∧ gq'.1.nodes = g.nodes ∧
        ∀ e ∈ new, e.1 = r := by
  intro l
  induction l with
  | nil =>
    intro g q gq' hrun
    rw [List.foldlM_nil] at hrun
    have h2 := Option.some.inj hrun
    subst h2
    exact ⟨[], (List.append_nil _).symm, rfl, by simp⟩
  | cons f t ih =>
    intro g q gq' hrun
    simp only [List.foldlM_cons, Option.bind_eq_bind] at hrun
    by_cases hfa : f = a
    · simp only [hfa, ite_true, eq_self_iff_true, Option.some_bind] at hrun
      exact ih _ _ _ hrun
    · rcases Bool.eq_false_or_eq_true (st.crit f) with hcf | hcf
      · simp only [if_neg hfa, TMState.is_critical, hcf, ite_true,
          Option.some_bind] at hrun
        obtain ⟨new2, he, hn, hprop⟩ := ih _ _ _ hrun
        refine ⟨(r, f) :: new2, ?_, hn, ?_⟩
        · rw [he]
          show (g.edges ++ [(r, f)]) ++ new2 = g.edges ++ ((r, f) :: new2)
          rw [List.append_assoc, List.singleton_append]
        · intro e he2
          rcases List.mem_cons.mp he2 with rfl | he2
          · rfl
          · exact hprop e he2
      · cases hV : st.V f with
        | none =>
          simp only [if_neg hfa, TMState.is_critical, hcf, Bool.false_eq_true,
            ite_false, hV, Option.none_bind] at hrun
          exact Option.noConfusion hrun
        | some c =>
          by_cases hlt : f < c
          · simp only [if_neg hfa, TMState.is_critical, hcf,
              Bool.false_eq_true, ite_false, hV, if_pos hlt,
              Option.some_bind] at hrun
            exact ih _ _ _ hrun
          · simp only [if_neg hfa, TMState.is_critical, hcf,
              Bool.false_eq_true, ite_false, hV, if_neg hlt,
              Option.some_bind] at hrun
            exact ih _ _ _ hrun

/-- Weak delta of the `msCell` seeding fold. -/
theorem seedFold_delta_weak (st : TMState) (r : ℕ) :
    ∀ (l : List ℕ) (g : MGraph) (q : List ℕ) (gq' : MGraph × List ℕ),
      l.foldlM (fun (gq : MGraph × List ℕ) face =>
        if st.is_critical face then some (gq.1.add_edge r face, gq.2)
        else match st.V face with
             | some c => if face < c then some (gq.1, gq.2 ++ [face]) else some gq
             | none => none) (g, q) = some gq' →
      ∃ new, gq'.1.edges = g.edges ++ new ∧ gq'.1.nodes = g.nodes ∧
        ∀ e ∈ new, e.1 = r := by
  intro l
  induction l with
  | nil =>
    intro g q gq' hrun
    rw [List.foldlM_nil] at hrun
    have h2 := Option.some.inj hrun
    subst h2
    exact ⟨[], (List.append_nil _).symm, rfl, by simp⟩
  | cons f t ih =>
    intro g q gq' hrun
    simp only [List.foldlM_cons, Option.bind_eq_bind] at hrun
    rcases Bool.eq_false_or_eq_true (st.crit f) with hcf | hcf
    · simp only [TMState.is_critical, hcf, ite_true, Option.some_bind] at hrun
      obtain ⟨new2, he, hn, hprop⟩ := ih _ _ _ hrun
      refine ⟨(r, f) :: new2, ?_, hn, ?_⟩
      · rw [he]
        show (g.edges ++ [(r, f)]) ++ new2 = g.edges ++ ((r, f) :: new2)
        rw [List.append_assoc, List.singleton_append]
      · intro e he2
        rcases List.mem_cons.mp he2 with rfl | he2
        · rfl
        · exact hprop e he2
    · cases hV : st.V f with
      | none =>
        simp only [TMState.is_critical, hcf, Bool.false_eq_true, ite_false,
          hV, Option.none_bind] at hrun
        exact Option.noConfusion hrun
      | some c =>
        by_cases hlt : f < c
        · simp only [TMState.is_critical, hcf, Bool.false_eq_true, ite_false,
            hV, if_pos hlt, Option.some_bind] at hrun
          exact ih _ _ _ hrun
        · simp only [TMState.is_critical, hcf, Bool.false_eq_true, ite_false,
            hV, if_neg hlt, Option.some_bind] at hrun
          exact ih _ _ _ hrun

/-- Weak delta of the full BFS loop: every edge added is rooted at the root. -/
theorem msLoop_delta_weak (m : Mesh) (st : TMState) (r : ℕ) :
    ∀ (fuel : ℕ) (g : MGraph) (q : List ℕ) (g' : MGraph),
      msLoop m st r fuel g q = some g' →
      ∃ new, g'.edges = g.edges ++ new ∧ g'.nodes = g.nodes ∧
        ∀ e ∈ new, e.1 = r := by
  intro fuel
  induction fuel with
  | zero =>
    intro g q g' hrun
    rw [msLoop.eq_def] at hrun
    exact Option.noConfusion hrun
  | succ fuel ih =>
    intro g q g' hrun
    cases q with
    | nil =>
      rw [msLoop.eq_def] at hrun
      have h2 := Option.some.inj hrun
      subst h2
      exact ⟨[], (List.append_nil _).symm, rfl, by simp⟩
    | cons a qr =>
      rw [msLoop.eq_def] at hrun
      dsimp only at hrun
      cases hVa : st.V a with
      | none =>
        rw [hVa] at hrun
        exact Option.noConfusion hrun
      | some b =>
        rw [hVa] at hrun
        dsimp only at hrun
        cases hfold : (m.facets b).foldlM (fun (gq : MGraph × List ℕ) face =>
          if face = a then some gq
          else if st.is_critical face then some (gq.1.add_edge r face, gq.2)
          else match st.V face with
               | some c => if face < c then some (gq.1, gq.2 ++ [face])
                           else some gq
               | none => none) (g, qr) with
        | none =>
          rw [hfold] at hrun
          exact Option.noConfusion hrun
        | some gq2 =>
          rw [hfold] at hrun
          obtain ⟨new1, he1, hn1, hp1⟩ := innerFold_delta_weak st r a _ _ _ _ hfold
          obtain ⟨new2, he2, hn2, hp2⟩ := ih gq2.1 gq2.2 g' (by
            cases hgq2 : gq2 with
            | mk g2 q2 => rw [hgq2] at hrun; exact hrun)
          refine ⟨new1 ++ new2, ?_, ?_, ?_⟩
          · rw [he2, he1, List.append_assoc]
          · rw [hn2, hn1]
          · intro e he
            rcases List.mem_append.mp he with h | h
            · exact hp1 e h
            · exact hp2 e h

/-- An edge has exactly two (not necessarily distinct) vertices. -/
theorem Mesh.facets_edge_length {e : ℕ} (he1 : m.size ≤ e) (he2 : e < 3 * m.size) :
    (m.facets e).length = 2 := by
  rw [facets_eq_verts (by rw [dim_eq_one_iff.mpr ⟨he1, he2⟩]; omega)]
  unfold verts
  rw [if_neg (by omega)]
  by_cases h : e < 2 * m.size
  · rw [if_pos h]; rfl
  · rw [if_neg h, if_pos (by omega)]; rfl

/-- The BFS run of a saddle adds exactly two root edges, both ending at
vertices. -/
theorem Mesh.msCell_count_dim1 (hW : 0 < m.sizeX) (hH : 0 < m.sizeY)
    {st : TMState} (hg : GInv m st)
    (hres : ∀ u < m.size, st.is_unpaired u = false) {r : ℕ}
    (hr1 : m.size ≤ r) (hr2 : r < 3 * m.size) {fuel : ℕ} {g g' : MGraph}
    (hrun : msCell m st fuel g r = some g') :
    ∃ new, g'.edges = g.edges ++ new ∧ g'.nodes = g.nodes ∧
      (∀ e ∈ new, e.1 = r ∧ e.2 < m.size) ∧ new.length = 2 := by
  unfold msCell at hrun
  cases hseed : (m.facets r).foldlM (fun (gq : MGraph × List ℕ) face =>
    if st.is_critical face then some (gq.1.add_edge r face, gq.2)
    else match st.V face with
         | some c => if face < c then some (gq.1, gq.2 ++ [face]) else some gq
         | none => none) (g, ([] : List ℕ)) with
  | none =>
    rw [hseed] at hrun
    exact Option.noConfusion hrun
  | some gq2 =>
    rw [hseed] at hrun
    have hcond : ∀ f ∈ m.facets r, f < m.size ∧
        (st.crit f = true ∨ ∃ c, st.V f = some c ∧ f < c) := by
      intro f hf
      have hflt := facets_edge_lt hW hH hr1 hr2 hf
      exact ⟨hflt, vertex_step hW hH hg hres hflt⟩
    obtain ⟨new1, he1, hn1, hp1, hlen1, hqp1⟩ :=
      seedFold_delta hg r (m.facets r) hcond g [] gq2 hseed
    have hq2inv : ∀ a ∈ gq2.2, a < m.size ∧ ∃ c, st.V a = some c := by
      intro a ha
      rcases hqp1 a ha with h1 | h1
      · exact absurd h1 (List.not_mem_nil a)
      · exact h1
    have hrun2 : msLoop m st r fuel gq2.1 gq2.2 = some g' := by
      cases hgq2 : gq2 with
      | mk g2 q2 =>
        rw [hgq2] at hrun
        exact hrun
    obtain ⟨new2, he2, hn2, hp2, hlen2⟩ :=
      msLoop_count hW hH hg hres r fuel gq2.1 gq2.2 g' hq2inv hrun2
    refine ⟨new1 ++ new2, ?_, ?_, ?_, ?_⟩
    · rw [he2, he1, List.append_assoc]
    · rw [hn2, hn1]
    · intro e he
      rcases List.mem_append.mp he with h | h
      · exact hp1 e h
      · exact hp2 e h
    · rw [List.length_append, hlen2]
      rw [List.length_nil, facets_edge_length hr1 hr2] at hlen1
      omega

/-- The BFS run of any critical cell only adds edges rooted at it. -/
theorem Mesh.msCell_delta_weak (st : TMState) {r fuel : ℕ} {g g' : MGraph}
    (hrun : msCell m st fuel g r = some g') :
    ∃ new, g'.edges = g.edges ++ new ∧ g'.nodes = g.nodes ∧
      ∀ e ∈ new, e.1 = r := by
  unfold msCell at hrun
  cases hseed : (m.facets r).foldlM (fun (gq : MGraph × List ℕ) face =>
    if st.is_critical face then some (gq.1.add_edge r face, gq.2)
    else match st.V face with
         | some c => if face < c then some (gq.1, gq.2 ++ [face]) else some gq
         | none => none) (g, ([] : List ℕ)) with
  | none =>
    rw [hseed] at hrun
    exact Option.noConfusion hrun
  | some gq2 =>
    rw [hseed] at hrun
    obtain ⟨new1, he1, hn1, hp1⟩ := seedFold_delta_weak st r (m.facets r) g [] gq2 hseed
    have hrun2 : msLoop m st r fuel gq2.1 gq2.2 = some g' := by
      cases hgq2 : gq2 with
      | mk g2 q2 =>
        rw [hgq2] at hrun
        exact hrun
    obtain ⟨new2, he2, hn2, hp2⟩ := msLoop_delta_weak m st r fuel gq2.1 gq2.2 g' hrun2
    refine ⟨new1 ++ new2, ?_, ?_, ?_⟩
    · rw [he2, he1, List.append_assoc]
    · rw [hn2, hn1]
    · intro e he
      rcases List.mem_append.mp he with h | h
      · exact hp1 e h
      · exact hp2 e h

/-- Folding `msCell` over roots different from `cidx` does not change the
0-dimensional neighbour count of the saddle `cidx`. -/
theorem Mesh.foldMsCell_preserve (hW : 0 < m.sizeX) (hH : 0 < m.sizeY)
    {st : TMState} (hg : GInv m st)
    (hres : ∀ u < m.size, st.is_unpaired u = false) {fuel cidx : ℕ}
    (hcid : m.size ≤ cidx) :
    ∀ (ls : List ℕ),
      (∀ x ∈ ls, (m.dim x = 1 ∨ m.dim x = 2) ∧ x ≠ cidx) →
      ∀ g g', ls.foldlM (fun g r => msCell m st fuel g r) g = some g' →
      minNeibCount m g' cidx = minNeibCount m g cidx := by
  intro ls
  induction ls with
  | nil =>
    intro _ g g' hrun
    simp only [List.foldlM_nil, Option.pure_def, Option.some.injEq] at hrun
    rw [hrun]
  | cons x t ih =>
    intro hall g g' hrun
    simp only [List.foldlM_cons, Option.bind_eq_bind] at hrun
    cases hx : msCell m st fuel g x with
    | none =>
      rw [hx, Option.none_bind] at hrun
      exact Option.noConfusion hrun
    | some g1 =>
      rw [hx, Option.some_bind] at hrun
      obtain ⟨hdims, hne⟩ := hall x (List.mem_cons_self _ _)
      have ht := ih (fun y hy => hall y (List.mem_cons_of_mem _ hy)) g1 g' hrun
      have hc1 : minNeibCount m g1 cidx = minNeibCount m g cidx := by
        rcases hdims with hd1 | hd2
        · obtain ⟨hr1, hr2⟩ := dim_eq_one_iff.mp hd1
          obtain ⟨new, he, hn, hp, _⟩ :=
            msCell_count_dim1 hW hH hg hres hr1 hr2 hx
          have hg1 : g1 = ⟨g1.nodes, g.edges ++ new⟩ := by
            cases g1 with
            | mk n E => exact congrArg (MGraph.mk n) he
          rw [hg1, minNeibCount_append,
            minNeibCount_new_other1 m g1.nodes x cidx new hp hne hcid,
            add_zero]
          rfl
        · obtain ⟨new, he, hn, hp⟩ := msCell_delta_weak st hx
          have hg1 : g1 = ⟨g1.nodes, g.edges ++ new⟩ := by
            cases g1 with
            | mk n E => exact congrArg (MGraph.mk n) he
          rw [hg1, minNeibCount_append,
            minNeibCount_new_other2 m g1.nodes x cidx new hp hne
              (by rw [hd2]; omega),
            add_zero]
          rfl
      rw [ht, hc1]

/-- After `cmp_msgraph` on a resolved gradient state, every critical saddle
has exactly two 0-dimensional neighbours counted with multiplicity. -/
theorem Mesh.cmpMsgraph_minCount (hW : 0 < m.sizeX) (hH : 0 < m.sizeY)
    {st st2 : TMState} (hg : GInv m st)
    (hres : ∀ u < m.size, st.is_unpaired u = false) {fuel : ℕ}
    (hrun : cmpMsgraph m st fuel = some st2) {cidx : ℕ}
    (hdim : m.dim cidx = 1) (hcrit : st.crit cidx = true) :
    minNeibCount m st2.msgraph cidx = 2 := by
  obtain ⟨hr1, hr2⟩ := dim_eq_one_iff.mp hdim
  unfold cmpMsgraph at hrun
  dsimp only at hrun
  cases hfold : (m.cp st 1 ++ m.cp st 2).foldlM
      (fun g cidx => msCell m st fuel g cidx) ⟨st.crCells, []⟩ with
  | none =>
    rw [hfold] at hrun
    exact Option.noConfusion hrun
  | some gfin =>
    rw [hfold, Option.map_some'] at hrun
    have hst2 : st2.msgraph = gfin := by
      rw [← Option.some.inj hrun]
    have hall : ∀ x ∈ m.cp st 1 ++ m.cp st 2,
        m.dim x = 1 ∨ m.dim x = 2 := by
      intro x hx
      rcases List.mem_append.mp hx with h | h
      · exact Or.inl (by simpa using (List.mem_filter.mp h).2)
      · exact Or.inr (by simpa using (List.mem_filter.mp h).2)
    have hmem : cidx ∈ m.cp st 1 ++ m.cp st 2 :=
      List.mem_append.mpr (Or.inl (List.mem_filter.mpr
        ⟨(hg.crmem cidx).mpr hcrit, by simp [hdim]⟩))
    have hnd : (m.cp st 1 ++ m.cp st 2).Nodup := by
      rw [List.nodup_append]
      refine ⟨hg.crnd.filter _, hg.crnd.filter _, ?_⟩
      intro a ha1 ha2
      have h1 : m.dim a = 1 := by simpa using (List.mem_filter.mp ha1).2
      have h2 : m.dim a = 2 := by simpa using (List.mem_filter.mp ha2).2
      rw [h1] at h2
      exact absurd h2 (by omega)
    obtain ⟨l1, l2, hsplit⟩ := List.append_of_mem hmem
    rw [hsplit] at hfold hnd
    have hnot1 : cidx ∉ l1 := by
      intro hc
      exact (List.nodup_append.mp hnd).2.2 hc (List.mem_cons_self _ _)
    have hnot2 : cidx ∉ l2 :=
      (List.nodup_cons.mp (List.nodup_append.mp hnd).2.1).1
    have hall1 : ∀ x ∈ l1, (m.dim x = 1 ∨ m.dim x = 2) ∧ x ≠ cidx := by
      intro x hx
      refine ⟨hall x (hsplit ▸ List.mem_append_left _ hx), ?_⟩
      intro hxe
      exact hnot1 (hxe ▸ hx)
    have hall2 : ∀ x ∈ l2, (m.dim x = 1 ∨ m.dim x = 2) ∧ x ≠ cidx := by
      intro x hx
      refine ⟨hall x (hsplit ▸ List.mem_append_right _
        (List.mem_cons_of_mem _ hx)), ?_⟩
      intro hxe
      exact hnot2 (hxe ▸ hx)
    rw [List.foldlM_append] at hfold
    simp only [Option.bind_eq_bind] at hfold
    cases hf1 : l1.foldlM (fun g r => msCell m st fuel g r)
        (⟨st.crCells, []⟩ : MGraph) with
    | none =>
      rw [hf1, Option.none_bind] at hfold
      exact Option.noConfusion hfold
    | some gmid =>
      rw [hf1, Option.some_bind, List.foldlM_cons] at hfold
      simp only [Option.bind_eq_bind] at hfold
      cases hfx : msCell m st fuel gmid cidx with
      | none =>
        rw [hfx, Option.none_bind] at hfold
        exact Option.noConfusion hfold
      | some gcid =>
        rw [hfx, Option.some_bind] at hfold
        have h0 : minNeibCount m (⟨st.crCells, []⟩ : MGraph) cidx = 0 := rfl
        have hmid : minNeibCount m gmid cidx = 0 := by
          rw [foldMsCell_preserve hW hH hg hres hr1 l1 hall1 _ _ hf1, h0]
        obtain ⟨new, he, hn, hp, hlen⟩ :=
          msCell_count_dim1 hW hH hg hres hr1 hr2 hfx
        have hgc : gcid = ⟨gcid.nodes, gmid.edges ++ new⟩ := by
          cases gcid with
          | mk n E => exact congrArg (MGraph.mk n) he
        have hcid2 : minNeibCount m gcid cidx = 2 := by
          rw [hgc, minNeibCount_append,
            minNeibCount_new_self m gcid.nodes cidx new hp]
          have hmid2 : minNeibCount m (⟨gcid.nodes, gmid.edges⟩ : MGraph) cidx
              = minNeibCount m gmid cidx := rfl
          rw [hmid2, hmid, hlen]
        rw [hst2, foldMsCell_preserve hW hH hg hres hr1 l2 hall2 _ _ hfold,
          hcid2]

/-- C5 ("corrected", minimum side): after `cmp_discrete_gradient` and
`cmp_msgraph`, every critical saddle has exactly two 0-critical neighbours
in the MS multigraph, counted with multiplicity, and
`get_min_neib_msgraph` returns that two-element list without raising. -/
theorem C5_amended (m : Mesh) (hW : 0 < m.sizeX) (hH : 0 < m.sizeY)
    {fuel1 fuel2 : ℕ} {st0 st1 st2 : TMState}
    (hgrad : cmpDiscreteGradient m fuel1 st0 = some st1)
    (hms : cmpMsgraph m st1 fuel2 = some st2)
    {cidx : ℕ} (hdim : m.dim cidx = 1) (hcrit : st1.crit cidx = true) :
    ∃ l, getMinNeib m st2 cidx = some l ∧ l.length = 2 := by
  obtain ⟨hg, hres, -, -⟩ := Mesh.cmpDiscreteGradient_post hW hH hgrad
  have hcount := Mesh.cmpMsgraph_minCount hW hH hg hres hms hdim hcrit
  have hlen : ((st2.msgraph.neighbors cidx).filter
      (fun n => decide (m.dim n = 0))).length = 2 := hcount
  refine ⟨(st2.msgraph.neighbors cidx).filter
    (fun n => decide (m.dim n = 0)), ?_, hlen⟩
  unfold getMinNeib
  rw [if_neg (by rw [hdim]; exact fun h => h rfl)]
  dsimp only
  rw [if_neg (by rw [hlen]; exact fun h => h rfl)]

/-- C5 amended witness: on the 2×2 grid, the saddle `5` of the computed MS
multigraph has `get_min_neib_msgraph` returning a two-element list. -/
theorem C5_amended_witness :
    ((0 < mesh22.sizeX ∧ 0 < mesh22.sizeY) ∧
      mesh22.dim 5 = 1 ∧ st22grad.crit 5 = true) ∧
    ∃ l, getMinNeib mesh22 st22ms 5 = some l ∧ l.length = 2 :=
  ⟨⟨⟨by decide, by decide⟩, by decide, by decide⟩,
   C5_amended mesh22 (by decide) (by decide)
     (optEqSomeGetD _ TMState.init (by decide))
     (optEqSomeGetD _ TMState.init (by decide))
     (by decide) (by decide)⟩

/-- Reverting the gradient along chunks only rewrites `V`. -/
theorem foldl_set_arrow_fields (chunks : List (ℕ × ℕ)) :
    ∀ (st : TMState),
      (chunks.foldl (fun s p => s.set_gradient_arrow p.1 p.2) st).crit = st.crit ∧
      (chunks.foldl (fun s p => s.set_gradient_arrow p.1 p.2) st).crCells = st.crCells ∧
      (chunks.foldl (fun s p => s.set_gradient_arrow p.1 p.2) st).msgraph = st.msgraph ∧
      (chunks.foldl (fun s p => s.set_gradient_arrow p.1 p.2) st).ppairs = st.ppairs ∧
      (chunks.foldl (fun s p => s.set_gradient_arrow p.1 p.2) st).arcs = st.arcs := by
  induction chunks with
  | nil => exact fun st => ⟨rfl, rfl, rfl, rfl, rfl⟩
  | cons q t ih =>
    intro st
    exact ih (st.set_gradient_arrow q.1 q.2)

/-- Reverting the gradient along chunks with pairwise-distinct touched cells
pairs each chunk mutually and leaves every untouched cell alone. -/
theorem foldl_set_arrow_V (chunks : List (ℕ × ℕ)) :
    ∀ (st : TMState), (touchedCells chunks).Nodup →
      (∀ p ∈ chunks,
        (chunks.foldl (fun s p => s.set_gradient_arrow p.1 p.2) st).V p.1 = some p.2 ∧
        (chunks.foldl (fun s p => s.set_gradient_arrow p.1 p.2) st).V p.2 = some p.1) ∧
      (∀ c, c ∉ touchedCells chunks →
        (chunks.foldl (fun s p => s.set_gradient_arrow p.1 p.2) st).V c = st.V c) := by
  induction chunks with
  | nil =>
    exact fun st _ => ⟨fun p hp => absurd hp (List.not_mem_nil p), fun c _ => rfl⟩
  | cons q t ih =>
    intro st hA
    have hq1 : q.1 ∉ q.2 :: touchedCells t := (List.nodup_cons.mp hA).1
    have hrest : (q.2 :: touchedCells t).Nodup := (List.nodup_cons.mp hA).2
    have hq12 : q.1 ≠ q.2 := fun h => hq1 (h ▸ List.mem_cons_self _ _)
    have hq1t : q.1 ∉ touchedCells t :=
      fun h => hq1 (List.mem_cons_of_mem _ h)
    have hq2t : q.2 ∉ touchedCells t := (List.nodup_cons.mp hrest).1
    obtain ⟨ih1, ih2⟩ := ih (st.set_gradient_arrow q.1 q.2) (List.nodup_cons.mp hrest).2
    refine ⟨?_, ?_⟩
    · intro p hp
      rcases List.mem_cons.mp hp with hpq | hpt
      · rw [hpq]
        constructor
        · rw [List.foldl_cons, ih2 q.1 hq1t]
          show (if q.1 = q.2 then some q.1
            else if q.1 = q.1 then some q.2 else st.V q.1) = some q.2
          rw [if_neg hq12, if_pos rfl]
        · rw [List.foldl_cons, ih2 q.2 hq2t]
          show (if q.2 = q.2 then some q.1
            else if q.2 = q.1 then some q.2 else st.V q.2) = some q.1
          rw [if_pos rfl]
      · exact ih1 p hpt
    · intro c hc
      have hc1 : c ≠ q.1 := fun h => hc (h ▸ List.mem_cons_self _ _)
      have hc2 : c ≠ q.2 :=
        fun h => hc (List.mem_cons_of_mem _ (h ▸ List.mem_cons_self _ _))
      have hct : c ∉ touchedCells t :=
        fun h => hc (List.mem_cons_of_mem _ (List.mem_cons_of_mem _ h))
      rw [List.foldl_cons, ih2 c hct]
      show (if c = q.2 then some q.1
        else if c = q.1 then some q.2 else st.V c) = st.V c
      rw [if_neg hc2, if_neg hc1]

/-- Membership in the touched cells of a chunk list. -/
theorem mem_touchedCells {c : ℕ} {chunks : List (ℕ × ℕ)} :
    c ∈ touchedCells chunks ↔ ∃ p ∈ chunks, c = p.1 ∨ c = p.2 := by
  induction chunks with
  | nil => simp [touchedCells]
  | cons q t ih =>
    simp only [touchedCells, List.mem_cons, ih]
    constructor
    · rintro (h | h | ⟨p, hp, hcp⟩)
      · exact ⟨q, Or.inl rfl, Or.inl h⟩
      · exact ⟨q, Or.inl rfl, Or.inr h⟩
      · exact ⟨p, Or.inr hp, hcp⟩
    · rintro ⟨p, hp | hp, hcp⟩
      · rw [hp] at hcp
        rcases hcp with h | h
        · exact Or.inl h
        · exact Or.inr (Or.inl h)
      · exact Or.inr (Or.inr ⟨p, hp, hcp⟩)

/-- C8: one successful call of `eliminate_pair_revert_gradient` on a state
satisfying the MS-complex invariants removes exactly two critical cells and
one persistence pair, and preserves the gradient involution. -/
theorem C8_eliminate_pair (m : Mesh) {st st' : TMState} {fuel : ℕ}
    {pair : ℕ × ℕ × ℚ} {arc : List ℕ} {chunks : List (ℕ × ℕ)}
    (hlast : st.ppairs.getLast? = some pair)
    (hsd : m.dim pair.1 = 1) (hed : m.dim pair.2.1 ≠ 1)
    (harc : find_arc { st with ppairs := st.ppairs.dropLast } pair.1 pair.2.1 =
      some arc)
    (hch : arcChunks arc = some chunks)
    (hcd : ∀ p ∈ chunks, ((m.dim p.2 : ℤ) - (m.dim p.1 : ℤ)).natAbs = 1)
    (hA : (touchedCells chunks).Nodup)
    (hinv : ∀ c < 4 * m.size, ∀ b ∈ st.V c,
      st.V b = some c ∧ ((m.dim b : ℤ) - (m.dim c : ℤ)).natAbs = 1)
    (hclosed : ∀ c < 4 * m.size, ∀ b ∈ st.V c,
      (c ∈ touchedCells chunks ↔ b ∈ touchedCells chunks))
    (hrun : elimRevert m st fuel = some st') :
    st'.crCells.length + 2 = st.crCells.length ∧
    st'.ppairs.length + 1 = st.ppairs.length ∧
    ∀ c < 4 * m.size, ∀ b, st'.V c = some b →
      st'.V b = some c ∧ ((m.dim b : ℤ) - (m.dim c : ℤ)).natAbs = 1 := by
  unfold elimRevert at hrun
  rw [hlast] at hrun
  dsimp only at hrun
  rw [if_neg (fun h => h hsd)] at hrun
  split at hrun
  · exact Option.noConfusion hrun
  · split at hrun
    all_goals try exact Option.noConfusion hrun
    rw [if_neg hed] at hrun
    split at hrun
    · exact Option.noConfusion hrun
    · split at hrun
      · exact Option.noConfusion hrun
      · rename_i heq1 s2 arcv harc2 s3 csv hch2
        cases Option.some.inj (harc.symm.trans harc2)
        cases Option.some.inj (hch.symm.trans hch2)
        simp only [Option.bind_eq_bind] at hrun
        rw [Option.bind_eq_some] at hrun
        obtain ⟨st2, hu1, hrun⟩ := hrun
        rw [Option.bind_eq_some] at hrun
        obtain ⟨st3, hu2, hrun⟩ := hrun
        unfold TMState.unset_critical at hu1 hu2
        split at hu1
        case isFalse => exact Option.noConfusion hu1
        case isTrue hmem1 =>
        split at hu2
        case isFalse => exact Option.noConfusion hu2
        case isTrue hmem2 =>
        have hst2 := Option.some.inj hu1
        have hst3 := Option.some.inj hu2
        obtain ⟨hpairV, hframeV⟩ :=
          foldl_set_arrow_V chunks { st with ppairs := st.ppairs.dropLast } hA
        have h2V : st2.V = (chunks.foldl (fun (s : TMState) p => s.set_gradient_arrow p.1 p.2)
            { st with ppairs := st.ppairs.dropLast }).V := by
          rw [← hst2]
        have h2c : st2.crCells = st.crCells.erase pair.1 := by
          rw [← hst2]
          rw [(foldl_set_arrow_fields chunks
            { st with ppairs := st.ppairs.dropLast }).2.1]
        have h2p : st2.ppairs = st.ppairs.dropLast := by
          rw [← hst2]
          rw [(foldl_set_arrow_fields chunks
            { st with ppairs := st.ppairs.dropLast }).2.2.2.1]
        have h3V : st3.V = st2.V := by rw [← hst3]
        have h3c : st3.crCells = st2.crCells.erase pair.2.1 := by rw [← hst3]
        have h3p : st3.ppairs = st2.ppairs := by rw [← hst3]
        have hmem1' : pair.1 ∈ st.crCells := by
          rw [(foldl_set_arrow_fields chunks
            { st with ppairs := st.ppairs.dropLast }).2.1] at hmem1
          exact hmem1
        have hmem2' : pair.2.1 ∈ st.crCells.erase pair.1 := by
          rw [h2c] at hmem2
          exact hmem2
        split at hrun
        · exact Option.noConfusion hrun
        · rw [Option.bind_eq_some] at hrun
          obtain ⟨st6, hf6, hfin⟩ := hrun
          have hst' := Option.some.inj hfin
          have hP6 : st6.V = st3.V ∧ st6.crCells = st3.crCells ∧
              st6.ppairs = st3.ppairs := by
            refine foldlM_option_inv
              (fun (s : TMState) => s.V = st3.V ∧ s.crCells = st3.crCells ∧
                s.ppairs = st3.ppairs) _ _ _ ?_ ?_ st6 hf6
            case refine_1 => exact ⟨rfl, rfl, rfl⟩
            intro b' x r hx hP hstep
            rw [Option.bind_eq_some] at hstep
            obtain ⟨g, hg, hstep⟩ := hstep
            rw [Option.bind_eq_some] at hstep
            obtain ⟨na, hna, hstep⟩ := hstep
            rw [Option.bind_eq_some] at hstep
            obtain ⟨aa, haa, hstep⟩ := hstep
            simp only [Option.pure_def, Option.some.injEq] at hstep
            refine ⟨?_, ?_, ?_⟩
            · rw [← hstep]
              exact hP.1
            · rw [← hstep]
              exact hP.2.1
            · rw [← hstep]
              exact hP.2.2
          have h'V : st'.V = st6.V := by rw [← hst']
          have h'c : st'.crCells = st6.crCells := by rw [← hst']
          have h'p : st'.ppairs = st6.ppairs := by rw [← hst']
          have hlen1 : (st.crCells.erase pair.1).length =
              st.crCells.length - 1 := List.length_erase_of_mem hmem1'
          have hlen2 : ((st.crCells.erase pair.1).erase pair.2.1).length =
              (st.crCells.erase pair.1).length - 1 :=
            List.length_erase_of_mem hmem2'
          have hpos1 : 0 < st.crCells.length := List.length_pos_of_mem hmem1'
          have hpos2 : 0 < (st.crCells.erase pair.1).length :=
            List.length_pos_of_mem hmem2'
          have hcc : st'.crCells = (st.crCells.erase pair.1).erase pair.2.1 := by
            rw [h'c, hP6.2.1, h3c, h2c]
          have hpp : st'.ppairs = st.ppairs.dropLast := by
            rw [h'p, hP6.2.2, h3p, h2p]
          have hne : st.ppairs ≠ [] := by
            intro h
            rw [h] at hlast
            exact Option.noConfusion hlast
          have hVV : st'.V = (chunks.foldl
              (fun (s : TMState) p => s.set_gradient_arrow p.1 p.2)
              { st with ppairs := st.ppairs.dropLast }).V := by
            rw [h'V, hP6.1, h3V, h2V]
          refine ⟨?_, ?_, ?_⟩
          · rw [hcc, hlen2, hlen1]
            omega
          · rw [hpp, List.length_dropLast]
            have := List.length_pos.mpr hne
            omega
          · intro c hc b hVb
            rw [hVV] at hVb
            rw [hVV]
            by_cases hct : c ∈ touchedCells chunks
            · obtain ⟨p, hp, hcp⟩ := mem_touchedCells.mp hct
              rcases hcp with h1 | h1
              · rw [h1] at hVb
                rw [(hpairV p hp).1] at hVb
                have hb : b = p.2 := (Option.some.inj hVb).symm
                subst hb
                rw [h1]
                exact ⟨(hpairV p hp).2, hcd p hp⟩
              · rw [h1] at hVb
                rw [(hpairV p hp).2] at hVb
                have hb : b = p.1 := (Option.some.inj hVb).symm
                subst hb
                rw [h1]
                refine ⟨(hpairV p hp).1, ?_⟩
                have := hcd p hp
                omega
            · have hVc : st.V c = some b := by
                rw [hframeV c hct] at hVb
                exact hVb
              have hmemb : b ∈ st.V c := Option.mem_def.mpr hVc
              obtain ⟨hVbc, hdims⟩ := hinv c hc b hmemb
              have hbt : b ∉ touchedCells chunks :=
                fun hb => hct ((hclosed c hc b hmemb).mpr hb)
              refine ⟨?_, hdims⟩
              rw [hframeV b hbt]
              exact hVbc

/-- C8 witness: on the two-peak Morse–Smale state of `meshE`, eliminating
the last pair `(22, 30, 85)` removes two critical cells and one pair and
keeps the gradient involution. -/
theorem C8_witness :
    (stW.ppairs.getLast? = some (22, 30, 85) ∧
     meshE.dim 22 = 1 ∧ meshE.dim 30 ≠ 1 ∧
     stW.crCells.length = 6 ∧ stW.ppairs.length = 2) ∧
    (stWelim.crCells.length + 2 = stW.crCells.length ∧
     stWelim.ppairs.length + 1 = stW.ppairs.length ∧
     ∀ c < 4 * meshE.size, ∀ b, stWelim.V c = some b →
       stWelim.V b = some c ∧
       ((meshE.dim b : ℤ) - (meshE.dim c : ℤ)).natAbs = 1) :=
  ⟨⟨by decide, by decide, by decide, by decide, by decide⟩,
   @C8_eliminate_pair meshE stW stWelim 300 (22, 30, 85) [22, 30] [(22, 30)]
     (by decide) (by decide) (by decide) (by decide) (by decide) (by decide)
     (by decide) (by decide) (by decide)
     (optEqSomeGetD _ TMState.init (by decide))⟩
